import Mathlib

/-!
# Spreadsheet recalculation core (YaKho/spreadsheet): `cell.cpp`, `sheet.cpp`

Shallow embedding of `Cell` and `Sheet`.

* A `std::string` is a Lean `String`; the tests the code makes (`empty()`, `size() > 1`,
  `text[0] == sign` for an ASCII sign, `substr(1)` behind an ASCII first character) agree on
  bytes and on characters.
* A `Cell*` is the `Position` of the slot that owns the cell: `Sheet::SetCell` emplaces at most
  one cell per position and nothing ever re-seats a slot, so positions identify cells.  A null
  pointer is `none`.  A slot whose `unique_ptr` was `reset()` is the entry `(pos, none)`.
* `std::unordered_set<Cell*>` is a list used as a set (`setInsert`, `setErase`).
* Member functions that mutate the sheet return an `Outcome`: normal return, a thrown
  exception together with the state at the throw, a null or dangling dereference, or
  unbounded recursion.
* The formula parser, the evaluator and `Position::IsValid` are not part of these files; they
  are the fields of `External` and the `evaluated` argument of `GetValue`.
* The stack loop of `CheckCycles` and the recursion of `ClearCacheRec` run on fuel that the
  model computes from the sheet (`CheckCycles.fuel`, `ClearCacheRec.fuel`).  The first is never
  used up (`CheckCycles_ne_diverged`); the second is not used up when the dependents graph
  has no cycle (`ClearCacheRec_total`), which holds in every state that `SetCell` calls build
  (`run_consistent`).  The nesting of `SetCell` inside `Cell::Set` stops at depth two
  (`SetCellRec_depth`).
* `int` is `Int`: the only arithmetic is `pos.row + 1` and `pos.col + 1` in
  `GetPrintableSize`, on keys of `cells_`, which are positions that `IsValid` accepted
  (`run_wellKeyed`).  A `std::ostream` is the `String` of what was written to it.
-/

namespace Spreadsheet

/-! ## Data model -/

/-- Coordinate pair `Position { int row; int col; }`. -/
structure Position where
  row : Int
  col : Int
  deriving DecidableEq, Repr

/-- Modelled from the spec: the constant FORMULA_SIGN of common.h, the formula marker `=`. -/
def FORMULA_SIGN : Char := '='

/-- Modelled from the spec: the constant ESCAPE_SIGN of common.h, the escape marker (the
apostrophe, code point 39). -/
def ESCAPE_SIGN : Char := Char.ofNat 39

/-- Modelled from the spec: `FormulaInterface::Value`, a `double` (kept as its bit pattern, no
arithmetic is done on it here) or a typed evaluation error (kept as its category number). -/
inductive FormulaValue where
  | number (bits : Nat)
  | error (category : Nat)
  deriving DecidableEq, Repr

/-- The variant `CellInterface::Value`: string, double or evaluation error. -/
inductive Value where
  | str (text : String)
  | number (bits : Nat)
  | error (category : Nat)
  deriving DecidableEq, Repr

/-- A parsed formula as `Cell` sees it through `FormulaInterface`: the results of
`GetExpression()` and `GetReferencedCells()`. -/
structure Formula where
  expression : String
  referenced : List Position
  deriving DecidableEq, Repr

/-- The collaborators that live outside `cell.cpp` and `sheet.cpp`:
`Position::IsValid` and `ParseFormula` (`none` when it throws `FormulaException`). -/
structure External where
  IsValid : Position → Bool
  ParseFormula : String → Option Formula

/-- The class hierarchy `Cell::Impl` with its three subclasses and their data members. -/
inductive Impl where
  | EmptyImpl
  | TextImpl (text_ : String)
  | FormulaImpl (formula_ : Formula) (cache_ : Option FormulaValue)
  deriving DecidableEq, Repr

/-- The data members of `Cell`: `impl_`, `parents_nodes_` (depends_on) and `children_nodes_`
(dependents). -/
structure Cell where
  impl_ : Impl
  parents_nodes_ : List Position
  children_nodes_ : List Position
  deriving DecidableEq, Repr

/-- The data member of `Sheet`: `cells_`, with unique keys; the value `none` is a null
`unique_ptr`. -/
structure Sheet where
  cells_ : List (Position × Option Cell)
  deriving DecidableEq, Repr

/-- Exceptions the code throws. -/
inductive Exception where
  | InvalidPositionException
  | FormulaException
  | CircularDependencyException
  | logic_error
  deriving DecidableEq, Repr

/-- Result of a const member function. -/
inductive Res (α : Type) where
  | ok (a : α)
  | threw (e : Exception)
  | fault
  | diverged
  deriving DecidableEq, Repr

/-- Result of a mutating member function, with the sheet state it leaves. -/
inductive Outcome where
  | ok (s : Sheet)
  | threw (e : Exception) (s : Sheet)
  | fault
  | diverged
  deriving DecidableEq, Repr

/-- The state after the call, when the call came back (normally or by an exception). -/
def Outcome.state? : Outcome → Option Sheet
  | .ok s => some s
  | .threw _ s => some s
  | .fault => none
  | .diverged => none

/-! ## Sets of cell pointers -/

/-- The call `unordered_set::insert`. -/
def setInsert (x : Position) (l : List Position) : List Position :=
  if x ∈ l then l else l ++ [x]

/-- The call `unordered_set::erase(key)`. -/
def setErase (x : Position) (l : List Position) : List Position :=
  l.filter (fun y => decide (y ≠ x))

/-! ## Storage -/

/-- Lookup in `cells_`: `none` when `cells_.count(pos) == 0`, else the slot. -/
def slotOf : List (Position × Option Cell) → Position → Option (Option Cell)
  | [], _ => none
  | (k, v) :: rest, pos => if k = pos then some v else slotOf rest pos

/-- Assignment to the slot of `pos`, a new entry when there is none. -/
def putSlot : List (Position × Option Cell) → Position → Option Cell →
    List (Position × Option Cell)
  | [], pos, v => [(pos, v)]
  | (k, w) :: rest, pos, v =>
    if k = pos then (k, v) :: rest else (k, w) :: putSlot rest pos v

/-- The slot `cells_.at(pos)` when `cells_.count(pos)`. -/
def Sheet.slot (s : Sheet) (pos : Position) : Option (Option Cell) :=
  slotOf s.cells_ pos

/-- Dereference of the cell pointer `p`: `none` when no live cell is there. -/
def Sheet.cell (s : Sheet) (p : Position) : Option Cell :=
  (s.slot p).join

/-- Write through the cell pointer `p`. -/
def Sheet.store (s : Sheet) (p : Position) (c : Cell) : Sheet :=
  ⟨putSlot s.cells_ p (some c)⟩

/-- The constructor `Cell::Cell(Sheet&)`: empty content, no edges. -/
def Cell.new : Cell := ⟨Impl.EmptyImpl, [], []⟩

/-- The empty sheet. -/
def Sheet.empty : Sheet := ⟨[]⟩

/-! ## `Cell::Impl` -/

/-- The method `GetReferencedCells` of the three subclasses. -/
def Impl.GetReferencedCells : Impl → List Position
  | .EmptyImpl => []
  | .TextImpl _ => []
  | .FormulaImpl formula_ _ => formula_.referenced

/-- The method `ClearCache` of the three subclasses. -/
def Impl.ClearCache : Impl → Impl
  | .EmptyImpl => .EmptyImpl
  | .TextImpl text_ => .TextImpl text_
  | .FormulaImpl formula_ _ => .FormulaImpl formula_ none

/-- The method `GetText` of the three subclasses. -/
def Impl.GetText : Impl → String
  | .EmptyImpl => ""
  | .TextImpl text_ => text_
  | .FormulaImpl formula_ _ => String.singleton FORMULA_SIGN ++ formula_.expression

/-- The method `GetValue` of the three subclasses; `evaluated` is what
`formula_->Evaluate(sheet)` yields when it is called.  Returns the value and the object with
its (mutable) cache. -/
def Impl.GetValue (evaluated : FormulaValue) : Impl → Value × Impl
  | .EmptyImpl => (.str "", .EmptyImpl)
  | .TextImpl text_ =>
    if text_.get 0 = ESCAPE_SIGN then (.str (text_.drop 1), .TextImpl text_)
    else (.str text_, .TextImpl text_)
  | .FormulaImpl formula_ cache_ =>
    let cache := match cache_ with
      | none => evaluated
      | some v => v
    match cache with
    | .number d => (.number d, .FormulaImpl formula_ (some cache))
    | .error e => (.error e, .FormulaImpl formula_ (some cache))

/-- The cached value of a content object, `none` when it has no cache or the cache is empty. -/
def Impl.cache? : Impl → Option FormulaValue
  | .FormulaImpl _ cache_ => cache_
  | _ => none

/-- The constructor `TextImpl(std::string)`. -/
def TextImpl.new (text : String) : Except Exception Impl :=
  if text.isEmpty then .error .logic_error else .ok (.TextImpl text)

/-- The constructor `FormulaImpl(std::string)`. -/
def FormulaImpl.new (ext : External) (expr : String) : Except Exception Impl :=
  if expr.isEmpty || expr.get 0 != FORMULA_SIGN then .error .logic_error
  else match ext.ParseFormula (expr.drop 1) with
    | none => .error .FormulaException
    | some f => .ok (.FormulaImpl f none)

/-! ## `Sheet::GetCell` and `Cell::CheckCycles` -/

/-- The method `Sheet::GetCell` (both variants): the pointer to the cell, null when absent. -/
def Sheet.GetCell (ext : External) (s : Sheet) (pos : Position) :
    Except Exception (Option Position) :=
  if !ext.IsValid pos then .error .InvalidPositionException
  else match s.slot pos with
    | some (some _) => .ok (some pos)
    | _ => .ok none

/-- First loop of `CheckCycles`: push `GetCell(pos)` for every referenced position. -/
def CheckCycles.pushAll (ext : External) (s : Sheet) :
    List Position → List (Option Position) → Except Exception (List (Option Position))
  | [], st => .ok st
  | pos :: rest, st =>
    match s.GetCell ext pos with
    | .error e => .error e
    | .ok cell => CheckCycles.pushAll ext s rest (cell :: st)

/-- Inner loop of `CheckCycles`: push `GetCell(pos)` unless it is in `visited_cells`. -/
def CheckCycles.pushUnvisited (ext : External) (s : Sheet) (visited : List (Option Position)) :
    List Position → List (Option Position) → Except Exception (List (Option Position))
  | [], st => .ok st
  | pos :: rest, st =>
    match s.GetCell ext pos with
    | .error e => .error e
    | .ok cell =>
      if cell ∈ visited then CheckCycles.pushUnvisited ext s visited rest st
      else CheckCycles.pushUnvisited ext s visited rest (cell :: st)

/-- The `while (!st.empty())` loop of `CheckCycles`; the head of `st` is the top of the stack.
`fuel` bounds the number of iterations. -/
def CheckCycles.loop (ext : External) (s : Sheet) (this : Position) :
    Nat → List (Option Position) → List (Option Position) → Res Bool
  | 0, _, _ => .diverged
  | _ + 1, [], _ => .ok false
  | fuel + 1, none :: st, visited => CheckCycles.loop ext s this fuel st visited
  | fuel + 1, some cur :: st, visited =>
    let visited := if some cur ∈ visited then visited else some cur :: visited
    if cur = this then .ok true
    else match s.cell cur with
      | none => .fault
      | some c =>
        match CheckCycles.pushUnvisited ext s visited c.impl_.GetReferencedCells st with
        | .error e => .threw e
        | .ok st => CheckCycles.loop ext s this fuel st visited

/-- Largest number of referenced positions of a cell of the sheet. -/
def Sheet.maxRefs (s : Sheet) : Nat :=
  (s.cells_.map (fun kv => match kv.2 with
    | some c => c.impl_.GetReferencedCells.length
    | none => 0)).foldr max 0

/-- A number of iterations the stack loop cannot exceed from the stack `st`. -/
def CheckCycles.fuel (s : Sheet) (st : List (Option Position)) : Nat :=
  st.length * (s.maxRefs + 1) ^ (2 * s.cells_.length + 1) + 1

/-- The method `Cell::CheckCycles` of the cell `this` for the candidate content `impl`. -/
def Cell.CheckCycles (ext : External) (s : Sheet) (this : Position) (impl : Impl) : Res Bool :=
  match CheckCycles.pushAll ext s impl.GetReferencedCells [] with
  | .error e => .threw e
  | .ok st => CheckCycles.loop ext s this (CheckCycles.fuel s st) st []

/-! ## `Cell::ClearCacheRec` -/

/-- The method `Cell::ClearCache` of the cell `this`. -/
def Cell.ClearCache (s : Sheet) (this : Position) : Option Sheet :=
  match s.cell this with
  | none => none
  | some c => some (s.store this { c with impl_ := c.impl_.ClearCache })

/-- The loop `for (auto node : children_nodes_) node->ClearCacheRec()`, given the recursive
call. -/
def ClearCacheRec.children (rec : Position → Sheet → Outcome) :
    List Position → Sheet → Outcome
  | [], s => .ok s
  | node :: rest, s =>
    match rec node s with
    | .ok s1 => ClearCacheRec.children rec rest s1
    | other => other

/-- The method `Cell::ClearCacheRec` of the cell `this`; `fuel` bounds the recursion depth. -/
def Cell.ClearCacheRec : Nat → Position → Sheet → Outcome
  | 0, _, _ => .diverged
  | fuel + 1, this, s =>
    match s.cell this with
    | none => .fault
    | some c =>
      match Cell.ClearCache s this with
      | none => .fault
      | some s1 => ClearCacheRec.children (Cell.ClearCacheRec fuel) c.children_nodes_ s1

/-- Recursion depth that `ClearCacheRec` cannot exceed unless the dependents graph has a
cycle. -/
def ClearCacheRec.fuel (s : Sheet) : Nat := s.cells_.length + 1

/-! ## `Cell::Set` -/

/-- Lines 100 to 111 of `Cell::Set`: the provisional content `tmp`. -/
def Cell.Set.tmp (ext : External) (s : Sheet) (this : Position) (text : String) : Res Impl :=
  if text.isEmpty then .ok .EmptyImpl
  else if text.length > 1 && text.get 0 == FORMULA_SIGN then
    match FormulaImpl.new ext text with
    | .error e => .threw e
    | .ok tmp =>
      match Cell.CheckCycles ext s this tmp with
      | .ok true => .threw .CircularDependencyException
      | .ok false => .ok tmp
      | .threw e => .threw e
      | .fault => .fault
      | .diverged => .diverged
  else
    match TextImpl.new text with
    | .error e => .threw e
    | .ok tmp => .ok tmp

/-- The loop `for (auto node : parents_nodes_) node->children_nodes_.erase(this)`. -/
def Cell.Set.unlink (this : Position) : List Position → Sheet → Option Sheet
  | [], s => some s
  | node :: rest, s =>
    match s.cell node with
    | none => none
    | some d =>
      Cell.Set.unlink this rest
        (s.store node { d with children_nodes_ := setErase this d.children_nodes_ })

/-- The two inserts `parent->children_nodes_.insert(this); parents_nodes_.insert(parent)`. -/
def Cell.Set.link (this parent : Position) (s : Sheet) : Option Sheet :=
  match s.cell parent with
  | none => none
  | some d =>
    let s1 := s.store parent { d with children_nodes_ := setInsert this d.children_nodes_ }
    match s1.cell this with
    | none => none
    | some c => some (s1.store this { c with parents_nodes_ := setInsert parent c.parents_nodes_ })

/-- The loop over `GetReferencedCells()` of `Cell::Set`; `SetCell` is `sheet_.SetCell`. -/
def Cell.Set.relink (ext : External) (SetCell : Position → String → Sheet → Outcome)
    (this : Position) : List Position → Sheet → Outcome
  | [], s => .ok s
  | pos :: rest, s =>
    match s.GetCell ext pos with
    | .error e => .threw e s
    | .ok (some parent) =>
      match Cell.Set.link this parent s with
      | none => .fault
      | some s1 => Cell.Set.relink ext SetCell this rest s1
    | .ok none =>
      match SetCell pos "" s with
      | .ok s1 =>
        match s1.GetCell ext pos with
        | .error e => .threw e s1
        | .ok none => .fault
        | .ok (some parent) =>
          match Cell.Set.link this parent s1 with
          | none => .fault
          | some s2 => Cell.Set.relink ext SetCell this rest s2
      | other => other

/-- Lines 112 to 127 of `Cell::Set`: the content `tmp` is committed, the old edges are
removed and the edges to the cells `tmp` references are added. -/
def Cell.Set.rewire (ext : External) (SetCell : Position → String → Sheet → Outcome)
    (this : Position) (tmp : Impl) (s : Sheet) : Outcome :=
  match s.cell this with
  | none => .fault
  | some c =>
    let s1 := s.store this { c with impl_ := tmp }
    match Cell.Set.unlink this c.parents_nodes_ s1 with
    | none => .fault
    | some s2 =>
      match s2.cell this with
      | none => .fault
      | some c2 =>
        Cell.Set.relink ext SetCell this tmp.GetReferencedCells
          (s2.store this { c2 with parents_nodes_ := [] })

/-- The method `Cell::Set` of the cell `this`; `SetCell` is `sheet_.SetCell`. -/
def Cell.SetWith (ext : External) (SetCell : Position → String → Sheet → Outcome)
    (this : Position) (text : String) (s : Sheet) : Outcome :=
  match Cell.Set.tmp ext s this text with
  | .threw e => .threw e s
  | .fault => .fault
  | .diverged => .diverged
  | .ok tmp =>
    match Cell.Set.rewire ext SetCell this tmp s with
    | .ok s4 => Cell.ClearCacheRec (ClearCacheRec.fuel s4) this s4
    | other => other

/-! ## `Sheet` -/

/-- The method `Sheet::SetCell`; `depth` bounds the nesting of `SetCell` inside `Cell::Set`
inside `SetCell`. -/
def Sheet.SetCellRec (ext : External) : Nat → Position → String → Sheet → Outcome
  | 0, _, _, _ => .diverged
  | depth + 1, pos, text, s =>
    if !ext.IsValid pos then .threw .InvalidPositionException s
    else
      let s1 : Sheet := if (s.slot pos).isSome then s else ⟨putSlot s.cells_ pos (some Cell.new)⟩
      match s1.slot pos with
      | some (some _) => Cell.SetWith ext (Sheet.SetCellRec ext depth) pos text s1
      | _ => .fault

/-- The method `Sheet::SetCell`.  The nested call made by `Cell::Set` passes the empty text,
which references nothing, so the nesting stops at depth two. -/
def Sheet.SetCell (ext : External) (pos : Position) (text : String) (s : Sheet) : Outcome :=
  Sheet.SetCellRec ext 2 pos text s

/-- The method `Cell::Set` called on the cell `this` of the sheet. -/
def Cell.Set (ext : External) (this : Position) (text : String) (s : Sheet) : Outcome :=
  Cell.SetWith ext (Sheet.SetCellRec ext 1) this text s

/-- The method `Cell::Clear` of the cell `this`. -/
def Cell.Clear (this : Position) (s : Sheet) : Outcome :=
  match s.cell this with
  | none => .fault
  | some c => .ok (s.store this { c with impl_ := .EmptyImpl })

/-- The method `Cell::GetText` of the cell `this`. -/
def Cell.GetText (s : Sheet) (this : Position) : Option String :=
  (s.cell this).map (fun c => c.impl_.GetText)

/-- The method `Cell::GetValue` of the cell `this`, where `evaluated` is what the evaluator
returns if it is called: the value, and the sheet with the cache of `this` filled. -/
def Cell.GetValue (evaluated : FormulaValue) (s : Sheet) (this : Position) :
    Option (Value × Sheet) :=
  match s.cell this with
  | none => none
  | some c =>
    let r := c.impl_.GetValue evaluated
    some (r.1, s.store this { c with impl_ := r.2 })

/-- The method `Sheet::ClearCell`. -/
def Sheet.ClearCell (ext : External) (pos : Position) (s : Sheet) : Outcome :=
  if !ext.IsValid pos then .threw .InvalidPositionException s
  else match s.slot pos with
    | some (some _) =>
      match Cell.Clear pos s with
      | .ok s1 => .ok ⟨putSlot s1.cells_ pos none⟩
      | other => other
    | _ => .ok s

/-! ## Calls of a client, and runs -/

/-- A call a client makes on the sheet or on one of its cells.  `GetValue pos evaluated` is
`GetValue()` on the cell that `GetCell(pos)` returns, if it returns one, where the evaluator,
if called, returns `evaluated`; a read of a formula cell that evaluates other formula cells
is one such call per cell.  `Clear pos` is `Clear()` on the cell that `GetCell(pos)` returns,
if it returns one. -/
inductive Call where
  | SetCell (pos : Position) (text : String)
  | GetValue (pos : Position) (evaluated : FormulaValue)
  | Clear (pos : Position)
  | ClearCell (pos : Position)
  deriving DecidableEq, Repr

/-- Execution of one call. -/
def Call.exec (ext : External) (s : Sheet) : Call → Outcome
  | .SetCell pos text => Sheet.SetCell ext pos text s
  | .GetValue pos evaluated =>
    match s.GetCell ext pos with
    | .error e => .threw e s
    | .ok none => .ok s
    | .ok (some p) =>
      match Cell.GetValue evaluated s p with
      | none => .fault
      | some r => .ok r.2
  | .Clear pos =>
    match s.GetCell ext pos with
    | .error e => .threw e s
    | .ok none => .ok s
    | .ok (some p) => Cell.Clear p s
  | .ClearCell pos => Sheet.ClearCell ext pos s

/-- The state after a sequence of calls, each of which came back. -/
def run (ext : External) : List Call → Sheet → Option Sheet
  | [], s => some s
  | c :: rest, s =>
    match (c.exec ext s).state? with
    | none => none
    | some s1 => run ext rest s1

/-- Calls of the kinds `SetCell` and `GetValue`. -/
def Call.isSetOrGet : Call → Bool
  | .SetCell _ _ => true
  | .GetValue _ _ => true
  | _ => false

/-! ## The dependency graph -/

/-- The set `parents_nodes_` (depends_on) of the cell at `p`; empty when there is no cell. -/
def Sheet.parentsAt (s : Sheet) (p : Position) : List Position :=
  match s.cell p with
  | some c => c.parents_nodes_
  | none => []

/-- The set `children_nodes_` (dependents) of the cell at `p`; empty when there is no cell. -/
def Sheet.childrenAt (s : Sheet) (p : Position) : List Position :=
  match s.cell p with
  | some c => c.children_nodes_
  | none => []

/-- The content of the cell at `p`. -/
def Sheet.implAt (s : Sheet) (p : Position) : Option Impl :=
  (s.cell p).map (fun c => c.impl_)

/-- The positions the content of the cell at `p` references; none when there is no cell. -/
def Sheet.refsAt (s : Sheet) (p : Position) : List Position :=
  match s.cell p with
  | some c => c.impl_.GetReferencedCells
  | none => []

/-- The relation depends_on: `p` has `q` in its `parents_nodes_`. -/
def Sheet.dependsOn (s : Sheet) (p q : Position) : Prop := q ∈ s.parentsAt p

/-- The relation dependents: `p` has `q` in its `children_nodes_`. -/
def Sheet.dependent (s : Sheet) (p q : Position) : Prop := q ∈ s.childrenAt p

/-- A reference edge: the content of the cell at `p` references the position `q`, which holds
a cell. -/
def Sheet.refEdge (s : Sheet) (p q : Position) : Prop :=
  q ∈ s.refsAt p ∧ (s.cell q).isSome

/-- The depends_on graph has no directed cycle. -/
def Sheet.Acyclic (s : Sheet) : Prop := ∀ p, ¬ Relation.TransGen s.dependsOn p p

/-- Edge mutuality over the cells of the sheet. -/
def Sheet.Mutual (s : Sheet) : Prop :=
  ∀ a b, (s.cell a).isSome → (s.cell b).isSome →
    (a ∈ s.parentsAt b ↔ b ∈ s.childrenAt a)

/-! ## Auxiliary definitions used in the statements and proofs -/

/-- The cell `d` after `children_nodes_.erase(this)`. -/
def eraseChild (this : Position) (d : Cell) : Cell :=
  { d with children_nodes_ := setErase this d.children_nodes_ }

/-- The cell `d` after `ClearCache()`. -/
def clearCell (d : Cell) : Cell :=
  { d with impl_ := d.impl_.ClearCache }

/-- What the relink loop of `Cell::Set` has done to the sheet once it has handled the
positions `R` for the cell `this`: edges from `this` to the cells at `R`, and empty cells at
the positions of `R` that had none. -/
structure Relinked (this : Position) (R : List Position) (s s' : Sheet) : Prop where
  parents_other : ∀ q, q ≠ this → s'.parentsAt q = s.parentsAt q
  parents_this : ∀ x, x ∈ s'.parentsAt this ↔ x ∈ s.parentsAt this ∨ x ∈ R
  children : ∀ q x, x ∈ s'.childrenAt q ↔ x ∈ s.childrenAt q ∨ (x = this ∧ q ∈ R)
  impl_old : ∀ q, (s.cell q).isSome → s'.implAt q = s.implAt q
  impl_new : ∀ q, s.cell q = none →
    s'.implAt q = if q ∈ R then some Impl.EmptyImpl else none
  null : ∀ q, s'.slot q = some none ↔ s.slot q = some none

/-- What the invalidation sweep has done once it has reached exactly the cells `R`: their
caches are cleared and nothing else has changed. -/
structure Swept (R : Position → Prop) (s s' : Sheet) : Prop where
  hit : ∀ q, R q → s'.slot q = (s.slot q).map (Option.map clearCell)
  miss : ∀ q, ¬ R q → s'.slot q = s.slot q

/-- What lines 112 to 127 of `Cell::Set` have done for the cell `this` and the new content
`tmp`. -/
structure Rewired (this : Position) (tmp : Impl) (s s' : Sheet) : Prop where
  this_live : (s.cell this).isSome
  old_live : ∀ q ∈ s.parentsAt this, (s.cell q).isSome
  impl_this : s'.implAt this = some tmp
  impl_old : ∀ q, q ≠ this → (s.cell q).isSome → s'.implAt q = s.implAt q
  impl_new : ∀ q, s.cell q = none →
    s'.implAt q = if q ∈ tmp.GetReferencedCells then some Impl.EmptyImpl else none
  parents_this : ∀ x, x ∈ s'.parentsAt this ↔ x ∈ tmp.GetReferencedCells
  parents_other : ∀ q, q ≠ this → s'.parentsAt q = s.parentsAt q
  children : ∀ q x, x ∈ s'.childrenAt q ↔
    (x ∈ s.childrenAt q ∧ ¬ (x = this ∧ q ∈ s.parentsAt this)) ∨
      (x = this ∧ q ∈ tmp.GetReferencedCells)
  null : ∀ q, s'.slot q = some none ↔ s.slot q = some none

/-- The cached value of the cell at `p`; `none` when the cache is empty or there is no cache
or no cell. -/
def Sheet.cacheAt (s : Sheet) (p : Position) : Option FormulaValue :=
  (s.cell p).bind (fun c => c.impl_.cache?)

/-- Number of slots whose cell the cycle search has not marked visited. -/
def CheckCycles.unvisited (s : Sheet) (visited : List (Option Position)) : Nat :=
  (s.cells_.filter (fun kv => decide (some kv.1 ∉ visited))).length

/-- Weight of a stack entry in the termination measure of the cycle search. -/
def CheckCycles.weight (s : Sheet) (visited : List (Option Position)) :
    Option Position → Nat
  | none => 1
  | some p =>
    if some p ∈ visited then (s.maxRefs + 1) ^ (2 * CheckCycles.unvisited s visited + 1)
    else (s.maxRefs + 1) ^ (2 * CheckCycles.unvisited s visited)

/-- Termination measure of the cycle search: the total weight of the stack. -/
def CheckCycles.potential (s : Sheet) (visited st : List (Option Position)) : Nat :=
  (st.map (CheckCycles.weight s visited)).sum

/-- Every position a cell of the sheet references is valid. -/
def Sheet.ValidRefs (ext : External) (s : Sheet) : Prop :=
  ∀ p, ∀ r ∈ s.refsAt p, ext.IsValid r = true

/-! ## A small instance of the collaborators, and sample sheets -/

/-- Position of the cell A1. -/
def A1 : Position := ⟨0, 0⟩

/-- Position of the cell B1. -/
def B1 : Position := ⟨0, 1⟩

/-- Position of the cell C1. -/
def C1 : Position := ⟨0, 2⟩

/-- A parser that knows four expressions. -/
def demoParse (t : String) : Option Formula :=
  if t = "A1" then some ⟨"A1", [A1]⟩
  else if t = "B1" then some ⟨"B1", [B1]⟩
  else if t = "C1" then some ⟨"C1", [C1]⟩
  else if t = "A1+B1" then some ⟨"A1+B1", [A1, B1]⟩
  else none

/-- Collaborators with that parser and with the positions of a 16384 by 16384 grid valid. -/
def demo : External :=
  ⟨fun p => decide (0 ≤ p.row ∧ p.row < 16384 ∧ 0 ≤ p.col ∧ p.col < 16384), demoParse⟩

/-- The sheet after `SetCell(A1, "=B1")` on the empty sheet. -/
def sheetAB : Sheet :=
  ⟨[(A1, some ⟨.FormulaImpl ⟨"B1", [B1]⟩ none, [B1], []⟩), (B1, some ⟨.EmptyImpl, [], [A1]⟩)]⟩

/-- The sheet after `SetCell(A1, "1")`, `SetCell(B1, "=A1")`, `SetCell(C1, "=B1")` and a read
of C1 that cached the number with bit pattern 7 in B1 and in C1. -/
def sheetChain : Sheet :=
  ⟨[(A1, some ⟨.TextImpl "1", [], [B1]⟩),
    (B1, some ⟨.FormulaImpl ⟨"A1", [A1]⟩ (some (.number 7)), [A1], [C1]⟩),
    (C1, some ⟨.FormulaImpl ⟨"B1", [B1]⟩ (some (.number 7)), [B1], []⟩)]⟩

/-- The sheet `sheetChain` after `Set("2")` on A1. -/
def sheetChain2 : Sheet :=
  ⟨[(A1, some ⟨.TextImpl "2", [], [B1]⟩),
    (B1, some ⟨.FormulaImpl ⟨"A1", [A1]⟩ none, [A1], [C1]⟩),
    (C1, some ⟨.FormulaImpl ⟨"B1", [B1]⟩ none, [B1], []⟩)]⟩

/-- The sheet `sheetChain` after `Set("5")` on C1. -/
def sheetChain3 : Sheet :=
  ⟨[(A1, some ⟨.TextImpl "1", [], [B1]⟩),
    (B1, some ⟨.FormulaImpl ⟨"A1", [A1]⟩ (some (.number 7)), [A1], []⟩),
    (C1, some ⟨.TextImpl "5", [], []⟩)]⟩

/-- The sheet `sheetAB` after `Set("=C1")` on A1. -/
def sheetAC : Sheet :=
  ⟨[(A1, some ⟨.FormulaImpl ⟨"C1", [C1]⟩ none, [C1], []⟩), (B1, some ⟨.EmptyImpl, [], []⟩),
    (C1, some ⟨.EmptyImpl, [], [A1]⟩)]⟩

/-- The sheet after `SetCell(A1, text)` on the empty sheet, where `text` is the escape marker
followed by the digit 5. -/
def sheetEsc : Sheet :=
  ⟨[(A1, some ⟨.TextImpl (String.mk [ESCAPE_SIGN, '5']), [], []⟩)]⟩

/-! ## State invariants -/

/-- The invariant of the sheets that `SetCell` calls and reads build: no slot is null, the
depends_on set of every cell is the set of positions its content references, depends_on and
dependents are mutual inverses, the depends_on graph is acyclic, and referenced positions are
valid. -/
structure Sheet.Consistent (ext : External) (s : Sheet) : Prop where
  no_null : ∀ q, s.slot q ≠ some none
  parents_refs : ∀ p q, q ∈ s.parentsAt p ↔ q ∈ s.refsAt p
  mutuality : ∀ p q, q ∈ s.parentsAt p ↔ p ∈ s.childrenAt q
  acyclic : s.Acyclic
  valid_refs : s.ValidRefs ext

/-- The invariant that every call keeps, `Clear` and `ClearCell` included: edge mutuality over
the cells of the sheet, and every pointer a cell holds points to a position that has a
slot. -/
structure Sheet.Linked (s : Sheet) : Prop where
  mutuality : s.Mutual
  slots : ∀ p q, (q ∈ s.parentsAt p ∨ q ∈ s.childrenAt p) → s.slot q ≠ none

/-- The sheet `s'` has the edges of `s`, the null slots of `s`, and every slot of `s`. -/
structure SameEdges (s s' : Sheet) : Prop where
  parents : ∀ q, s'.parentsAt q = s.parentsAt q
  children : ∀ q, s'.childrenAt q = s.childrenAt q
  null : ∀ q, s'.slot q = some none ↔ s.slot q = some none
  slot : ∀ q, s'.slot q = none → s.slot q = none

/-- A sequence of `SetCell` calls and a read; the second call is rejected for a cycle, and so
is the last. -/
def demoCalls : List Call :=
  [.SetCell A1 "=B1", .SetCell B1 "=A1", .SetCell C1 "=A1+B1", .GetValue C1 (.number 7),
    .SetCell A1 "=C1"]

/-- A sequence of calls with a `Clear` and a `ClearCell`. -/
def demoClearCalls : List Call :=
  [.SetCell A1 "=B1", .Clear A1, .SetCell A1 "=C1", .ClearCell B1]

/-- The sheet after the calls `demoClearCalls` on the empty sheet. -/
def sheetCleared : Sheet :=
  ⟨[(A1, some ⟨.FormulaImpl ⟨"C1", [C1]⟩ none, [C1], []⟩), (B1, none),
    (C1, some ⟨.EmptyImpl, [], [A1]⟩)]⟩

/-! ## `Sheet::GetPrintableSize` and `Sheet::PrintTexts` -/

/-- Modelled from the spec: the struct `Size` of common.h, a number of rows and a number of
columns. -/
structure Size where
  rows : Int
  cols : Int
  deriving DecidableEq, Repr

/-- Body of the loop of `Sheet::GetPrintableSize` for the entry `kv` of `cells_`. -/
def GetPrintableSize.step (res : Size) (kv : Position × Option Cell) : Size :=
  match kv.2 with
  | some _ => ⟨max res.rows (kv.1.row + 1), max res.cols (kv.1.col + 1)⟩
  | none => res

/-- The method `Sheet::GetPrintableSize`: the loop over the entries of `cells_`.  The keys of
`cells_` are positions that `IsValid` accepted, so `pos.row + 1` and `pos.col + 1` stay within
`int`. -/
def Sheet.GetPrintableSize (s : Sheet) : Size :=
  s.cells_.foldl GetPrintableSize.step ⟨0, 0⟩

/-- Body of the inner loop of `Sheet::PrintTexts` for row `i` and column `j`; `output` is what
the stream holds. -/
def PrintTexts.cell (s : Sheet) (i j : Nat) (output : String) : String :=
  let output := if j > 0 then output ++ "\t" else output
  match s.slot ⟨i, j⟩ with
  | some (some cell) =>
    if !cell.impl_.GetText.isEmpty then output ++ cell.impl_.GetText else output
  | _ => output

/-- Body of the outer loop of `Sheet::PrintTexts` for row `i`: the loop over the columns, and
the newline. -/
def PrintTexts.row (s : Sheet) (cols : Nat) (i : Nat) (output : String) : String :=
  (List.range cols).foldl (fun out j => PrintTexts.cell s i j out) output ++ "\n"

/-- The method `Sheet::PrintTexts`; `output` is what the stream holds before the call, the
result is what it holds after. -/
def Sheet.PrintTexts (s : Sheet) (output : String) : String :=
  let size := s.GetPrintableSize
  (List.range size.rows.toNat).foldl (fun out i => PrintTexts.row s size.cols.toNat i out)
    output

/-- The string t(i,j) of the print format: the stored text of the cell at row `i` and column
`j`, the empty string when there is no cell there. -/
def PrintTexts.text (s : Sheet) (i j : Nat) : String :=
  match s.cell ⟨i, j⟩ with
  | some c => c.impl_.GetText
  | none => ""

/-- The print format in words: for a printable size of `R` rows and `C` columns, `R` lines in
row order, line `i` being the `C` strings t(i,0), ..., t(i,C-1) joined by a tab and followed
by a newline. -/
def PrintTexts.expected (s : Sheet) : String :=
  String.join ((List.range s.GetPrintableSize.rows.toNat).map (fun i =>
    String.intercalate "\t"
      ((List.range s.GetPrintableSize.cols.toNat).map (PrintTexts.text s i)) ++ "\n"))

/-- A position holds a cell: `cells_` has an entry for it whose pointer is not null. -/
def Sheet.occupied (s : Sheet) (p : Position) : Prop :=
  ∃ c, (p, some c) ∈ s.cells_

/-- The keys of `cells_`, in the order of the entries. -/
def Sheet.keys (s : Sheet) : List Position := s.cells_.map Prod.fst

/-- What the type of `cells_` and the checks of `Sheet` guarantee for the entries: no key
occurs twice, and every key is a position that `IsValid` accepts. -/
def Sheet.WellKeyed (ext : External) (s : Sheet) : Prop :=
  s.keys.Nodup ∧ ∀ k ∈ s.keys, ext.IsValid k = true

/-! ## More sample sheets -/

/-- The sheet after `SetCell(A1, "5")` and `ClearCell(A1)` on the empty sheet. -/
def sheetNull : Sheet := ⟨[(A1, none)]⟩

/-- The sheet after the rejected `SetCell(A1, "=A1")` on the empty sheet. -/
def sheetSelf : Sheet := ⟨[(A1, some Cell.new)]⟩

/-- Position of the cell B2. -/
def B2 : Position := ⟨1, 1⟩

/-- A sheet with a literal at A1, a formula at B2, an implicitly materialized empty cell at
C1 and a cleared slot at row 5, column 7. -/
def sheetPrint : Sheet :=
  ⟨[(A1, some ⟨.TextImpl "x", [], []⟩),
    (B2, some ⟨.FormulaImpl ⟨"C1", [C1]⟩ none, [C1], []⟩),
    (C1, some ⟨.EmptyImpl, [], [B2]⟩),
    (⟨5, 7⟩, none)]⟩

/-- The sheet after `SetCell(A1, "=B1")` and `Cell::Clear` on A1. -/
def sheetStale : Sheet :=
  ⟨[(A1, some ⟨.EmptyImpl, [B1], []⟩), (B1, some ⟨.EmptyImpl, [], [A1]⟩)]⟩


/-- A sheet whose reference graph has a cycle through A1 and B1, two references from B1 to
A1, and a reference from B1 to C1, which has no slot. -/
def sheetLoop : Sheet :=
  ⟨[(A1, some ⟨.FormulaImpl ⟨"B1", [B1]⟩ none, [B1], [B1]⟩),
    (B1, some ⟨.FormulaImpl ⟨"A1+A1+C1", [A1, A1, C1]⟩ none, [A1, C1], [A1]⟩)]⟩

/-- The calls that build `sheetChain` from the empty sheet: three `SetCell` calls, and a read
of C1 that evaluates B1 and then C1. -/
def chainCalls : List Call :=
  [.SetCell A1 "1", .SetCell B1 "=A1", .SetCell C1 "=B1", .GetValue B1 (.number 7),
    .GetValue C1 (.number 7)]

/-- The sheet `sheetChain` after the invalidation sweep from A1. -/
def sheetChainSwept : Sheet :=
  ⟨[(A1, some ⟨.TextImpl "1", [], [B1]⟩),
    (B1, some ⟨.FormulaImpl ⟨"A1", [A1]⟩ none, [A1], [C1]⟩),
    (C1, some ⟨.FormulaImpl ⟨"B1", [B1]⟩ none, [B1], []⟩)]⟩
/-! ## Storage lemmas -/

theorem slotOf_putSlot (l : List (Position × Option Cell)) (p q : Position) (v : Option Cell) :
    slotOf (putSlot l p v) q = if q = p then some v else slotOf l q := by
  induction l with
  | nil =>
    by_cases h : q = p
    · simp [putSlot, slotOf, h]
    · have h2 : ¬ p = q := fun e => h e.symm
      simp [putSlot, slotOf, h, h2]
  | cons kv rest ih =>
    obtain ⟨k, w⟩ := kv
    by_cases hk : k = p
    · by_cases h : q = p
      · simp [putSlot, slotOf, hk, h]
      · have h2 : ¬ p = q := fun e => h e.symm
        simp [putSlot, slotOf, hk, h, h2]
    · by_cases h : q = p
      · subst h
        simp [putSlot, slotOf, hk, ih]
      · by_cases hkq : k = q
        · simp [putSlot, slotOf, hk, h, hkq]
        · simp [putSlot, slotOf, hk, h, hkq, ih]

theorem putSlot_length_ge (l : List (Position × Option Cell)) (p : Position) (v : Option Cell) :
    l.length ≤ (putSlot l p v).length := by
  induction l with
  | nil => simp [putSlot]
  | cons kv rest ih =>
    obtain ⟨k, w⟩ := kv
    by_cases hk : k = p
    · simp [putSlot, hk]
    · simp [putSlot, hk, ih]

theorem putSlot_same (l : List (Position × Option Cell)) (p : Position) (v : Option Cell)
    (h : slotOf l p = some v) : putSlot l p v = l := by
  induction l with
  | nil => simp [slotOf] at h
  | cons kv rest ih =>
    obtain ⟨k, w⟩ := kv
    by_cases hk : k = p
    · simp [slotOf, hk] at h
      simp [putSlot, hk, h]
    · simp [slotOf, hk] at h
      simp [putSlot, hk, ih h]

theorem slotOf_mem (l : List (Position × Option Cell)) (p : Position) (v : Option Cell)
    (h : slotOf l p = some v) : (p, v) ∈ l := by
  induction l with
  | nil => simp [slotOf] at h
  | cons kv rest ih =>
    obtain ⟨k, w⟩ := kv
    by_cases hk : k = p
    · simp [slotOf, hk] at h
      simp [hk, h]
    · simp [slotOf, hk] at h
      exact List.mem_cons_of_mem _ (ih h)

theorem Sheet.slot_store (s : Sheet) (p q : Position) (c : Cell) :
    (s.store p c).slot q = if q = p then some (some c) else s.slot q := by
  simp [Sheet.store, Sheet.slot, slotOf_putSlot]

theorem Sheet.cell_store (s : Sheet) (p q : Position) (c : Cell) :
    (s.store p c).cell q = if q = p then some c else s.cell q := by
  unfold Sheet.cell
  rw [Sheet.slot_store]
  by_cases h : q = p <;> simp [h]

theorem Sheet.cell_eq_some {s : Sheet} {p : Position} {c : Cell} :
    s.cell p = some c ↔ s.slot p = some (some c) := by
  unfold Sheet.cell
  cases h : s.slot p with
  | none => simp
  | some o => cases o <;> simp

theorem Sheet.cell_eq_none {s : Sheet} {p : Position} :
    s.cell p = none ↔ s.slot p = none ∨ s.slot p = some none := by
  unfold Sheet.cell
  cases h : s.slot p with
  | none => simp
  | some o => cases o <;> simp

theorem Sheet.store_same (s : Sheet) (p : Position) (c : Cell) (h : s.cell p = some c) :
    s.store p c = s := by
  have h2 := Sheet.cell_eq_some.mp h
  cases s with
  | mk l =>
    simp only [Sheet.store, Sheet.slot] at *
    rw [putSlot_same l p (some c) h2]

/-! ## Pointer sets and the unlink loop -/

theorem mem_setErase (x y : Position) (l : List Position) :
    y ∈ setErase x l ↔ y ∈ l ∧ y ≠ x := by
  simp [setErase]

theorem mem_setInsert (x y : Position) (l : List Position) :
    y ∈ setInsert x l ↔ y ∈ l ∨ y = x := by
  unfold setInsert
  by_cases h : x ∈ l
  · simp only [h, if_true]
    constructor
    · exact Or.inl
    · rintro (h1 | h1)
      · exact h1
      · rw [h1]; exact h
  · simp [h]

theorem setErase_idem (x : Position) (l : List Position) :
    setErase x (setErase x l) = setErase x l := by
  simp [setErase, List.filter_filter]

theorem eraseChild_idem (this : Position) (d : Cell) :
    eraseChild this (eraseChild this d) = eraseChild this d := by
  simp [eraseChild, setErase_idem]

theorem unlink_slot (this : Position) : ∀ (ps : List Position) (s s' : Sheet),
    Cell.Set.unlink this ps s = some s' →
    ∀ q, s'.slot q =
      (s.slot q).map (Option.map (fun d => if q ∈ ps then eraseChild this d else d)) := by
  intro ps
  induction ps with
  | nil =>
    intro s s' h q
    simp only [Cell.Set.unlink, Option.some.injEq] at h
    subst h
    cases hs : s.slot q with
    | none => simp
    | some o => cases o <;> simp
  | cons node rest ih =>
    intro s s' h q
    simp only [Cell.Set.unlink] at h
    cases hd : s.cell node with
    | none => simp [hd] at h
    | some d =>
      simp only [hd] at h
      have h1 := ih _ _ h q
      rw [h1, Sheet.slot_store]
      have hd2 := Sheet.cell_eq_some.mp hd
      by_cases hq : q = node
      · subst hq
        simp only [if_true, hd2, Option.map_some', List.mem_cons, true_or]
        by_cases hr : q ∈ rest
        · simp only [hr, if_true]
          exact congrArg _ (congrArg _ (eraseChild_idem this d))
        · simp only [hr, if_false]
          rfl
      · simp only [hq, if_false, List.mem_cons, false_or]

theorem unlink_total (this : Position) : ∀ (ps : List Position) (s : Sheet),
    (∀ q ∈ ps, (s.cell q).isSome) → ∃ s', Cell.Set.unlink this ps s = some s' := by
  intro ps
  induction ps with
  | nil => intro s _; exact ⟨s, rfl⟩
  | cons node rest ih =>
    intro s h
    have hn := h node (List.mem_cons_self _ _)
    cases hd : s.cell node with
    | none => simp [hd] at hn
    | some d =>
      simp only [Cell.Set.unlink, hd]
      apply ih
      intro q hq
      rw [Sheet.cell_store]
      by_cases e : q = node
      · simp [e]
      · simp only [e, if_false]
        exact h q (List.mem_cons_of_mem _ hq)

theorem unlink_live (this : Position) (ps : List Position) (s s' : Sheet)
    (h : Cell.Set.unlink this ps s = some s') : ∀ q ∈ ps, (s.cell q).isSome := by
  induction ps generalizing s with
  | nil => intro q hq; simp at hq
  | cons node rest ih =>
    intro q hq
    simp only [Cell.Set.unlink] at h
    cases hd : s.cell node with
    | none => simp [hd] at h
    | some d =>
      simp only [hd] at h
      rcases List.mem_cons.mp hq with e | e
      · rw [e, hd]; rfl
      · have := ih _ h q e
        rw [Sheet.cell_store] at this
        by_cases e2 : q = node
        · rw [e2, hd]; rfl
        · simpa [e2] using this

/-! ## Views of a stored cell -/

theorem Sheet.parentsAt_store (s : Sheet) (p q : Position) (c : Cell) :
    (s.store p c).parentsAt q = if q = p then c.parents_nodes_ else s.parentsAt q := by
  unfold Sheet.parentsAt
  rw [Sheet.cell_store]
  by_cases h : q = p <;> simp [h]

theorem Sheet.childrenAt_store (s : Sheet) (p q : Position) (c : Cell) :
    (s.store p c).childrenAt q = if q = p then c.children_nodes_ else s.childrenAt q := by
  unfold Sheet.childrenAt
  rw [Sheet.cell_store]
  by_cases h : q = p <;> simp [h]

theorem Sheet.implAt_store (s : Sheet) (p q : Position) (c : Cell) :
    (s.store p c).implAt q = if q = p then some c.impl_ else s.implAt q := by
  unfold Sheet.implAt
  rw [Sheet.cell_store]
  by_cases h : q = p <;> simp [h]

theorem Sheet.refsAt_store (s : Sheet) (p q : Position) (c : Cell) :
    (s.store p c).refsAt q = if q = p then c.impl_.GetReferencedCells else s.refsAt q := by
  unfold Sheet.refsAt
  rw [Sheet.cell_store]
  by_cases h : q = p <;> simp [h]

theorem Sheet.parentsAt_of_cell {s : Sheet} {p : Position} {c : Cell} (h : s.cell p = some c) :
    s.parentsAt p = c.parents_nodes_ := by
  simp [Sheet.parentsAt, h]

theorem Sheet.childrenAt_of_cell {s : Sheet} {p : Position} {c : Cell} (h : s.cell p = some c) :
    s.childrenAt p = c.children_nodes_ := by
  simp [Sheet.childrenAt, h]

theorem Sheet.implAt_of_cell {s : Sheet} {p : Position} {c : Cell} (h : s.cell p = some c) :
    s.implAt p = some c.impl_ := by
  simp [Sheet.implAt, h]

theorem Sheet.refsAt_of_cell {s : Sheet} {p : Position} {c : Cell} (h : s.cell p = some c) :
    s.refsAt p = c.impl_.GetReferencedCells := by
  simp [Sheet.refsAt, h]

theorem Sheet.parentsAt_of_none {s : Sheet} {p : Position} (h : s.cell p = none) :
    s.parentsAt p = [] := by
  simp [Sheet.parentsAt, h]

theorem Sheet.childrenAt_of_none {s : Sheet} {p : Position} (h : s.cell p = none) :
    s.childrenAt p = [] := by
  simp [Sheet.childrenAt, h]

theorem Sheet.implAt_of_none {s : Sheet} {p : Position} (h : s.cell p = none) :
    s.implAt p = none := by
  simp [Sheet.implAt, h]

theorem Sheet.implAt_eq_none {s : Sheet} {p : Position} :
    s.implAt p = none ↔ s.cell p = none := by
  simp [Sheet.implAt]

theorem Sheet.implAt_isSome {s : Sheet} {p : Position} :
    (s.implAt p).isSome = (s.cell p).isSome := by
  simp [Sheet.implAt]

theorem Sheet.slot_store_null (s : Sheet) (p q : Position) (c : Cell)
    (hp : s.slot p ≠ some none) :
    (s.store p c).slot q = some none ↔ s.slot q = some none := by
  rw [Sheet.slot_store]
  by_cases h : q = p
  · subst h
    simp [hp]
  · simp [h]

/-! ## The relink loop -/

theorem Relinked.relinked_nil (this : Position) (s : Sheet) : Relinked this [] s s := by
  constructor
  · intro q _; rfl
  · intro x; simp
  · intro q x; simp
  · intro q _; rfl
  · intro q h; simp [Sheet.implAt_of_none h]
  · intro q; rfl

theorem Relinked.live_iff {this : Position} {R : List Position} {s s' : Sheet}
    (h : Relinked this R s s') (q : Position) :
    (s'.cell q).isSome ↔ ((s.cell q).isSome ∨ q ∈ R) := by
  rw [← Sheet.implAt_isSome]
  cases hq : s.cell q with
  | some d =>
    rw [h.impl_old q (by simp [hq]), Sheet.implAt_of_cell hq]
    simp
  | none =>
    rw [h.impl_new q hq]
    by_cases hr : q ∈ R <;> simp [hr]

theorem Relinked.relinked_append {this : Position} {R1 R2 : List Position} {s s1 s2 : Sheet}
    (h1 : Relinked this R1 s s1) (h2 : Relinked this R2 s1 s2) :
    Relinked this (R1 ++ R2) s s2 := by
  constructor
  · intro q hq
    rw [h2.parents_other q hq, h1.parents_other q hq]
  · intro x
    rw [h2.parents_this, h1.parents_this, List.mem_append, or_assoc]
  · intro q x
    rw [h2.children, h1.children, List.mem_append]
    tauto
  · intro q hq
    have hl : (s1.cell q).isSome := (h1.live_iff q).mpr (Or.inl hq)
    rw [h2.impl_old q hl, h1.impl_old q hq]
  · intro q hq
    by_cases hr : q ∈ R1
    · have hl : (s1.cell q).isSome := (h1.live_iff q).mpr (Or.inr hr)
      rw [h2.impl_old q hl, h1.impl_new q hq]
      simp [hr]
    · have hn : s1.cell q = none := by
        have := h1.impl_new q hq
        simp only [hr, if_false] at this
        exact Sheet.implAt_eq_none.mp this
      rw [h2.impl_new q hn]
      simp [hr]
  · intro q
    rw [h2.null, h1.null]

theorem link_relinked (this parent : Position) (s s' : Sheet)
    (h : Cell.Set.link this parent s = some s') : Relinked this [parent] s s' := by
  unfold Cell.Set.link at h
  cases hd : s.cell parent with
  | none => simp [hd] at h
  | some d =>
    simp only [hd] at h
    cases hc : (s.store parent
        { d with children_nodes_ := setInsert this d.children_nodes_ }).cell this with
    | none => simp [hc] at h
    | some c =>
      simp only [hc, Option.some.injEq] at h
      subst h
      rw [Sheet.cell_store] at hc
      have hdslot : s.slot parent ≠ some none := by
        rw [Sheet.cell_eq_some.mp hd]; simp
      constructor
      · intro q hq
        rw [Sheet.parentsAt_store, Sheet.parentsAt_store]
        simp only [hq, if_false]
        by_cases e : q = parent
        · subst e
          simp [Sheet.parentsAt_of_cell hd]
        · simp [e]
      · intro x
        rw [Sheet.parentsAt_store]
        simp only [if_true, mem_setInsert, List.mem_singleton]
        by_cases e : this = parent
        · subst e
          simp only [if_true, Option.some.injEq] at hc
          subst hc
          simp [Sheet.parentsAt_of_cell hd]
        · simp only [e, if_false] at hc
          simp [Sheet.parentsAt_of_cell hc]
      · intro q x
        rw [Sheet.childrenAt_store, Sheet.childrenAt_store]
        simp only [List.mem_singleton]
        by_cases e : this = parent
        · subst e
          simp only [if_true, Option.some.injEq] at hc
          subst hc
          by_cases e2 : q = this
          · subst e2
            simp [Sheet.childrenAt_of_cell hd, mem_setInsert]
          · simp [e2]
        · simp only [e, if_false] at hc
          by_cases e2 : q = this
          · subst e2
            simp [Sheet.childrenAt_of_cell hc, e]
          · by_cases e3 : q = parent
            · subst e3
              simp [e2, Sheet.childrenAt_of_cell hd, mem_setInsert]
            · simp [e2, e3]
      · intro q hq
        rw [Sheet.implAt_store, Sheet.implAt_store]
        by_cases e : this = parent
        · subst e
          simp only [if_true, Option.some.injEq] at hc
          subst hc
          by_cases e2 : q = this
          · subst e2
            simp [Sheet.implAt_of_cell hd]
          · simp [e2]
        · simp only [e, if_false] at hc
          by_cases e2 : q = this
          · subst e2
            simp [Sheet.implAt_of_cell hc]
          · by_cases e3 : q = parent
            · subst e3
              simp [e2, Sheet.implAt_of_cell hd]
            · simp [e2, e3]
      · intro q hq
        rw [Sheet.implAt_store, Sheet.implAt_store]
        have e1 : q ≠ parent := by
          intro e; rw [e, hd] at hq; cases hq
        have e2 : q ≠ this := by
          intro e
          subst e
          by_cases e3 : q = parent
          · exact e1 e3
          · simp only [e3, if_false] at hc
            rw [hc] at hq; cases hq
        simp [e1, e2, Sheet.implAt_of_none hq]
      · intro q
        have hthis : (s.store parent
            { d with children_nodes_ := setInsert this d.children_nodes_ }).slot this
              ≠ some none := by
          rw [Sheet.slot_store]
          by_cases e : this = parent
          · simp [e]
          · simp only [e, if_false] at hc ⊢
            rw [Sheet.cell_eq_some.mp hc]; simp
        rw [Sheet.slot_store_null _ _ _ _ hthis, Sheet.slot_store_null _ _ _ _ hdslot]

theorem Sheet.store_store_same (s : Sheet) (p : Position) (c : Cell) :
    (s.store p c).store p c = s.store p c := by
  apply Sheet.store_same
  rw [Sheet.cell_store]; simp

theorem Sheet.slot_eq_none_of_store {s : Sheet} {p q : Position} {c : Cell}
    (h : (s.store p c).slot q = none) : s.slot q = none := by
  rw [Sheet.slot_store] at h
  by_cases e : q = p
  · simp [e] at h
  · simpa [e] using h

/-- The nested call `sheet_.SetCell(pos, "")` at a position that has no slot creates an empty
cell there. -/
theorem SetCellRec_empty_absent (ext : External) (depth : Nat) (pos : Position) (s : Sheet)
    (hv : ext.IsValid pos = true) (hs : s.slot pos = none) :
    Sheet.SetCellRec ext (depth + 1) pos "" s = .ok (s.store pos Cell.new) := by
  have hcell : (s.store pos Cell.new).cell pos = some Cell.new := by
    rw [Sheet.cell_store]; simp
  have hslot : (s.store pos Cell.new).slot pos = some (some Cell.new) :=
    Sheet.cell_eq_some.mp hcell
  have n1 : Cell.new.parents_nodes_ = [] := rfl
  have n2 : Cell.new.children_nodes_ = [] := rfl
  have n3 : Cell.new.impl_ = Impl.EmptyImpl := rfl
  have n4 : ({ impl_ := Impl.EmptyImpl, parents_nodes_ := [], children_nodes_ := [] } : Cell)
      = Cell.new := rfl
  have htmp : Cell.Set.tmp ext (s.store pos Cell.new) pos "" = .ok .EmptyImpl := by
    simp [Cell.Set.tmp, String.isEmpty]
  have hrew : Cell.Set.rewire ext (Sheet.SetCellRec ext depth) pos .EmptyImpl
      (s.store pos Cell.new) = .ok (s.store pos Cell.new) := by
    simp only [Cell.Set.rewire, hcell, n1, n2, n3, n4, Sheet.store_store_same,
      Cell.Set.unlink, Impl.GetReferencedCells, Cell.Set.relink]
  have hclear : Cell.ClearCacheRec (ClearCacheRec.fuel (s.store pos Cell.new)) pos
      (s.store pos Cell.new) = .ok (s.store pos Cell.new) := by
    simp only [ClearCacheRec.fuel, Cell.ClearCacheRec, hcell, Cell.ClearCache, n1, n2, n3, n4,
      Impl.ClearCache, Sheet.store_store_same, ClearCacheRec.children]
  simp only [Sheet.SetCellRec, hv, Bool.not_true, Bool.false_eq_true, if_false, hs,
    Option.isSome_none]
  show (match (s.store pos Cell.new).slot pos with
    | some (some _) => Cell.SetWith ext (Sheet.SetCellRec ext depth) pos "" (s.store pos Cell.new)
    | _ => Outcome.fault) = _
  rw [hslot]
  simp only [Cell.SetWith, htmp, hrew, hclear]

/-- The nested call `sheet_.SetCell(pos, "")` at a position whose slot is null dereferences
the null pointer. -/
theorem SetCellRec_empty_null (ext : External) (depth : Nat) (pos : Position) (text : String)
    (s : Sheet) (hv : ext.IsValid pos = true) (hs : s.slot pos = some none) :
    Sheet.SetCellRec ext (depth + 1) pos text s = .fault := by
  simp [Sheet.SetCellRec, hv, hs]

theorem GetCell_ok_some {ext : External} {s : Sheet} {pos p : Position}
    (h : s.GetCell ext pos = .ok (some p)) :
    ext.IsValid pos = true ∧ p = pos ∧ (s.cell pos).isSome := by
  unfold Sheet.GetCell at h
  by_cases hv : ext.IsValid pos = true
  · simp only [hv, Bool.not_true, Bool.false_eq_true, if_false] at h
    cases hs : s.slot pos with
    | none => simp [hs] at h
    | some o =>
      cases o with
      | none => simp [hs] at h
      | some c =>
        simp only [hs, Except.ok.injEq, Option.some.injEq] at h
        refine ⟨hv, h.symm, ?_⟩
        rw [Sheet.cell_eq_some.mpr hs]; rfl
  · simp [hv] at h

theorem GetCell_ok_none {ext : External} {s : Sheet} {pos : Position}
    (h : s.GetCell ext pos = .ok none) :
    ext.IsValid pos = true ∧ s.cell pos = none := by
  unfold Sheet.GetCell at h
  by_cases hv : ext.IsValid pos = true
  · simp only [hv, Bool.not_true, Bool.false_eq_true, if_false] at h
    cases hs : s.slot pos with
    | none => exact ⟨hv, Sheet.cell_eq_none.mpr (Or.inl hs)⟩
    | some o =>
      cases o with
      | none => exact ⟨hv, Sheet.cell_eq_none.mpr (Or.inr hs)⟩
      | some c => simp [hs] at h
  · simp [hv] at h

theorem GetCell_error {ext : External} {s : Sheet} {pos : Position} {e : Exception}
    (h : s.GetCell ext pos = .error e) :
    ext.IsValid pos = false ∧ e = .InvalidPositionException := by
  unfold Sheet.GetCell at h
  by_cases hv : ext.IsValid pos = true
  · simp only [hv, Bool.not_true, Bool.false_eq_true, if_false] at h
    cases hs : s.slot pos with
    | none => simp [hs] at h
    | some o => cases o <;> simp [hs] at h
  · simp only [Bool.not_eq_true] at hv
    simp only [hv, Bool.not_false, if_true, Except.error.injEq] at h
    exact ⟨hv, h.symm⟩

theorem GetCell_of_valid (ext : External) (s : Sheet) (pos : Position)
    (hv : ext.IsValid pos = true) :
    s.GetCell ext pos = .ok (if (s.cell pos).isSome then some pos else none) := by
  unfold Sheet.GetCell
  simp only [hv, Bool.not_true, Bool.false_eq_true, if_false]
  cases hs : s.slot pos with
  | none => simp [Sheet.cell, hs]
  | some o => cases o <;> simp [Sheet.cell, hs]

theorem create_then_link {this pos : Position} {s s2 : Sheet} (hs : s.slot pos = none)
    (h : Relinked this [pos] (s.store pos Cell.new) s2) : Relinked this [pos] s s2 := by
  have hcn : s.cell pos = none := Sheet.cell_eq_none.mpr (Or.inl hs)
  have hp : ∀ q, (s.store pos Cell.new).parentsAt q = s.parentsAt q := by
    intro q
    rw [Sheet.parentsAt_store]
    by_cases e : q = pos
    · subst e; simp [Sheet.parentsAt_of_none hcn, Cell.new]
    · simp [e]
  have hc : ∀ q, (s.store pos Cell.new).childrenAt q = s.childrenAt q := by
    intro q
    rw [Sheet.childrenAt_store]
    by_cases e : q = pos
    · subst e; simp [Sheet.childrenAt_of_none hcn, Cell.new]
    · simp [e]
  constructor
  · intro q hq
    rw [h.parents_other q hq, hp]
  · intro x
    rw [h.parents_this, hp]
  · intro q x
    rw [h.children, hc]
  · intro q hq
    have e : q ≠ pos := by
      intro e; rw [e, hcn] at hq; cases hq
    have hq1 : (s.store pos Cell.new).cell q = s.cell q := by
      rw [Sheet.cell_store]; simp [e]
    rw [h.impl_old q (by rw [hq1]; exact hq), Sheet.implAt_store]
    simp [e]
  · intro q hq
    by_cases e : q = pos
    · subst e
      have hl : ((s.store q Cell.new).cell q).isSome := by
        rw [Sheet.cell_store]; simp
      rw [h.impl_old q hl, Sheet.implAt_store]
      simp [Cell.new]
    · have hq1 : (s.store pos Cell.new).cell q = none := by
        rw [Sheet.cell_store]; simp [e, hq]
      rw [h.impl_new q hq1]
  · intro q
    rw [h.null, Sheet.slot_store_null]
    rw [hs]; simp

theorem relink_relinked (ext : External) (depth : Nat) (this : Position) :
    ∀ (refs : List Position) (s s' : Sheet),
    Cell.Set.relink ext (Sheet.SetCellRec ext (depth + 1)) this refs s = .ok s' →
    Relinked this refs s s' := by
  intro refs
  induction refs with
  | nil =>
    intro s s' h
    simp only [Cell.Set.relink, Outcome.ok.injEq] at h
    subst h
    exact Relinked.relinked_nil this s
  | cons pos rest ih =>
    intro s s' h
    simp only [Cell.Set.relink] at h
    cases hg : s.GetCell ext pos with
    | error e => simp [hg] at h
    | ok o =>
      cases o with
      | some parent =>
        simp only [hg] at h
        obtain ⟨_, hpp, _⟩ := GetCell_ok_some hg
        subst hpp
        cases hl : Cell.Set.link this parent s with
        | none => simp [hl] at h
        | some s1 =>
          simp only [hl] at h
          exact (link_relinked this parent s s1 hl).relinked_append (ih s1 s' h)
      | none =>
        simp only [hg] at h
        obtain ⟨hv, hcn⟩ := GetCell_ok_none hg
        rcases Sheet.cell_eq_none.mp hcn with hs | hs
        · rw [SetCellRec_empty_absent ext depth pos s hv hs] at h
          simp only at h
          have hl1 : ((s.store pos Cell.new).cell pos).isSome := by
            rw [Sheet.cell_store]; simp
          rw [GetCell_of_valid ext _ pos hv] at h
          simp only [hl1, if_true] at h
          cases hl : Cell.Set.link this pos (s.store pos Cell.new) with
          | none => simp [hl] at h
          | some s2 =>
            simp only [hl] at h
            exact (create_then_link hs (link_relinked this pos _ s2 hl)).relinked_append (ih s2 s' h)
        · rw [SetCellRec_empty_null ext depth pos "" s hv hs] at h
          simp at h

theorem link_total (this parent : Position) (s : Sheet)
    (hp : (s.cell parent).isSome) (ht : (s.cell this).isSome) :
    ∃ s', Cell.Set.link this parent s = some s' := by
  unfold Cell.Set.link
  cases hd : s.cell parent with
  | none => simp [hd] at hp
  | some d =>
    simp only
    cases hc : (s.store parent
        { d with children_nodes_ := setInsert this d.children_nodes_ }).cell this with
    | none =>
      rw [Sheet.cell_store] at hc
      by_cases e : this = parent
      · simp [e] at hc
      · simp only [e, if_false] at hc
        simp [hc] at ht
    | some c => exact ⟨_, rfl⟩

/-- The relink loop returns normally when the referenced positions are valid, none of them
has a null slot, and the cell `this` is there. -/
theorem relink_total (ext : External) (depth : Nat) (this : Position) :
    ∀ (refs : List Position) (s : Sheet),
    (∀ r ∈ refs, ext.IsValid r = true) → (∀ r ∈ refs, s.slot r ≠ some none) →
    (s.cell this).isSome →
    ∃ s', Cell.Set.relink ext (Sheet.SetCellRec ext (depth + 1)) this refs s = .ok s' := by
  intro refs
  induction refs with
  | nil => intro s _ _ _; exact ⟨s, rfl⟩
  | cons pos rest ih =>
    intro s hv hn ht
    have hvp := hv pos (List.mem_cons_self _ _)
    have hnp := hn pos (List.mem_cons_self _ _)
    simp only [Cell.Set.relink]
    rw [GetCell_of_valid ext s pos hvp]
    have step : ∀ s1, Relinked this [pos] s s1 →
        ∃ s', Cell.Set.relink ext (Sheet.SetCellRec ext (depth + 1)) this rest s1 = .ok s' := by
      intro s1 hr
      apply ih
      · intro r hr2; exact hv r (List.mem_cons_of_mem _ hr2)
      · intro r hr2
        rw [Ne, hr.null]
        exact hn r (List.mem_cons_of_mem _ hr2)
      · exact (hr.live_iff this).mpr (Or.inl ht)
    by_cases hl : (s.cell pos).isSome = true
    · simp only [hl, if_true]
      obtain ⟨s1, h1⟩ := link_total this pos s hl ht
      simp only [h1]
      exact step s1 (link_relinked this pos s s1 h1)
    · simp only [hl]
      have hcn : s.cell pos = none := by
        cases hc : s.cell pos with
        | none => rfl
        | some c => simp [hc] at hl
      rcases Sheet.cell_eq_none.mp hcn with hs | hs
      · rw [SetCellRec_empty_absent ext depth pos s hvp hs]
        simp only
        have hl1 : ((s.store pos Cell.new).cell pos).isSome := by
          rw [Sheet.cell_store]; simp
        rw [GetCell_of_valid ext _ pos hvp]
        simp only [hl1, if_true]
        have ht1 : ((s.store pos Cell.new).cell this).isSome := by
          rw [Sheet.cell_store]
          by_cases e : this = pos
          · simp [e]
          · simpa [e] using ht
        obtain ⟨s2, h2⟩ := link_total this pos _ hl1 ht1
        simp only [h2]
        exact step s2 (create_then_link hs (link_relinked this pos _ s2 h2))
      · exact absurd hs hnp

/-! ## The rewiring of `Cell::Set` -/

theorem unlink_cell {self : Position} {ps : List Position} {s s' : Sheet}
    (h : Cell.Set.unlink self ps s = some s') (q : Position) :
    s'.cell q = (s.cell q).map (fun d => if q ∈ ps then eraseChild self d else d) := by
  unfold Sheet.cell
  rw [unlink_slot self ps s s' h q]
  cases s.slot q with
  | none => rfl
  | some o => cases o <;> rfl

theorem rewire_rewired (ext : External) (depth : Nat) (self : Position) (tmp : Impl)
    (s s' : Sheet)
    (h : Cell.Set.rewire ext (Sheet.SetCellRec ext (depth + 1)) self tmp s = .ok s') :
    Rewired self tmp s s' := by
  unfold Cell.Set.rewire at h
  cases hc : s.cell self with
  | none => simp [hc] at h
  | some c =>
    simp only [hc] at h
    cases hu : Cell.Set.unlink self c.parents_nodes_
        (s.store self { c with impl_ := tmp }) with
    | none => simp [hu] at h
    | some s2 =>
      simp only [hu] at h
      cases hc2 : s2.cell self with
      | none => simp [hc2] at h
      | some c2 =>
        simp only [hc2] at h
        have hr := relink_relinked ext depth self _ _ _ h
        have hpar : s.parentsAt self = c.parents_nodes_ := Sheet.parentsAt_of_cell hc
        -- the cells of the state before the relink loop
        have hcell3 : ∀ q, (s2.store self { c2 with parents_nodes_ := [] }).cell q =
            if q = self then some { c2 with parents_nodes_ := [] } else
              (s.cell q).map (fun d => if q ∈ c.parents_nodes_ then eraseChild self d else d) := by
          intro q
          rw [Sheet.cell_store]
          by_cases e : q = self
          · simp [e]
          · simp only [e, if_false]
            rw [unlink_cell hu q, Sheet.cell_store]
            simp [e]
        have hc2eq : c2 = (if self ∈ c.parents_nodes_
            then eraseChild self { c with impl_ := tmp } else { c with impl_ := tmp }) := by
          have hx := unlink_cell hu self
          rw [hc2, Sheet.cell_store] at hx
          simpa using hx
        have himpl2 : c2.impl_ = tmp := by
          rw [hc2eq]; split <;> rfl
        have hch2 : c2.children_nodes_ = if self ∈ c.parents_nodes_
            then setErase self c.children_nodes_ else c.children_nodes_ := by
          rw [hc2eq]; split <;> rfl
        have hlive3 : ∀ q, ((s2.store self { c2 with parents_nodes_ := [] }).cell q).isSome
            = (s.cell q).isSome := by
          intro q
          rw [hcell3]
          by_cases e : q = self
          · simp [e, hc]
          · simp [e]
        have hnone3 : ∀ q, (s2.store self { c2 with parents_nodes_ := [] }).cell q = none ↔
            s.cell q = none := by
          intro q
          have hx := hlive3 q
          cases h1 : (s2.store self { c2 with parents_nodes_ := [] }).cell q <;>
            cases h2 : s.cell q <;> simp [h1, h2] at hx ⊢
        have himpl3 : ∀ q, q ≠ self →
            (s2.store self { c2 with parents_nodes_ := [] }).implAt q = s.implAt q := by
          intro q e
          unfold Sheet.implAt
          rw [hcell3]
          simp only [e, if_false]
          cases s.cell q with
          | none => rfl
          | some d =>
            simp only [Option.map_some']
            split <;> rfl
        have hpar3 : ∀ q, q ≠ self →
            (s2.store self { c2 with parents_nodes_ := [] }).parentsAt q = s.parentsAt q := by
          intro q e
          unfold Sheet.parentsAt
          rw [hcell3]
          simp only [e, if_false]
          cases s.cell q with
          | none => rfl
          | some d =>
            simp only [Option.map_some']
            split <;> rfl
        have hch3 : ∀ q x, x ∈ (s2.store self { c2 with parents_nodes_ := [] }).childrenAt q ↔
            (x ∈ s.childrenAt q ∧ ¬ (x = self ∧ q ∈ c.parents_nodes_)) := by
          intro q x
          unfold Sheet.childrenAt
          rw [hcell3]
          by_cases e : q = self
          · subst e
            simp only [if_true, hc, hch2]
            by_cases e2 : q ∈ c.parents_nodes_
            · simp [e2, mem_setErase]
            · simp [e2]
          · simp only [e, if_false]
            cases s.cell q with
            | none => simp
            | some d =>
              simp only [Option.map_some']
              by_cases e2 : q ∈ c.parents_nodes_
              · simp [e2, eraseChild, mem_setErase]
              · simp [e2]
        constructor
        · rw [hc]; rfl
        · intro q hq
          rw [hpar] at hq
          have hx := unlink_live self _ _ _ hu q hq
          rw [Sheet.cell_store] at hx
          by_cases e : q = self
          · rw [e, hc]; rfl
          · simpa [e] using hx
        · rw [hr.impl_old self (by rw [hlive3, hc]; rfl), Sheet.implAt_store]
          simp [himpl2]
        · intro q e hq
          rw [hr.impl_old q (by rw [hlive3]; exact hq), himpl3 q e]
        · intro q hq
          rw [hr.impl_new q ((hnone3 q).mpr hq)]
        · intro x
          rw [hr.parents_this, Sheet.parentsAt_store]
          simp
        · intro q e
          rw [hr.parents_other q e, hpar3 q e]
        · intro q x
          rw [hr.children, hch3, hpar]
        · intro q
          rw [hr.null, Sheet.slot_store_null, unlink_slot self _ _ _ hu q, Sheet.slot_store]
          · by_cases e : q = self
            · subst e
              simp [Sheet.cell_eq_some.mp hc]
            · simp only [e, if_false]
              cases s.slot q with
              | none => simp
              | some o => cases o <;> simp
          · rw [Sheet.cell_eq_some.mp hc2]; simp

theorem relink_valid (ext : External) (SetCell : Position → String → Sheet → Outcome)
    (self : Position) : ∀ (refs : List Position) (s s' : Sheet),
    Cell.Set.relink ext SetCell self refs s = .ok s' → ∀ r ∈ refs, ext.IsValid r = true := by
  intro refs
  induction refs with
  | nil => intro s s' _ r hr; simp at hr
  | cons pos rest ih =>
    intro s s' h r hr
    simp only [Cell.Set.relink] at h
    cases hg : s.GetCell ext pos with
    | error e => simp [hg] at h
    | ok o =>
      have hv : ext.IsValid pos = true := by
        cases o with
        | none => exact (GetCell_ok_none hg).1
        | some p => exact (GetCell_ok_some hg).1
      rcases List.mem_cons.mp hr with e | e
      · rw [e]; exact hv
      · cases o with
        | some parent =>
          simp only [hg] at h
          cases hl : Cell.Set.link self parent s with
          | none => simp [hl] at h
          | some s1 =>
            simp only [hl] at h
            exact ih s1 s' h r e
        | none =>
          simp only [hg] at h
          cases hsc : SetCell pos "" s with
          | ok s1 =>
            simp only [hsc] at h
            cases hg1 : s1.GetCell ext pos with
            | error e1 => simp [hg1] at h
            | ok o1 =>
              cases o1 with
              | none => simp [hg1] at h
              | some parent =>
                simp only [hg1] at h
                cases hl : Cell.Set.link self parent s1 with
                | none => simp [hl] at h
                | some s2 =>
                  simp only [hl] at h
                  exact ih s2 s' h r e
          | threw e1 s1 => simp [hsc] at h
          | fault => simp [hsc] at h
          | diverged => simp [hsc] at h

/-! ## The invalidation sweep -/

theorem clearCell_idem (d : Cell) : clearCell (clearCell d) = clearCell d := by
  cases d with
  | mk i p c => cases i <;> rfl

theorem Swept.cell {R : Position → Prop} {s s' : Sheet} (h : Swept R s s') (q : Position) :
    s'.cell q = s.cell q ∨ s'.cell q = (s.cell q).map clearCell := by
  by_cases hq : R q
  · right
    unfold Sheet.cell
    rw [h.hit q hq]
    cases s.slot q with
    | none => rfl
    | some o => cases o <;> rfl
  · left
    unfold Sheet.cell
    rw [h.miss q hq]

theorem Swept.cell_hit {R : Position → Prop} {s s' : Sheet} (h : Swept R s s') (q : Position)
    (hq : R q) : s'.cell q = (s.cell q).map clearCell := by
  unfold Sheet.cell
  rw [h.hit q hq]
  cases s.slot q with
  | none => rfl
  | some o => cases o <;> rfl

theorem Swept.cell_miss {R : Position → Prop} {s s' : Sheet} (h : Swept R s s') (q : Position)
    (hq : ¬ R q) : s'.cell q = s.cell q := by
  unfold Sheet.cell
  rw [h.miss q hq]

theorem Swept.childrenAt {R : Position → Prop} {s s' : Sheet} (h : Swept R s s')
    (q : Position) : s'.childrenAt q = s.childrenAt q := by
  unfold Sheet.childrenAt
  rcases h.cell q with e | e <;> rw [e]
  cases s.cell q <;> rfl

theorem Swept.parentsAt {R : Position → Prop} {s s' : Sheet} (h : Swept R s s')
    (q : Position) : s'.parentsAt q = s.parentsAt q := by
  unfold Sheet.parentsAt
  rcases h.cell q with e | e <;> rw [e]
  cases s.cell q <;> rfl

theorem Swept.live_eq {R : Position → Prop} {s s' : Sheet} (h : Swept R s s')
    (q : Position) : (s'.cell q).isSome = (s.cell q).isSome := by
  rcases h.cell q with e | e <;> rw [e]
  cases s.cell q <;> rfl

theorem Swept.null {R : Position → Prop} {s s' : Sheet} (h : Swept R s s')
    (q : Position) : s'.slot q = some none ↔ s.slot q = some none := by
  by_cases hq : R q
  · rw [h.hit q hq]
    cases s.slot q with
    | none => simp
    | some o => cases o <;> simp
  · rw [h.miss q hq]

theorem Impl.GetReferencedCells_ClearCache (i : Impl) :
    i.ClearCache.GetReferencedCells = i.GetReferencedCells := by
  cases i <;> rfl

theorem Swept.refsAt {R : Position → Prop} {s s' : Sheet} (h : Swept R s s')
    (q : Position) : s'.refsAt q = s.refsAt q := by
  unfold Sheet.refsAt
  rcases h.cell q with e | e <;> rw [e]
  cases s.cell q with
  | none => rfl
  | some d => exact Impl.GetReferencedCells_ClearCache d.impl_

theorem Swept.dependent {R : Position → Prop} {s s' : Sheet} (h : Swept R s s') :
    s'.dependent = s.dependent := by
  funext p q
  unfold Sheet.dependent
  rw [h.childrenAt]

theorem Swept.dependsOn {R : Position → Prop} {s s' : Sheet} (h : Swept R s s') :
    s'.dependsOn = s.dependsOn := by
  funext p q
  unfold Sheet.dependsOn
  rw [h.parentsAt]

theorem Swept.congr {R R' : Position → Prop} {s s' : Sheet} (h : Swept R s s')
    (e : ∀ q, R q ↔ R' q) : Swept R' s s' :=
  ⟨fun q hq => h.hit q ((e q).mpr hq), fun q hq => h.miss q (fun hr => hq ((e q).mp hr))⟩

theorem Swept.swept_none (s : Sheet) : Swept (fun _ => False) s s :=
  ⟨fun _ hq => hq.elim, fun _ _ => rfl⟩

theorem Swept.swept_or {R1 R2 : Position → Prop} {s s1 s2 : Sheet}
    (h1 : Swept R1 s s1) (h2 : Swept R2 s1 s2) : Swept (fun q => R1 q ∨ R2 q) s s2 := by
  constructor
  · intro q hq
    by_cases a : R1 q
    · by_cases b : R2 q
      · rw [h2.hit q b, h1.hit q a]
        cases s.slot q with
        | none => rfl
        | some o =>
          cases o with
          | none => rfl
          | some d => simp [clearCell_idem]
      · rw [h2.miss q b, h1.hit q a]
    · have b : R2 q := hq.resolve_left a
      rw [h2.hit q b, h1.miss q a]
  · intro q hq
    have a : ¬ R1 q := fun x => hq (Or.inl x)
    have b : ¬ R2 q := fun x => hq (Or.inr x)
    rw [h2.miss q b, h1.miss q a]

theorem ClearCache_swept {s s1 : Sheet} {self : Position}
    (h : Cell.ClearCache s self = some s1) : Swept (fun q => q = self) s s1 := by
  unfold Cell.ClearCache at h
  cases hc : s.cell self with
  | none => simp [hc] at h
  | some c =>
    simp only [hc, Option.some.injEq] at h
    subst h
    constructor
    · intro q hq
      subst hq
      rw [Sheet.slot_store, Sheet.cell_eq_some.mp hc]
      simp [clearCell]
    · intro q hq
      rw [Sheet.slot_store]
      simp [hq]

theorem children_swept (rec : Position → Sheet → Outcome)
    (hrec : ∀ node s s', rec node s = .ok s' →
      Swept (Relation.ReflTransGen s.dependent node) s s') :
    ∀ (l : List Position) (s s' : Sheet), ClearCacheRec.children rec l s = .ok s' →
      Swept (fun q => ∃ n ∈ l, Relation.ReflTransGen s.dependent n q) s s' := by
  intro l
  induction l with
  | nil =>
    intro s s' h
    simp only [ClearCacheRec.children, Outcome.ok.injEq] at h
    subst h
    exact (Swept.swept_none s).congr (by simp)
  | cons node rest ih =>
    intro s s' h
    simp only [ClearCacheRec.children] at h
    cases hr : rec node s with
    | ok s1 =>
      simp only [hr] at h
      have h1 := hrec node s s1 hr
      have h2 := ih s1 s' h
      rw [h1.dependent] at h2
      refine (h1.swept_or h2).congr ?_
      intro q
      simp
    | threw e s1 => simp [hr] at h
    | fault => simp [hr] at h
    | diverged => simp [hr] at h

/-- A sweep that returns has cleared the cache of exactly the cells reachable from the start
through dependents, and has changed nothing else. -/
theorem ClearCacheRec_swept : ∀ (fuel : Nat) (self : Position) (s s' : Sheet),
    Cell.ClearCacheRec fuel self s = .ok s' →
    Swept (Relation.ReflTransGen s.dependent self) s s' := by
  intro fuel
  induction fuel with
  | zero => intro self s s' h; simp [Cell.ClearCacheRec] at h
  | succ fuel ih =>
    intro self s s' h
    simp only [Cell.ClearCacheRec] at h
    cases hc : s.cell self with
    | none => simp [hc] at h
    | some c =>
      simp only [hc] at h
      cases hcc : Cell.ClearCache s self with
      | none => simp [hcc] at h
      | some s1 =>
        simp only [hcc] at h
        have h1 := ClearCache_swept hcc
        have h2 := children_swept (Cell.ClearCacheRec fuel) (ih) c.children_nodes_ s1 s' h
        rw [h1.dependent] at h2
        refine (h1.swept_or h2).congr ?_
        intro q
        constructor
        · rintro (e | ⟨n, hn, hr⟩)
          · rw [e]
          · refine Relation.ReflTransGen.head ?_ hr
            unfold Sheet.dependent
            rw [Sheet.childrenAt_of_cell hc]
            exact hn
        · intro hr
          rcases Relation.ReflTransGen.cases_head hr with e | ⟨n, hn, hr2⟩
          · exact Or.inl e.symm
          · right
            refine ⟨n, ?_, hr2⟩
            unfold Sheet.dependent at hn
            rw [Sheet.childrenAt_of_cell hc] at hn
            exact hn

/-! ## The cycle search: the two push loops -/

theorem pushAll_ok (ext : External) (s : Sheet) : ∀ (refs : List Position)
    (st st' : List (Option Position)),
    CheckCycles.pushAll ext s refs st = .ok st' →
    (∀ r ∈ refs, ext.IsValid r = true) ∧
    ∀ e, e ∈ st' ↔ e ∈ st ∨ ∃ r ∈ refs, s.GetCell ext r = .ok e := by
  intro refs
  induction refs with
  | nil =>
    intro st st' h
    simp only [CheckCycles.pushAll, Except.ok.injEq] at h
    subst h
    simp
  | cons pos rest ih =>
    intro st st' h
    simp only [CheckCycles.pushAll] at h
    cases hg : s.GetCell ext pos with
    | error e => simp [hg] at h
    | ok cell =>
      simp only [hg] at h
      obtain ⟨hv, hm⟩ := ih _ _ h
      have hvp : ext.IsValid pos = true := by
        cases cell with
        | none => exact (GetCell_ok_none hg).1
        | some p => exact (GetCell_ok_some hg).1
      constructor
      · intro r hr
        rcases List.mem_cons.mp hr with e | e
        · rw [e]; exact hvp
        · exact hv r e
      · intro e
        rw [hm e]
        constructor
        · rintro (h1 | ⟨r, hr, hr2⟩)
          · rcases List.mem_cons.mp h1 with e1 | e1
            · exact Or.inr ⟨pos, List.mem_cons_self _ _, by rw [hg, e1]⟩
            · exact Or.inl e1
          · exact Or.inr ⟨r, List.mem_cons_of_mem _ hr, hr2⟩
        · rintro (h1 | ⟨r, hr, hr2⟩)
          · exact Or.inl (List.mem_cons_of_mem _ h1)
          · rcases List.mem_cons.mp hr with e1 | e1
            · subst e1
              rw [hg] at hr2
              left
              simp only [Except.ok.injEq] at hr2
              rw [hr2]; exact List.mem_cons_self _ _
            · exact Or.inr ⟨r, e1, hr2⟩

theorem pushAll_length (ext : External) (s : Sheet) : ∀ (refs : List Position)
    (st st' : List (Option Position)),
    CheckCycles.pushAll ext s refs st = .ok st' → st'.length = st.length + refs.length := by
  intro refs
  induction refs with
  | nil =>
    intro st st' h
    simp only [CheckCycles.pushAll, Except.ok.injEq] at h
    subst h
    simp
  | cons pos rest ih =>
    intro st st' h
    simp only [CheckCycles.pushAll] at h
    cases hg : s.GetCell ext pos with
    | error e => simp [hg] at h
    | ok cell =>
      simp only [hg] at h
      rw [ih _ _ h]
      simp
      omega

theorem pushAll_total (ext : External) (s : Sheet) : ∀ (refs : List Position)
    (st : List (Option Position)), (∀ r ∈ refs, ext.IsValid r = true) →
    ∃ st', CheckCycles.pushAll ext s refs st = .ok st' := by
  intro refs
  induction refs with
  | nil => intro st _; exact ⟨st, rfl⟩
  | cons pos rest ih =>
    intro st hv
    simp only [CheckCycles.pushAll]
    rw [GetCell_of_valid ext s pos (hv pos (List.mem_cons_self _ _))]
    exact ih _ (fun r hr => hv r (List.mem_cons_of_mem _ hr))

theorem pushAll_error (ext : External) (s : Sheet) : ∀ (refs : List Position)
    (st : List (Option Position)) (e : Exception),
    CheckCycles.pushAll ext s refs st = .error e → e = .InvalidPositionException := by
  intro refs
  induction refs with
  | nil => intro st e h; simp [CheckCycles.pushAll] at h
  | cons pos rest ih =>
    intro st e h
    simp only [CheckCycles.pushAll] at h
    cases hg : s.GetCell ext pos with
    | error e1 =>
      simp only [hg, Except.error.injEq] at h
      rw [← h]; exact (GetCell_error hg).2
    | ok cell =>
      simp only [hg] at h
      exact ih _ _ h

theorem pushUnvisited_ok (ext : External) (s : Sheet) (visited : List (Option Position)) :
    ∀ (refs : List Position) (st st' : List (Option Position)),
    CheckCycles.pushUnvisited ext s visited refs st = .ok st' →
    ∃ new, st' = new ++ st ∧ new.length ≤ refs.length ∧
      (∀ e ∈ new, e ∉ visited ∧ ∃ r ∈ refs, s.GetCell ext r = .ok e) ∧
      (∀ r ∈ refs, ∀ e, s.GetCell ext r = .ok e → e ∈ visited ∨ e ∈ new) := by
  intro refs
  induction refs with
  | nil =>
    intro st st' h
    simp only [CheckCycles.pushUnvisited, Except.ok.injEq] at h
    subst h
    exact ⟨[], by simp⟩
  | cons pos rest ih =>
    intro st st' h
    simp only [CheckCycles.pushUnvisited] at h
    cases hg : s.GetCell ext pos with
    | error e => simp [hg] at h
    | ok cell =>
      simp only [hg] at h
      by_cases hm : cell ∈ visited
      · simp only [hm, if_true] at h
        obtain ⟨new, h1, h2, h3, h4⟩ := ih _ _ h
        refine ⟨new, h1, ?_, ?_, ?_⟩
        · simp; omega
        · intro e he
          obtain ⟨a, r, hr, hr2⟩ := h3 e he
          exact ⟨a, r, List.mem_cons_of_mem _ hr, hr2⟩
        · intro r hr e he
          rcases List.mem_cons.mp hr with e1 | e1
          · subst e1
            rw [hg] at he
            simp only [Except.ok.injEq] at he
            left; rw [← he]; exact hm
          · exact h4 r e1 e he
      · simp only [hm, if_false] at h
        obtain ⟨new, h1, h2, h3, h4⟩ := ih _ _ h
        refine ⟨new ++ [cell], ?_, ?_, ?_, ?_⟩
        · rw [h1]; simp
        · simp; omega
        · intro e he
          rcases List.mem_append.mp he with h5 | h5
          · obtain ⟨a, r, hr, hr2⟩ := h3 e h5
            exact ⟨a, r, List.mem_cons_of_mem _ hr, hr2⟩
          · simp only [List.mem_singleton] at h5
            subst h5
            exact ⟨hm, pos, List.mem_cons_self _ _, hg⟩
        · intro r hr e he
          rcases List.mem_cons.mp hr with e1 | e1
          · subst e1
            rw [hg] at he
            simp only [Except.ok.injEq] at he
            right; rw [← he]; simp
          · rcases h4 r e1 e he with h5 | h5
            · exact Or.inl h5
            · exact Or.inr (List.mem_append_left _ h5)

theorem pushUnvisited_total (ext : External) (s : Sheet) (visited : List (Option Position)) :
    ∀ (refs : List Position) (st : List (Option Position)),
    (∀ r ∈ refs, ext.IsValid r = true) →
    ∃ st', CheckCycles.pushUnvisited ext s visited refs st = .ok st' := by
  intro refs
  induction refs with
  | nil => intro st _; exact ⟨st, rfl⟩
  | cons pos rest ih =>
    intro st hv
    simp only [CheckCycles.pushUnvisited]
    rw [GetCell_of_valid ext s pos (hv pos (List.mem_cons_self _ _))]
    simp only
    by_cases hm : (if (s.cell pos).isSome = true then some pos else none) ∈ visited
    · rw [if_pos hm]
      exact ih _ (fun r hr => hv r (List.mem_cons_of_mem _ hr))
    · rw [if_neg hm]
      exact ih _ (fun r hr => hv r (List.mem_cons_of_mem _ hr))

theorem pushUnvisited_error (ext : External) (s : Sheet) (visited : List (Option Position)) :
    ∀ (refs : List Position) (st : List (Option Position)) (e : Exception),
    CheckCycles.pushUnvisited ext s visited refs st = .error e →
    e = .InvalidPositionException := by
  intro refs
  induction refs with
  | nil => intro st e h; simp [CheckCycles.pushUnvisited] at h
  | cons pos rest ih =>
    intro st e h
    simp only [CheckCycles.pushUnvisited] at h
    cases hg : s.GetCell ext pos with
    | error e1 =>
      simp only [hg, Except.error.injEq] at h
      rw [← h]; exact (GetCell_error hg).2
    | ok cell =>
      simp only [hg] at h
      split at h
      · exact ih _ _ h
      · exact ih _ _ h

/-! ## The cycle search: what the stack loop answers -/

theorem pushUnvisited_valid (ext : External) (s : Sheet) (visited : List (Option Position)) :
    ∀ (refs : List Position) (st st' : List (Option Position)),
    CheckCycles.pushUnvisited ext s visited refs st = .ok st' →
    ∀ r ∈ refs, ext.IsValid r = true := by
  intro refs
  induction refs with
  | nil => intro st st' _ r hr; simp at hr
  | cons pos rest ih =>
    intro st st' h r hr
    simp only [CheckCycles.pushUnvisited] at h
    cases hg : s.GetCell ext pos with
    | error e => simp [hg] at h
    | ok cell =>
      simp only [hg] at h
      have hvp : ext.IsValid pos = true := by
        cases cell with
        | none => exact (GetCell_ok_none hg).1
        | some p => exact (GetCell_ok_some hg).1
      rcases List.mem_cons.mp hr with e | e
      · rw [e]; exact hvp
      · split at h
        · exact ih _ _ h r e
        · exact ih _ _ h r e

theorem mem_insertVisited (cur : Position) (visited : List (Option Position))
    (e : Option Position) :
    e ∈ (if some cur ∈ visited then visited else some cur :: visited) ↔
      e = some cur ∨ e ∈ visited := by
  by_cases h : some cur ∈ visited
  · simp only [h, if_true]
    constructor
    · exact Or.inr
    · rintro (h1 | h1)
      · rw [h1]; exact h
      · exact h1
  · simp [h]

/-- When the stack loop answers `true`, the cell `self` is reachable along reference edges
from a cell on the stack. -/
theorem loop_sound (ext : External) (s : Sheet) (self : Position) :
    ∀ (fuel : Nat) (st visited : List (Option Position)),
    CheckCycles.loop ext s self fuel st visited = .ok true →
    ∃ p, some p ∈ st ∧ Relation.ReflTransGen s.refEdge p self := by
  intro fuel
  induction fuel with
  | zero => intro st visited h; simp [CheckCycles.loop] at h
  | succ fuel ih =>
    intro st visited h
    cases st with
    | nil => simp [CheckCycles.loop] at h
    | cons top st =>
      cases top with
      | none =>
        simp only [CheckCycles.loop] at h
        obtain ⟨p, hp, hr⟩ := ih _ _ h
        exact ⟨p, List.mem_cons_of_mem _ hp, hr⟩
      | some cur =>
        simp only [CheckCycles.loop] at h
        by_cases hcur : cur = self
        · exact ⟨cur, List.mem_cons_self _ _, by rw [hcur]⟩
        · simp only [hcur, if_false] at h
          cases hc : s.cell cur with
          | none => simp [hc] at h
          | some c =>
            simp only [hc] at h
            cases hpu : CheckCycles.pushUnvisited ext s
                (if some cur ∈ visited then visited else some cur :: visited)
                c.impl_.GetReferencedCells st with
            | error e => simp [hpu] at h
            | ok st1 =>
              simp only [hpu] at h
              obtain ⟨p, hp, hr⟩ := ih _ _ h
              obtain ⟨new, h1, _, h3, _⟩ := pushUnvisited_ok ext s _ _ _ _ hpu
              rw [h1] at hp
              rcases List.mem_append.mp hp with h5 | h5
              · obtain ⟨_, r, hr1, hr2⟩ := h3 _ h5
                obtain ⟨_, hpr, hlive⟩ := GetCell_ok_some hr2
                subst hpr
                refine ⟨cur, List.mem_cons_self _ _, Relation.ReflTransGen.head ?_ hr⟩
                exact ⟨by rw [Sheet.refsAt_of_cell hc]; exact hr1, hlive⟩
              · exact ⟨p, List.mem_cons_of_mem _ h5, hr⟩

theorem closed_not_reach {α : Type} (r : α → α → Prop) (V : α → Prop) (t : α)
    (ht : ¬ V t) (hcl : ∀ v w, V v → r v w → V w) (p : α) (hp : V p) :
    ¬ Relation.ReflTransGen r p t := by
  intro h
  have : ∀ q, Relation.ReflTransGen r p q → V q := by
    intro q hq
    induction hq with
    | refl => exact hp
    | tail _ hbc ih => exact hcl _ _ ih hbc
  exact ht (this t h)

/-- When the stack loop answers `false`, the cell `self` is reachable neither from the stack
nor from the visited cells, provided every edge out of a visited cell leads to a visited cell
or to the stack. -/
theorem loop_complete (ext : External) (s : Sheet) (self : Position) :
    ∀ (fuel : Nat) (st visited : List (Option Position)),
    CheckCycles.loop ext s self fuel st visited = .ok false →
    (∀ v, some v ∈ visited → v ≠ self ∧
      ∀ w, s.refEdge v w → some w ∈ visited ∨ some w ∈ st) →
    ∀ p, (some p ∈ st ∨ some p ∈ visited) → ¬ Relation.ReflTransGen s.refEdge p self := by
  intro fuel
  induction fuel with
  | zero => intro st visited h; simp [CheckCycles.loop] at h
  | succ fuel ih =>
    intro st visited h hinv p hp
    cases st with
    | nil =>
      refine closed_not_reach s.refEdge (fun q => some q ∈ visited) self ?_ ?_ p ?_
      · intro hs; exact (hinv self hs).1 rfl
      · intro v w hv hvw
        rcases (hinv v hv).2 w hvw with h1 | h1
        · exact h1
        · simp at h1
      · rcases hp with h1 | h1
        · simp at h1
        · exact h1
    | cons top st =>
      cases top with
      | none =>
        simp only [CheckCycles.loop] at h
        refine ih _ _ h ?_ p ?_
        · intro v hv
          refine ⟨(hinv v hv).1, fun w hw => ?_⟩
          rcases (hinv v hv).2 w hw with h1 | h1
          · exact Or.inl h1
          · right; simpa using h1
        · rcases hp with h1 | h1
          · left; simpa using h1
          · exact Or.inr h1
      | some cur =>
        simp only [CheckCycles.loop] at h
        by_cases hcur : cur = self
        · simp [hcur] at h
        · simp only [hcur, if_false] at h
          cases hc : s.cell cur with
          | none => simp [hc] at h
          | some c =>
            simp only [hc] at h
            cases hpu : CheckCycles.pushUnvisited ext s
                (if some cur ∈ visited then visited else some cur :: visited)
                c.impl_.GetReferencedCells st with
            | error e => simp [hpu] at h
            | ok st1 =>
              simp only [hpu] at h
              obtain ⟨new, h1, _, _, h4⟩ := pushUnvisited_ok ext s _ _ _ _ hpu
              have hval := pushUnvisited_valid ext s _ _ _ _ hpu
              refine ih _ _ h ?_ p ?_
              · intro v hv
                rcases (mem_insertVisited cur visited (some v)).mp hv with e1 | e1
                · simp only [Option.some.injEq] at e1
                  subst e1
                  refine ⟨hcur, fun w hw => ?_⟩
                  have hwr : w ∈ c.impl_.GetReferencedCells := by
                    rw [← Sheet.refsAt_of_cell hc]; exact hw.1
                  have hg := GetCell_of_valid ext s w (hval w hwr)
                  rw [if_pos hw.2] at hg
                  rcases h4 w hwr _ hg with h5 | h5
                  · exact Or.inl h5
                  · right; rw [h1]; exact List.mem_append_left _ h5
                · refine ⟨(hinv v e1).1, fun w hw => ?_⟩
                  rcases (hinv v e1).2 w hw with h5 | h5
                  · exact Or.inl ((mem_insertVisited cur visited _).mpr (Or.inr h5))
                  · rcases List.mem_cons.mp h5 with h6 | h6
                    · exact Or.inl ((mem_insertVisited cur visited _).mpr (Or.inl h6))
                    · right; rw [h1]; exact List.mem_append_right _ h6
              · rcases hp with h5 | h5
                · rcases List.mem_cons.mp h5 with h6 | h6
                  · exact Or.inr ((mem_insertVisited cur visited _).mpr (Or.inl h6))
                  · left; rw [h1]; exact List.mem_append_right _ h6
                · exact Or.inr ((mem_insertVisited cur visited _).mpr (Or.inr h5))

/-! ## The cycle search: termination -/

theorem countP_lt {α : Type} (p q : α → Bool) (l : List α)
    (hqp : ∀ x, q x = true → p x = true) (x : α) (hx : x ∈ l) (hpx : p x = true)
    (hqx : q x = false) : l.countP q < l.countP p := by
  induction l with
  | nil => simp at hx
  | cons a rest ih =>
    have hle : rest.countP q ≤ rest.countP p :=
      List.countP_mono_left (fun y _ hy => hqp y hy)
    rcases List.mem_cons.mp hx with e | e
    · subst e
      rw [List.countP_cons_of_pos _ _ hpx, List.countP_cons_of_neg _ _ (by simp [hqx])]
      omega
    · have h1 := ih e
      by_cases ha : q a = true
      · rw [List.countP_cons_of_pos _ _ ha, List.countP_cons_of_pos _ _ (hqp a ha)]
        omega
      · rw [List.countP_cons_of_neg _ _ ha]
        by_cases hb : p a = true
        · rw [List.countP_cons_of_pos _ _ hb]
          omega
        · rw [List.countP_cons_of_neg _ _ hb]
          exact h1

theorem filter_length_lt {α : Type} (p q : α → Bool) (l : List α)
    (hqp : ∀ x, q x = true → p x = true) (x : α) (hx : x ∈ l) (hpx : p x = true)
    (hqx : q x = false) : (l.filter q).length < (l.filter p).length := by
  rw [← List.countP_eq_length_filter, ← List.countP_eq_length_filter]
  exact countP_lt p q l hqp x hx hpx hqx

theorem unvisited_cons_lt (s : Sheet) (visited : List (Option Position)) (cur : Position)
    (v : Option Cell) (hk : (cur, v) ∈ s.cells_) (hn : some cur ∉ visited) :
    CheckCycles.unvisited s (some cur :: visited) < CheckCycles.unvisited s visited := by
  unfold CheckCycles.unvisited
  refine filter_length_lt _ _ s.cells_ ?_ (cur, v) hk ?_ ?_
  · intro x hx
    simp only [decide_eq_true_eq] at hx ⊢
    exact fun h => hx (List.mem_cons_of_mem _ h)
  · simpa using hn
  · simp

theorem unvisited_le_length (s : Sheet) (visited : List (Option Position)) :
    CheckCycles.unvisited s visited ≤ s.cells_.length := by
  unfold CheckCycles.unvisited
  exact List.length_filter_le _ _

theorem foldr_max_ge (l : List Nat) (x : Nat) (hx : x ∈ l) : x ≤ l.foldr max 0 := by
  induction l with
  | nil => simp at hx
  | cons a rest ih =>
    rcases List.mem_cons.mp hx with e | e
    · subst e
      simp only [List.foldr_cons]
      exact le_max_left _ _
    · simp only [List.foldr_cons]
      exact le_trans (ih e) (le_max_right _ _)

theorem refs_le_maxRefs (s : Sheet) (p : Position) (c : Cell) (h : s.cell p = some c) :
    c.impl_.GetReferencedCells.length ≤ s.maxRefs := by
  have hm := slotOf_mem s.cells_ p (some c) (Sheet.cell_eq_some.mp h)
  unfold Sheet.maxRefs
  apply foldr_max_ge
  rw [List.mem_map]
  exact ⟨(p, some c), hm, rfl⟩

theorem weight_le_of_not_mem (s : Sheet) (visited : List (Option Position))
    (e : Option Position) (h : e ∉ visited) :
    CheckCycles.weight s visited e ≤ (s.maxRefs + 1) ^ (2 * CheckCycles.unvisited s visited) := by
  cases e with
  | none => exact Nat.one_le_pow _ _ (Nat.succ_pos _)
  | some p => simp [CheckCycles.weight, h]

theorem weight_le (s : Sheet) (visited : List (Option Position)) (e : Option Position) :
    CheckCycles.weight s visited e ≤
      (s.maxRefs + 1) ^ (2 * CheckCycles.unvisited s visited + 1) := by
  cases e with
  | none => exact Nat.one_le_pow _ _ (Nat.succ_pos _)
  | some p =>
    unfold CheckCycles.weight
    by_cases h : some p ∈ visited
    · simp only [h, if_true]
      exact le_refl _
    · simp only [h, if_false]
      exact Nat.pow_le_pow_right (Nat.succ_pos _) (Nat.le_succ _)

theorem weight_mono (s : Sheet) (visited : List (Option Position)) (cur : Position)
    (hlt : CheckCycles.unvisited s (some cur :: visited) < CheckCycles.unvisited s visited)
    (e : Option Position) :
    CheckCycles.weight s (some cur :: visited) e ≤ CheckCycles.weight s visited e := by
  have hD : 0 < s.maxRefs + 1 := Nat.succ_pos _
  cases e with
  | none => exact le_refl _
  | some q =>
    unfold CheckCycles.weight
    by_cases h1 : some q ∈ visited
    · have h2 : some q ∈ some cur :: visited := List.mem_cons_of_mem _ h1
      simp only [h1, h2, if_true]
      exact Nat.pow_le_pow_right hD (by omega)
    · by_cases h2 : some q ∈ some cur :: visited
      · simp only [h1, h2, if_true, if_false]
        exact Nat.pow_le_pow_right hD (by omega)
      · simp only [h1, h2, if_false]
        exact Nat.pow_le_pow_right hD (by omega)

theorem potential_append (s : Sheet) (visited a b : List (Option Position)) :
    CheckCycles.potential s visited (a ++ b) =
      CheckCycles.potential s visited a + CheckCycles.potential s visited b := by
  simp [CheckCycles.potential]

theorem potential_le_of_bound (s : Sheet) (visited l : List (Option Position)) (B : Nat)
    (h : ∀ e ∈ l, CheckCycles.weight s visited e ≤ B) :
    CheckCycles.potential s visited l ≤ l.length * B := by
  induction l with
  | nil => simp [CheckCycles.potential]
  | cons a rest ih =>
    have h1 := h a (List.mem_cons_self _ _)
    have h2 := ih (fun e he => h e (List.mem_cons_of_mem _ he))
    simp only [CheckCycles.potential, List.map_cons, List.sum_cons, List.length_cons] at h2 ⊢
    rw [Nat.succ_mul]
    omega

theorem potential_mono (s : Sheet) (visited visited' l : List (Option Position))
    (h : ∀ e, CheckCycles.weight s visited' e ≤ CheckCycles.weight s visited e) :
    CheckCycles.potential s visited' l ≤ CheckCycles.potential s visited l := by
  induction l with
  | nil => simp [CheckCycles.potential]
  | cons a rest ih =>
    have h1 := h a
    simp only [CheckCycles.potential, List.map_cons, List.sum_cons] at ih ⊢
    omega

theorem new_potential_lt (s : Sheet) (visited new : List (Option Position))
    (hlen : new.length ≤ s.maxRefs) (hnew : ∀ e ∈ new, e ∉ visited) :
    CheckCycles.potential s visited new <
      (s.maxRefs + 1) ^ (2 * CheckCycles.unvisited s visited + 1) := by
  have h1 := potential_le_of_bound s visited new _
    (fun e he => weight_le_of_not_mem s visited e (hnew e he))
  have hpos : 0 < (s.maxRefs + 1) ^ (2 * CheckCycles.unvisited s visited) :=
    pow_pos (Nat.succ_pos _) _
  calc CheckCycles.potential s visited new
      ≤ new.length * (s.maxRefs + 1) ^ (2 * CheckCycles.unvisited s visited) := h1
    _ ≤ s.maxRefs * (s.maxRefs + 1) ^ (2 * CheckCycles.unvisited s visited) :=
        Nat.mul_le_mul_right _ hlen
    _ < (s.maxRefs + 1) * (s.maxRefs + 1) ^ (2 * CheckCycles.unvisited s visited) :=
        Nat.mul_lt_mul_of_pos_right (Nat.lt_succ_self _) hpos
    _ = (s.maxRefs + 1) ^ (2 * CheckCycles.unvisited s visited + 1) := by
        rw [pow_succ]; ring

/-- The stack loop answers within `fuel` iterations when `fuel` exceeds the termination
measure: it neither runs on, nor throws, nor meets a dangling pointer. -/
theorem loop_terminates (ext : External) (s : Sheet) (self : Position)
    (hv : s.ValidRefs ext) :
    ∀ (fuel : Nat) (st visited : List (Option Position)),
    (∀ p, some p ∈ st → (s.cell p).isSome) →
    CheckCycles.potential s visited st < fuel →
    ∃ b, CheckCycles.loop ext s self fuel st visited = .ok b := by
  intro fuel
  induction fuel with
  | zero => intro st visited _ h; omega
  | succ fuel ih =>
    intro st visited hlive hpot
    cases st with
    | nil => exact ⟨false, rfl⟩
    | cons top st =>
      cases top with
      | none =>
        simp only [CheckCycles.loop]
        apply ih
        · intro p hp; exact hlive p (List.mem_cons_of_mem _ hp)
        · simp only [CheckCycles.potential, List.map_cons, List.sum_cons,
            CheckCycles.weight] at hpot ⊢
          omega
      | some cur =>
        simp only [CheckCycles.loop]
        by_cases hcur : cur = self
        · exact ⟨true, by simp [hcur]⟩
        · simp only [hcur, if_false]
          have hl := hlive cur (List.mem_cons_self _ _)
          cases hc : s.cell cur with
          | none => simp [hc] at hl
          | some c =>
            simp only
            have hvr : ∀ r ∈ c.impl_.GetReferencedCells, ext.IsValid r = true := by
              intro r hr
              apply hv cur
              rw [Sheet.refsAt_of_cell hc]; exact hr
            obtain ⟨st1, hpu⟩ := pushUnvisited_total ext s
              (if some cur ∈ visited then visited else some cur :: visited)
              c.impl_.GetReferencedCells st hvr
            simp only [hpu]
            obtain ⟨new, h1, h2, h3, _⟩ := pushUnvisited_ok ext s _ _ _ _ hpu
            have hlen : new.length ≤ s.maxRefs := le_trans h2 (refs_le_maxRefs s cur c hc)
            apply ih
            · intro p hp
              rw [h1] at hp
              rcases List.mem_append.mp hp with h5 | h5
              · obtain ⟨_, r, _, hr2⟩ := h3 _ h5
                obtain ⟨_, hpr, hlv⟩ := GetCell_ok_some hr2
                rw [hpr]; exact hlv
              · exact hlive p (List.mem_cons_of_mem _ h5)
            · rw [h1, potential_append]
              have hk := slotOf_mem s.cells_ cur (some c) (Sheet.cell_eq_some.mp hc)
              by_cases hm : some cur ∈ visited
              · simp only [hm, if_true] at h3 ⊢
                have hn := new_potential_lt s visited new hlen (fun e he => (h3 e he).1)
                simp only [CheckCycles.potential, List.map_cons, List.sum_cons,
                  CheckCycles.weight, hm, if_true] at hpot hn ⊢
                omega
              · simp only [hm, if_false] at h3 ⊢
                have hlt := unvisited_cons_lt s visited cur (some c) hk hm
                have hn := new_potential_lt s (some cur :: visited) new hlen
                  (fun e he => (h3 e he).1)
                have hmono := potential_mono s visited (some cur :: visited) st
                  (weight_mono s visited cur hlt)
                have hpw : (s.maxRefs + 1) ^
                    (2 * CheckCycles.unvisited s (some cur :: visited) + 1) ≤
                    (s.maxRefs + 1) ^ (2 * CheckCycles.unvisited s visited) :=
                  Nat.pow_le_pow_right (Nat.succ_pos _) (by omega)
                simp only [CheckCycles.potential, List.map_cons, List.sum_cons,
                  CheckCycles.weight, hm, if_false] at hpot hmono hn ⊢
                omega

theorem potential_lt_fuel (s : Sheet) (st : List (Option Position)) :
    CheckCycles.potential s [] st < CheckCycles.fuel s st := by
  unfold CheckCycles.fuel
  have h1 := potential_le_of_bound s [] st
    ((s.maxRefs + 1) ^ (2 * s.cells_.length + 1)) (fun e _ =>
      le_trans (weight_le s [] e)
        (Nat.pow_le_pow_right (Nat.succ_pos _)
          (by have := unvisited_le_length s []; omega)))
  omega

/-! ## `Cell::CheckCycles` and the provisional content -/

theorem pushAll_mem_some {ext : External} {s : Sheet} {refs : List Position}
    {st' : List (Option Position)} (h : CheckCycles.pushAll ext s refs [] = .ok st')
    (p : Position) : some p ∈ st' ↔ p ∈ refs ∧ (s.cell p).isSome := by
  obtain ⟨hv, hm⟩ := pushAll_ok ext s refs [] st' h
  rw [hm]
  constructor
  · rintro (h1 | ⟨r, hr, hr2⟩)
    · simp at h1
    · obtain ⟨_, e, hl⟩ := GetCell_ok_some hr2
      rw [e]; exact ⟨hr, hl⟩
  · rintro ⟨hr, hl⟩
    right
    refine ⟨p, hr, ?_⟩
    rw [GetCell_of_valid ext s p (hv p hr), if_pos hl]

/-- The answer `true` of `CheckCycles` means that the cell is reachable from a referenced
cell. -/
theorem CheckCycles_true {ext : External} {s : Sheet} {self : Position} {impl : Impl}
    (h : Cell.CheckCycles ext s self impl = .ok true) :
    ∃ p ∈ impl.GetReferencedCells, (s.cell p).isSome ∧
      Relation.ReflTransGen s.refEdge p self := by
  unfold Cell.CheckCycles at h
  cases hp : CheckCycles.pushAll ext s impl.GetReferencedCells [] with
  | error e => simp [hp] at h
  | ok st =>
    simp only [hp] at h
    obtain ⟨p, hps, hr⟩ := loop_sound ext s self _ _ _ h
    obtain ⟨h1, h2⟩ := (pushAll_mem_some hp p).mp hps
    exact ⟨p, h1, h2, hr⟩

/-- The answer `false` of `CheckCycles` means that the cell is reachable from no referenced
cell. -/
theorem CheckCycles_false {ext : External} {s : Sheet} {self : Position} {impl : Impl}
    (h : Cell.CheckCycles ext s self impl = .ok false) :
    (∀ r ∈ impl.GetReferencedCells, ext.IsValid r = true) ∧
    ∀ p ∈ impl.GetReferencedCells, (s.cell p).isSome →
      ¬ Relation.ReflTransGen s.refEdge p self := by
  unfold Cell.CheckCycles at h
  cases hp : CheckCycles.pushAll ext s impl.GetReferencedCells [] with
  | error e => simp [hp] at h
  | ok st =>
    simp only [hp] at h
    refine ⟨(pushAll_ok ext s _ _ _ hp).1, fun p h1 h2 => ?_⟩
    refine loop_complete ext s self _ _ _ h ?_ p (Or.inl ((pushAll_mem_some hp p).mpr ⟨h1, h2⟩))
    intro v hv
    simp at hv

theorem CheckCycles_threw {ext : External} {s : Sheet} {self : Position} {impl : Impl}
    {e : Exception} (h : Cell.CheckCycles ext s self impl = .threw e) :
    e = .InvalidPositionException := by
  unfold Cell.CheckCycles at h
  cases hp : CheckCycles.pushAll ext s impl.GetReferencedCells [] with
  | error e1 =>
    simp only [hp, Res.threw.injEq] at h
    rw [← h]; exact pushAll_error ext s _ _ _ hp
  | ok st =>
    simp only [hp] at h
    -- the loop throws only what `GetCell` throws
    have : ∀ (fuel : Nat) (st visited : List (Option Position)),
        CheckCycles.loop ext s self fuel st visited = .threw e →
        e = .InvalidPositionException := by
      intro fuel
      induction fuel with
      | zero => intro st visited h; simp [CheckCycles.loop] at h
      | succ fuel ih =>
        intro st visited h
        cases st with
        | nil => simp [CheckCycles.loop] at h
        | cons top st =>
          cases top with
          | none =>
            simp only [CheckCycles.loop] at h
            exact ih _ _ h
          | some cur =>
            simp only [CheckCycles.loop] at h
            by_cases hcur : cur = self
            · simp [hcur] at h
            · simp only [hcur, if_false] at h
              cases hc : s.cell cur with
              | none => simp [hc] at h
              | some c =>
                simp only [hc] at h
                cases hpu : CheckCycles.pushUnvisited ext s
                    (if some cur ∈ visited then visited else some cur :: visited)
                    c.impl_.GetReferencedCells st with
                | error e1 =>
                  simp only [hpu, Res.threw.injEq] at h
                  rw [← h]; exact pushUnvisited_error ext s _ _ _ _ hpu
                | ok st1 =>
                  simp only [hpu] at h
                  exact ih _ _ h
    exact this _ _ _ h

/-- On a sheet whose cells reference valid positions only, `CheckCycles` answers, and the
answer is `true` exactly when the cell is reachable from a referenced cell. -/
theorem CheckCycles_exact (ext : External) (s : Sheet) (self : Position) (impl : Impl)
    (hv : s.ValidRefs ext) (hp : ∀ r ∈ impl.GetReferencedCells, ext.IsValid r = true) :
    ∃ b, Cell.CheckCycles ext s self impl = .ok b ∧
      (b = true ↔ ∃ p ∈ impl.GetReferencedCells, (s.cell p).isSome ∧
        Relation.ReflTransGen s.refEdge p self) := by
  obtain ⟨st, hst⟩ := pushAll_total ext s impl.GetReferencedCells [] hp
  obtain ⟨b, hb⟩ := loop_terminates ext s self hv (CheckCycles.fuel s st) st []
    (fun p hps => ((pushAll_mem_some hst p).mp hps).2) (potential_lt_fuel s st)
  have hcc : Cell.CheckCycles ext s self impl = .ok b := by
    unfold Cell.CheckCycles
    simp only [hst, hb]
  refine ⟨b, hcc, ?_⟩
  cases b with
  | true =>
    simp only [true_iff]
    exact CheckCycles_true hcc
  | false =>
    simp only [Bool.false_eq_true, false_iff]
    rintro ⟨p, h1, h2, h3⟩
    exact (CheckCycles_false hcc).2 p h1 h2 h3

theorem String.get_zero_eq (text : String) : text.get 0 = text.data.headD default :=
  String.front_eq text

theorem tmp_empty (ext : External) (s : Sheet) (self : Position) :
    Cell.Set.tmp ext s self "" = .ok .EmptyImpl := by
  simp [Cell.Set.tmp, String.isEmpty]

/-! ### The provisional content `tmp` -/

theorem isEmpty_false_of_sign (text : String)
    (h : (decide (text.length > 1) && text.get 0 == FORMULA_SIGN) = true) :
    text.isEmpty = false := by
  simp only [Bool.and_eq_true, decide_eq_true_eq, beq_iff_eq] at h
  cases hh : text.isEmpty with
  | false => rfl
  | true =>
    have h2 := (String.isEmpty_iff text).mp hh
    rw [h2] at h
    simp at h

theorem FormulaImpl_new_of_sign (ext : External) (text : String)
    (h : (decide (text.length > 1) && text.get 0 == FORMULA_SIGN) = true) :
    FormulaImpl.new ext text =
      (ext.ParseFormula (text.drop 1)).elim (.error .FormulaException)
        (fun f => .ok (.FormulaImpl f none)) := by
  have h1 := isEmpty_false_of_sign text h
  simp only [Bool.and_eq_true, decide_eq_true_eq, beq_iff_eq] at h
  unfold FormulaImpl.new
  cases hp : ext.ParseFormula (text.drop 1) <;> simp [h1, h.2, hp]

theorem TextImpl_new_of_nonempty (text : String) (h : text.isEmpty = false) :
    TextImpl.new text = .ok (.TextImpl text) := by
  simp [TextImpl.new, h]

/-- What `Cell::Set` has read when it gets past line 111. -/
theorem tmp_ok {ext : External} {s : Sheet} {self : Position} {text : String} {tmp : Impl}
    (h : Cell.Set.tmp ext s self text = .ok tmp) :
    (text.isEmpty = true ∧ tmp = .EmptyImpl) ∨
    (text.isEmpty = false ∧ (decide (text.length > 1) && text.get 0 == FORMULA_SIGN) = true ∧
      ∃ f, ext.ParseFormula (text.drop 1) = some f ∧ tmp = .FormulaImpl f none ∧
        Cell.CheckCycles ext s self tmp = .ok false) ∨
    (text.isEmpty = false ∧ (decide (text.length > 1) && text.get 0 == FORMULA_SIGN) = false ∧
      tmp = .TextImpl text) := by
  unfold Cell.Set.tmp at h
  by_cases h1 : text.isEmpty = true
  · simp only [h1, if_true, Res.ok.injEq] at h
    exact Or.inl ⟨h1, h.symm⟩
  · simp only [Bool.not_eq_true] at h1
    simp only [h1, Bool.false_eq_true, if_false] at h
    by_cases h2 : (decide (text.length > 1) && text.get 0 == FORMULA_SIGN) = true
    · rw [if_pos h2, FormulaImpl_new_of_sign ext text h2] at h
      right; left
      refine ⟨h1, h2, ?_⟩
      cases hp : ext.ParseFormula (text.drop 1) with
      | none => simp [hp] at h
      | some f =>
        simp only [hp, Option.elim] at h
        cases hc : Cell.CheckCycles ext s self (.FormulaImpl f none) with
        | ok b =>
          cases b with
          | true => simp [hc] at h
          | false =>
            simp only [hc, Res.ok.injEq] at h
            exact ⟨f, rfl, h.symm, by rw [← h]; exact hc⟩
        | threw e => simp [hc] at h
        | fault => simp [hc] at h
        | diverged => simp [hc] at h
    · simp only [Bool.not_eq_true] at h2
      rw [if_neg (by simp [h2]), TextImpl_new_of_nonempty text h1] at h
      simp only [Res.ok.injEq] at h
      exact Or.inr (Or.inr ⟨h1, h2, h.symm⟩)

/-- What `Cell::Set` has read when it throws before line 112. -/
theorem tmp_threw {ext : External} {s : Sheet} {self : Position} {text : String}
    {e : Exception} (h : Cell.Set.tmp ext s self text = .threw e) :
    text.isEmpty = false ∧ (decide (text.length > 1) && text.get 0 == FORMULA_SIGN) = true ∧
    ((ext.ParseFormula (text.drop 1) = none ∧ e = .FormulaException) ∨
     (∃ f, ext.ParseFormula (text.drop 1) = some f ∧
        ((Cell.CheckCycles ext s self (.FormulaImpl f none) = .ok true ∧
            e = .CircularDependencyException) ∨
         (Cell.CheckCycles ext s self (.FormulaImpl f none) = .threw e ∧
            e = .InvalidPositionException)))) := by
  unfold Cell.Set.tmp at h
  by_cases h1 : text.isEmpty = true
  · simp [h1] at h
  · simp only [Bool.not_eq_true] at h1
    simp only [h1, Bool.false_eq_true, if_false] at h
    by_cases h2 : (decide (text.length > 1) && text.get 0 == FORMULA_SIGN) = true
    · rw [if_pos h2, FormulaImpl_new_of_sign ext text h2] at h
      refine ⟨h1, h2, ?_⟩
      cases hp : ext.ParseFormula (text.drop 1) with
      | none =>
        simp only [hp, Option.elim, Res.threw.injEq] at h
        exact Or.inl ⟨rfl, h.symm⟩
      | some f =>
        simp only [hp, Option.elim] at h
        right
        refine ⟨f, rfl, ?_⟩
        cases hc : Cell.CheckCycles ext s self (.FormulaImpl f none) with
        | ok b =>
          cases b with
          | true =>
            simp only [hc, Res.threw.injEq] at h
            exact Or.inl ⟨rfl, h.symm⟩
          | false => simp [hc] at h
        | threw e1 =>
          simp only [hc, Res.threw.injEq] at h
          subst h
          exact Or.inr ⟨rfl, CheckCycles_threw hc⟩
        | fault => simp [hc] at h
        | diverged => simp [hc] at h
    · simp only [Bool.not_eq_true] at h2
      rw [if_neg (by simp [h2]), TextImpl_new_of_nonempty text h1] at h
      simp at h

theorem tmp_refs_valid {ext : External} {s : Sheet} {self : Position} {text : String}
    {tmp : Impl} (h : Cell.Set.tmp ext s self text = .ok tmp) :
    ∀ r ∈ tmp.GetReferencedCells, ext.IsValid r = true := by
  rcases tmp_ok h with ⟨_, e⟩ | ⟨_, _, f, _, e, hc⟩ | ⟨_, _, e⟩
  · subst e; intro r hr; simp [Impl.GetReferencedCells] at hr
  · exact (CheckCycles_false hc).1
  · subst e; intro r hr; simp [Impl.GetReferencedCells] at hr

theorem tmp_ClearCache {ext : External} {s : Sheet} {self : Position} {text : String}
    {tmp : Impl} (h : Cell.Set.tmp ext s self text = .ok tmp) : tmp.ClearCache = tmp := by
  rcases tmp_ok h with ⟨_, e⟩ | ⟨_, _, f, _, e, hc⟩ | ⟨_, _, e⟩ <;> subst e <;> rfl

/-- On a sheet whose cells reference valid positions only, lines 100 to 111 of `Cell::Set`
either yield a content or throw. -/
theorem tmp_total (ext : External) (s : Sheet) (self : Position) (text : String)
    (hv : s.ValidRefs ext) :
    (∃ tmp, Cell.Set.tmp ext s self text = .ok tmp) ∨
    (∃ e, Cell.Set.tmp ext s self text = .threw e) := by
  unfold Cell.Set.tmp
  by_cases h1 : text.isEmpty = true
  · simp [h1]
  · simp only [Bool.not_eq_true] at h1
    simp only [h1, Bool.false_eq_true, if_false]
    by_cases h2 : (decide (text.length > 1) && text.get 0 == FORMULA_SIGN) = true
    · rw [if_pos h2, FormulaImpl_new_of_sign ext text h2]
      cases hp : ext.ParseFormula (text.drop 1) with
      | none => simp
      | some f =>
        simp only [Option.elim]
        by_cases hr : ∀ r ∈ (Impl.FormulaImpl f none).GetReferencedCells, ext.IsValid r = true
        · obtain ⟨b, hb, _⟩ := CheckCycles_exact ext s self (.FormulaImpl f none) hv hr
          rw [hb]
          cases b <;> simp
        · -- an invalid referenced position makes the first loop throw
          have : ∃ e, Cell.CheckCycles ext s self (.FormulaImpl f none) = .threw e := by
            unfold Cell.CheckCycles
            cases hpa : CheckCycles.pushAll ext s
                (Impl.FormulaImpl f none).GetReferencedCells [] with
            | error e => exact ⟨e, rfl⟩
            | ok st => exact absurd (pushAll_ok ext s _ _ _ hpa).1 hr
          obtain ⟨e, he⟩ := this
          rw [he]
          simp
    · simp only [Bool.not_eq_true] at h2
      rw [if_neg (by simp [h2]), TextImpl_new_of_nonempty text h1]
      simp

/-! ## `Cell::Set` as a whole -/

theorem relink_not_threw (ext : External) (depth : Nat) (self : Position) :
    ∀ (refs : List Position) (s : Sheet) (e : Exception) (s' : Sheet),
    (∀ r ∈ refs, ext.IsValid r = true) →
    Cell.Set.relink ext (Sheet.SetCellRec ext (depth + 1)) self refs s ≠ .threw e s' := by
  intro refs
  induction refs with
  | nil => intro s e s' _ h; simp [Cell.Set.relink] at h
  | cons pos rest ih =>
    intro s e s' hv h
    have hvp := hv pos (List.mem_cons_self _ _)
    have hvr : ∀ r ∈ rest, ext.IsValid r = true := fun r hr => hv r (List.mem_cons_of_mem _ hr)
    simp only [Cell.Set.relink] at h
    rw [GetCell_of_valid ext s pos hvp] at h
    by_cases hl : (s.cell pos).isSome = true
    · simp only [hl, if_true] at h
      cases h1 : Cell.Set.link self pos s with
      | none => simp [h1] at h
      | some s1 =>
        simp only [h1] at h
        exact ih s1 e s' hvr h
    · simp only [hl] at h
      have hcn : s.cell pos = none := by
        cases hc : s.cell pos with
        | none => rfl
        | some c => simp [hc] at hl
      rcases Sheet.cell_eq_none.mp hcn with hs | hs
      · rw [SetCellRec_empty_absent ext depth pos s hvp hs] at h
        simp only at h
        rw [GetCell_of_valid ext _ pos hvp] at h
        have hl1 : ((s.store pos Cell.new).cell pos).isSome := by
          rw [Sheet.cell_store]; simp
        simp only [hl1, if_true] at h
        cases h2 : Cell.Set.link self pos (s.store pos Cell.new) with
        | none => simp [h2] at h
        | some s2 =>
          simp only [h2] at h
          exact ih s2 e s' hvr h
      · rw [SetCellRec_empty_null ext depth pos "" s hvp hs] at h
        simp at h

theorem children_not_threw (rec : Position → Sheet → Outcome)
    (hrec : ∀ node s e s', rec node s ≠ .threw e s') :
    ∀ (l : List Position) (s : Sheet) (e : Exception) (s' : Sheet),
    ClearCacheRec.children rec l s ≠ .threw e s' := by
  intro l
  induction l with
  | nil => intro s e s' h; simp [ClearCacheRec.children] at h
  | cons node rest ih =>
    intro s e s' h
    simp only [ClearCacheRec.children] at h
    cases hr : rec node s with
    | ok s1 =>
      simp only [hr] at h
      exact ih s1 e s' h
    | threw e1 s1 => exact hrec node s e1 s1 hr
    | fault => simp [hr] at h
    | diverged => simp [hr] at h

theorem ClearCacheRec_not_threw : ∀ (fuel : Nat) (self : Position) (s : Sheet) (e : Exception)
    (s' : Sheet), Cell.ClearCacheRec fuel self s ≠ .threw e s' := by
  intro fuel
  induction fuel with
  | zero => intro self s e s' h; simp [Cell.ClearCacheRec] at h
  | succ fuel ih =>
    intro self s e s' h
    simp only [Cell.ClearCacheRec] at h
    cases hc : s.cell self with
    | none => simp [hc] at h
    | some c =>
      simp only [hc] at h
      cases hcc : Cell.ClearCache s self with
      | none => simp [hcc] at h
      | some s1 =>
        simp only [hcc] at h
        exact children_not_threw _ ih _ _ _ _ h

/-- A call of `Cell::Set` that returns has read a content `tmp`, rewired the edges of the
cell, and swept the caches of the cell and of its transitive dependents. -/
theorem SetWith_ok {ext : External} {depth : Nat} {self : Position} {text : String}
    {s s' : Sheet}
    (h : Cell.SetWith ext (Sheet.SetCellRec ext (depth + 1)) self text s = .ok s') :
    ∃ tmp s4, Cell.Set.tmp ext s self text = .ok tmp ∧ Rewired self tmp s s4 ∧
      Swept (Relation.ReflTransGen s4.dependent self) s4 s' := by
  unfold Cell.SetWith at h
  cases ht : Cell.Set.tmp ext s self text with
  | ok tmp =>
    simp only [ht] at h
    cases hr : Cell.Set.rewire ext (Sheet.SetCellRec ext (depth + 1)) self tmp s with
    | ok s4 =>
      simp only [hr] at h
      exact ⟨tmp, s4, rfl, rewire_rewired ext depth self tmp s s4 hr,
        ClearCacheRec_swept _ _ _ _ h⟩
    | threw e s1 => simp [hr] at h
    | fault => simp [hr] at h
    | diverged => simp [hr] at h
  | threw e => simp [ht] at h
  | fault => simp [ht] at h
  | diverged => simp [ht] at h

/-- A call of `Cell::Set` that throws has thrown before line 112 and has left the sheet as it
was. -/
theorem SetWith_threw {ext : External} {depth : Nat} {self : Position} {text : String}
    {s s' : Sheet} {e : Exception}
    (h : Cell.SetWith ext (Sheet.SetCellRec ext (depth + 1)) self text s = .threw e s') :
    s' = s ∧ Cell.Set.tmp ext s self text = .threw e := by
  unfold Cell.SetWith at h
  cases ht : Cell.Set.tmp ext s self text with
  | ok tmp =>
    simp only [ht] at h
    have hv := tmp_refs_valid ht
    cases hr : Cell.Set.rewire ext (Sheet.SetCellRec ext (depth + 1)) self tmp s with
    | ok s4 =>
      simp only [hr] at h
      exact absurd h (ClearCacheRec_not_threw _ _ _ _ _)
    | threw e1 s1 =>
      exfalso
      unfold Cell.Set.rewire at hr
      cases hc : s.cell self with
      | none => simp [hc] at hr
      | some c =>
        simp only [hc] at hr
        cases hu : Cell.Set.unlink self c.parents_nodes_
            (s.store self { c with impl_ := tmp }) with
        | none => simp [hu] at hr
        | some s2 =>
          simp only [hu] at hr
          cases hc2 : s2.cell self with
          | none => simp [hc2] at hr
          | some c2 =>
            simp only [hc2] at hr
            exact relink_not_threw ext depth self _ _ _ _ hv hr
    | fault => simp [hr] at h
    | diverged => simp [hr] at h
  | threw e1 =>
    simp only [ht, Outcome.threw.injEq] at h
    exact ⟨h.2.symm, by rw [h.1]⟩
  | fault => simp [ht] at h
  | diverged => simp [ht] at h

/-! ## Consequences for a single call of `Cell::Set` -/

theorem Sheet.refsAt_eq (s : Sheet) (p : Position) :
    s.refsAt p = match s.implAt p with
      | some i => i.GetReferencedCells
      | none => [] := by
  unfold Sheet.refsAt Sheet.implAt
  cases s.cell p <;> rfl

theorem Sheet.cacheAt_eq (s : Sheet) (p : Position) :
    s.cacheAt p = (s.implAt p).bind Impl.cache? := by
  unfold Sheet.cacheAt Sheet.implAt
  cases s.cell p <;> rfl

theorem Rewired.live_after {self : Position} {tmp : Impl} {s s' : Sheet}
    (h : Rewired self tmp s s') (q : Position) :
    (s'.cell q).isSome ↔ ((s.cell q).isSome ∨ q ∈ tmp.GetReferencedCells) := by
  rw [← Sheet.implAt_isSome]
  by_cases e : q = self
  · subst e
    rw [h.impl_this]
    simp [h.this_live]
  · cases hq : s.cell q with
    | some d =>
      rw [h.impl_old q e (by simp [hq]), Sheet.implAt_of_cell hq]
      simp
    | none =>
      rw [h.impl_new q hq]
      by_cases hr : q ∈ tmp.GetReferencedCells <;> simp [hr]

theorem Rewired.refsAt_this {self : Position} {tmp : Impl} {s s' : Sheet}
    (h : Rewired self tmp s s') : s'.refsAt self = tmp.GetReferencedCells := by
  rw [Sheet.refsAt_eq, h.impl_this]

theorem Swept.implAt_this {R : Position → Prop} {s s' : Sheet} (h : Swept R s s')
    (q : Position) (hq : R q) : s'.implAt q = (s.implAt q).map Impl.ClearCache := by
  unfold Sheet.implAt
  rw [h.cell_hit q hq]
  cases s.cell q <;> rfl

theorem Swept.implAt_miss {R : Position → Prop} {s s' : Sheet} (h : Swept R s s')
    (q : Position) (hq : ¬ R q) : s'.implAt q = s.implAt q := by
  unfold Sheet.implAt
  rw [h.cell_miss q hq]

theorem Swept.implAt_cases {R : Position → Prop} {s s' : Sheet} (h : Swept R s s')
    (q : Position) :
    s'.implAt q = s.implAt q ∨ s'.implAt q = (s.implAt q).map Impl.ClearCache := by
  by_cases hq : R q
  · exact Or.inr (h.implAt_this q hq)
  · exact Or.inl (h.implAt_miss q hq)

theorem Impl.cache_ClearCache (i : Impl) : i.ClearCache.cache? = none := by
  cases i <;> rfl

/-- The content of the cell after a call of `Cell::Set` that returns is the content `tmp`
the call has read. -/
theorem Set_ok_impl {ext : External} {self : Position} {text : String} {s s' : Sheet}
    (h : Cell.Set ext self text s = .ok s') :
    ∃ tmp, Cell.Set.tmp ext s self text = .ok tmp ∧ s'.implAt self = some tmp := by
  obtain ⟨tmp, s4, ht, hr, hs⟩ := SetWith_ok h
  refine ⟨tmp, ht, ?_⟩
  rw [hs.implAt_this self Relation.ReflTransGen.refl, hr.impl_this]
  simp [tmp_ClearCache ht]

theorem ValidRefs_of_cells (ext : External) (s : Sheet)
    (h : ∀ kv ∈ s.cells_, ∀ r ∈ (match kv.2 with
      | some c => c.impl_.GetReferencedCells
      | none => []), ext.IsValid r = true) : s.ValidRefs ext := by
  intro p r hr
  unfold Sheet.refsAt at hr
  cases hc : s.cell p with
  | none => simp [hc] at hr
  | some c =>
    simp only [hc] at hr
    exact h (p, some c) (slotOf_mem _ _ _ (Sheet.cell_eq_some.mp hc)) r hr

/-! ### How `Cell::Set` reads its text -/

theorem tmp_literal (ext : External) (s : Sheet) (self : Position) (text : String)
    (h1 : text ≠ "") (h2 : ¬ (text.length > 1 ∧ text.get 0 = FORMULA_SIGN)) :
    Cell.Set.tmp ext s self text = .ok (.TextImpl text) := by
  have h3 : text.isEmpty = false := by
    cases hh : text.isEmpty with
    | false => rfl
    | true => exact absurd ((String.isEmpty_iff text).mp hh) h1
  have h4 : (decide (text.length > 1) && text.get 0 == FORMULA_SIGN) = false := by
    cases hb : (decide (text.length > 1) && text.get 0 == FORMULA_SIGN) with
    | false => rfl
    | true =>
      simp only [Bool.and_eq_true, decide_eq_true_eq, beq_iff_eq] at hb
      exact absurd hb h2
  unfold Cell.Set.tmp
  simp only [h3, Bool.false_eq_true, if_false]
  rw [if_neg (by simp [h4]), TextImpl_new_of_nonempty text h3]

theorem tmp_formula {ext : External} {s : Sheet} {self : Position} {text : String}
    {tmp : Impl} (hsign : text.length > 1 ∧ text.get 0 = FORMULA_SIGN)
    (h : Cell.Set.tmp ext s self text = .ok tmp) :
    ∃ f, ext.ParseFormula (text.drop 1) = some f ∧ tmp = .FormulaImpl f none := by
  rcases tmp_ok h with ⟨h1, _⟩ | ⟨_, _, f, hf, e, _⟩ | ⟨_, h2, _⟩
  · have h3 := (String.isEmpty_iff text).mp h1
    rw [h3] at hsign
    simp at hsign
  · exact ⟨f, hf, e⟩
  · simp [hsign.1, hsign.2] at h2

theorem Set_not_threw_of_literal {ext : External} {s s' : Sheet} {self : Position}
    {text : String} {e : Exception}
    (hn : ¬ (text.length > 1 ∧ text.get 0 = FORMULA_SIGN)) :
    Cell.Set ext self text s ≠ .threw e s' := by
  intro h
  have h2 := (tmp_threw (SetWith_threw h).2).2.1
  simp only [Bool.and_eq_true, decide_eq_true_eq, beq_iff_eq] at h2
  exact hn h2

/-! ## Invariants: steps that keep the edges -/

theorem Sheet.cell_none_cases {s : Sheet} {q : Position} (h : (s.cell q).isSome = false) :
    s.slot q = none ∨ s.slot q = some none := by
  apply Sheet.cell_eq_none.mp
  cases hc : s.cell q with
  | none => rfl
  | some c => simp [hc] at h

theorem Sheet.slot_ne_none_of_live {s : Sheet} {q : Position} (h : (s.cell q).isSome = true) :
    s.slot q ≠ none := by
  intro e
  simp [Sheet.cell, e] at h

theorem Sheet.live_of_mem_parentsAt {s : Sheet} {p q : Position} (h : q ∈ s.parentsAt p) :
    (s.cell p).isSome = true := by
  unfold Sheet.parentsAt at h
  cases hc : s.cell p with
  | none => simp [hc] at h
  | some c => rfl

theorem Sheet.live_of_mem_childrenAt {s : Sheet} {p q : Position} (h : q ∈ s.childrenAt p) :
    (s.cell p).isSome = true := by
  unfold Sheet.childrenAt at h
  cases hc : s.cell p with
  | none => simp [hc] at h
  | some c => rfl

theorem Sheet.live_of_mem_refsAt {s : Sheet} {p q : Position} (h : q ∈ s.refsAt p) :
    (s.cell p).isSome = true := by
  unfold Sheet.refsAt at h
  cases hc : s.cell p with
  | none => simp [hc] at h
  | some c => rfl

theorem SameEdges.same (s : Sheet) : SameEdges s s :=
  ⟨fun _ => rfl, fun _ => rfl, fun _ => Iff.rfl, fun _ h => h⟩

theorem SameEdges.live_mono {s s' : Sheet} (h : SameEdges s s') (q : Position)
    (hq : (s.cell q).isSome = true) : (s'.cell q).isSome = true := by
  cases hc : s.cell q with
  | none => simp [hc] at hq
  | some c =>
    have h1 := Sheet.cell_eq_some.mp hc
    cases hs : s'.slot q with
    | none => rw [h.slot q hs] at h1; cases h1
    | some o =>
      cases o with
      | none => rw [(h.null q).mp hs] at h1; cases h1
      | some d => simp [Sheet.cell, hs]

theorem SameEdges.keeps_linked {s s' : Sheet} (h : SameEdges s s') (hl : s.Linked) : s'.Linked := by
  have hnew : ∀ a, (s'.cell a).isSome = true → (s.cell a).isSome = false → s.slot a = none := by
    intro a h1 h2
    rcases Sheet.cell_none_cases h2 with e | e
    · exact e
    · have h3 := (h.null a).mpr e
      simp [Sheet.cell, h3] at h1
  constructor
  · intro a b ha hb
    rw [h.parents, h.children]
    by_cases ha0 : (s.cell a).isSome = true
    · by_cases hb0 : (s.cell b).isSome = true
      · exact hl.mutuality a b ha0 hb0
      · simp only [Bool.not_eq_true] at hb0
        have hbs := hnew b hb hb0
        constructor
        · intro h1
          have h2 := Sheet.live_of_mem_parentsAt h1
          rw [hb0] at h2; cases h2
        · intro h1
          exact absurd hbs (hl.slots a b (Or.inr h1))
    · simp only [Bool.not_eq_true] at ha0
      have has := hnew a ha ha0
      constructor
      · intro h1
        exact absurd has (hl.slots b a (Or.inl h1))
      · intro h1
        have h2 := Sheet.live_of_mem_childrenAt h1
        rw [ha0] at h2; cases h2
  · intro p q hq
    rw [h.parents, h.children] at hq
    intro e
    exact hl.slots p q hq (h.slot q e)

theorem SameEdges.keeps_consistent {ext : External} {s s' : Sheet} (h : SameEdges s s')
    (hrefs : ∀ q, s'.refsAt q = s.refsAt q) (hc : s.Consistent ext) : s'.Consistent ext := by
  have hdep : s'.dependsOn = s.dependsOn := by
    funext p q
    unfold Sheet.dependsOn
    rw [h.parents]
  constructor
  · intro q e
    exact hc.no_null q ((h.null q).mp e)
  · intro p q
    rw [h.parents, hrefs]
    exact hc.parents_refs p q
  · intro p q
    rw [h.parents, h.children]
    exact hc.mutuality p q
  · intro p
    rw [hdep]
    exact hc.acyclic p
  · intro p r hr
    rw [hrefs] at hr
    exact hc.valid_refs p r hr

theorem Swept.sameEdges {R : Position → Prop} {s s' : Sheet} (h : Swept R s s') :
    SameEdges s s' := by
  refine ⟨h.parentsAt, h.childrenAt, h.null, ?_⟩
  intro q hq
  by_cases hr : R q
  · rw [h.hit q hr] at hq
    cases hs : s.slot q with
    | none => rfl
    | some o => simp [hs] at hq
  · rw [h.miss q hr] at hq
    exact hq

/-- Overwriting a cell by a cell with the same two pointer sets keeps the edges. -/
theorem store_sameEdges (s : Sheet) (p : Position) (c c' : Cell) (hc : s.cell p = some c)
    (hp : c'.parents_nodes_ = c.parents_nodes_)
    (hch : c'.children_nodes_ = c.children_nodes_) : SameEdges s (s.store p c') := by
  have hs := Sheet.cell_eq_some.mp hc
  constructor
  · intro q
    rw [Sheet.parentsAt_store]
    by_cases e : q = p
    · subst e; simp [Sheet.parentsAt_of_cell hc, hp]
    · simp [e]
  · intro q
    rw [Sheet.childrenAt_store]
    by_cases e : q = p
    · subst e; simp [Sheet.childrenAt_of_cell hc, hch]
    · simp [e]
  · intro q
    apply Sheet.slot_store_null
    rw [hs]; simp
  · intro q hq
    exact Sheet.slot_eq_none_of_store hq

/-- A new empty cell at a position without a slot keeps the edges. -/
theorem emplace_sameEdges (s : Sheet) (pos : Position) (hs : s.slot pos = none) :
    SameEdges s (s.store pos Cell.new) := by
  have hcn : s.cell pos = none := Sheet.cell_eq_none.mpr (Or.inl hs)
  constructor
  · intro q
    rw [Sheet.parentsAt_store]
    by_cases e : q = pos
    · subst e; simp [Sheet.parentsAt_of_none hcn, Cell.new]
    · simp [e]
  · intro q
    rw [Sheet.childrenAt_store]
    by_cases e : q = pos
    · subst e; simp [Sheet.childrenAt_of_none hcn, Cell.new]
    · simp [e]
  · intro q
    apply Sheet.slot_store_null
    rw [hs]; simp
  · intro q hq
    exact Sheet.slot_eq_none_of_store hq

theorem emplace_refsAt (s : Sheet) (pos : Position) (hs : s.slot pos = none) (q : Position) :
    (s.store pos Cell.new).refsAt q = s.refsAt q := by
  have hcn : s.cell pos = none := Sheet.cell_eq_none.mpr (Or.inl hs)
  rw [Sheet.refsAt_store]
  by_cases e : q = pos
  · subst e
    simp [Sheet.refsAt, hcn, Cell.new, Impl.GetReferencedCells]
  · simp [e]

/-! ## Invariants: the rewiring -/

theorem Rewired.slot_persist {self : Position} {tmp : Impl} {s s' : Sheet}
    (h : Rewired self tmp s s') (q : Position) (hq : s'.slot q = none) : s.slot q = none := by
  cases hs : s.slot q with
  | none => rfl
  | some o =>
    exfalso
    cases o with
    | none =>
      rw [(h.null q).mpr hs] at hq; cases hq
    | some d =>
      have h1 : (s.cell q).isSome = true := by simp [Sheet.cell, hs]
      have h2 := (h.live_after q).mpr (Or.inl h1)
      simp [Sheet.cell, hq] at h2

theorem Rewired.refsAt_other {self : Position} {tmp : Impl} {s s' : Sheet}
    (h : Rewired self tmp s s') (p : Position) (hp : p ≠ self) :
    s'.refsAt p = s.refsAt p := by
  rw [Sheet.refsAt_eq, Sheet.refsAt_eq]
  cases hc : s.cell p with
  | some c =>
    rw [h.impl_old p hp (by simp [hc])]
  | none =>
    rw [h.impl_new p hc, Sheet.implAt_of_none hc]
    by_cases e : p ∈ tmp.GetReferencedCells
    · rw [if_pos e]; rfl
    · rw [if_neg e]

/-- The rewiring of `Cell::Set` keeps edge mutuality over the cells of the sheet. -/
theorem Rewired.rewired_linked {self : Position} {tmp : Impl} {s s' : Sheet}
    (h : Rewired self tmp s s') (hl : s.Linked) : s'.Linked := by
  have hnull : ∀ a, (s'.cell a).isSome = true → (s.cell a).isSome = false →
      s.slot a = none := by
    intro a h1 h2
    rcases Sheet.cell_none_cases h2 with e | e
    · exact e
    · have h3 := (h.null a).mpr e
      simp [Sheet.cell, h3] at h1
  constructor
  · intro a b ha hb
    rw [h.children]
    by_cases e : b = self
    · subst e
      rw [h.parents_this]
      constructor
      · intro h1; exact Or.inr ⟨rfl, h1⟩
      · rintro (⟨h1, h2⟩ | ⟨_, h2⟩)
        · exfalso
          apply h2
          refine ⟨rfl, ?_⟩
          exact (hl.mutuality a b (Sheet.live_of_mem_childrenAt h1) h.this_live).mpr h1
        · exact h2
    · rw [h.parents_other b e]
      have key : a ∈ s.parentsAt b ↔ b ∈ s.childrenAt a := by
        by_cases ha0 : (s.cell a).isSome = true
        · by_cases hb0 : (s.cell b).isSome = true
          · exact hl.mutuality a b ha0 hb0
          · simp only [Bool.not_eq_true] at hb0
            have hbs := hnull b hb hb0
            constructor
            · intro h1
              have h2 := Sheet.live_of_mem_parentsAt h1
              rw [hb0] at h2; cases h2
            · intro h1
              exact absurd hbs (hl.slots a b (Or.inr h1))
        · simp only [Bool.not_eq_true] at ha0
          have has := hnull a ha ha0
          constructor
          · intro h1
            exact absurd has (hl.slots b a (Or.inl h1))
          · intro h1
            have h2 := Sheet.live_of_mem_childrenAt h1
            rw [ha0] at h2; cases h2
      rw [key]
      constructor
      · intro h1
        exact Or.inl ⟨h1, fun h2 => e h2.1⟩
      · rintro (⟨h1, _⟩ | ⟨h1, _⟩)
        · exact h1
        · exact absurd h1 e
  · intro p q hq e
    have hs := h.slot_persist q e
    rcases hq with hq | hq
    · by_cases ep : p = self
      · subst ep
        rw [h.parents_this] at hq
        have h1 := (h.live_after q).mpr (Or.inr hq)
        exact Sheet.slot_ne_none_of_live h1 e
      · rw [h.parents_other p ep] at hq
        exact hl.slots p q (Or.inl hq) hs
    · rw [h.children] at hq
      rcases hq with ⟨h1, _⟩ | ⟨h1, _⟩
      · exact hl.slots p q (Or.inr h1) hs
      · subst h1
        have h2 := (h.live_after q).mpr (Or.inl h.this_live)
        exact Sheet.slot_ne_none_of_live h2 e

/-! ## Invariants: acyclicity -/

theorem reach_old_of_reach_new {α : Type} (r r' : α → α → Prop) (t : α)
    (h : ∀ a b, a ≠ t → r' a b → r a b) (a : α) (ha : Relation.ReflTransGen r' a t) :
    Relation.ReflTransGen r a t := by
  induction ha using Relation.ReflTransGen.head_induction_on with
  | refl => exact Relation.ReflTransGen.refl
  | @head x y hab _ ih =>
    by_cases e : x = t
    · rw [e]
    · exact Relation.ReflTransGen.head (h x y e hab) ih

theorem path_through {α : Type} (r r' : α → α → Prop) (t : α)
    (h : ∀ a b, a ≠ t → r' a b → r a b) (a b : α) (hab : Relation.TransGen r' a b) :
    Relation.TransGen r a b ∨
      (Relation.ReflTransGen r' a t ∧ ∃ c, r' t c ∧ Relation.ReflTransGen r' c b) := by
  induction hab with
  | @single y h1 =>
    by_cases e : a = t
    · right
      subst e
      exact ⟨Relation.ReflTransGen.refl, y, h1, Relation.ReflTransGen.refl⟩
    · exact Or.inl (Relation.TransGen.single (h a y e h1))
  | @tail y z h1 h2 ih =>
    rcases ih with h3 | ⟨h3, c, h4, h5⟩
    · by_cases e : y = t
      · right
        subst e
        exact ⟨h1.to_reflTransGen, z, h2, Relation.ReflTransGen.refl⟩
      · exact Or.inl (Relation.TransGen.tail h3 (h y z e h2))
    · exact Or.inr ⟨h3, c, h4, Relation.ReflTransGen.tail h5 h2⟩

/-- New edges out of the single node `t` create no cycle when `t` was reachable from none of
their targets. -/
theorem acyclic_after {α : Type} (r r' : α → α → Prop) (t : α)
    (h : ∀ a b, a ≠ t → r' a b → r a b) (hacyc : ∀ p, ¬ Relation.TransGen r p p)
    (hno : ∀ c, r' t c → ¬ Relation.ReflTransGen r c t) (p : α) :
    ¬ Relation.TransGen r' p p := by
  intro hp
  rcases path_through r r' t h p p hp with h1 | ⟨h1, c, h2, h3⟩
  · exact hacyc p h1
  · exact hno c h2 (reach_old_of_reach_new r r' t h c (h3.trans h1))

theorem Sheet.Consistent.refEdge_of_dependsOn {ext : External} {s : Sheet}
    (hc : s.Consistent ext) (a b : Position) (h : s.dependsOn a b) : s.refEdge a b := by
  unfold Sheet.dependsOn at h
  refine ⟨(hc.parents_refs a b).mp h, ?_⟩
  exact Sheet.live_of_mem_childrenAt ((hc.mutuality a b).mp h)

/-- The rewiring of `Cell::Set` keeps the invariant when the cycle check has passed. -/
theorem Rewired.rewired_consistent {ext : External} {self : Position} {tmp : Impl} {s s' : Sheet}
    (h : Rewired self tmp s s') (hc : s.Consistent ext)
    (hvalid : ∀ r ∈ tmp.GetReferencedCells, ext.IsValid r = true)
    (hcyc : ∀ p ∈ tmp.GetReferencedCells, (s.cell p).isSome = true →
      ¬ Relation.ReflTransGen s.refEdge p self) : s'.Consistent ext := by
  constructor
  · intro q e
    exact hc.no_null q ((h.null q).mp e)
  · intro p q
    by_cases e : p = self
    · subst e
      rw [h.parents_this, h.refsAt_this]
    · rw [h.parents_other p e, h.refsAt_other p e]
      exact hc.parents_refs p q
  · intro p q
    rw [h.children]
    by_cases e : p = self
    · subst e
      rw [h.parents_this]
      constructor
      · intro h1; exact Or.inr ⟨rfl, h1⟩
      · rintro (⟨h1, h2⟩ | ⟨_, h2⟩)
        · exact absurd ⟨rfl, (hc.mutuality p q).mpr h1⟩ h2
        · exact h2
    · rw [h.parents_other p e, hc.mutuality p q]
      constructor
      · intro h1; exact Or.inl ⟨h1, fun h2 => e h2.1⟩
      · rintro (⟨h1, _⟩ | ⟨h1, _⟩)
        · exact h1
        · exact absurd h1 e
  · refine acyclic_after s.dependsOn s'.dependsOn self ?_ hc.acyclic ?_
    · intro a b e hab
      unfold Sheet.dependsOn at hab ⊢
      rw [h.parents_other a e] at hab
      exact hab
    · intro c hsc hreach
      have hcr : c ∈ tmp.GetReferencedCells := (h.parents_this c).mp hsc
      by_cases hl : (s.cell c).isSome = true
      · exact hcyc c hcr hl (hreach.mono (fun a b => hc.refEdge_of_dependsOn a b))
      · rcases Relation.ReflTransGen.cases_head hreach with e | ⟨x, hx, _⟩
        · rw [e] at hl
          exact hl h.this_live
        · exact hl (Sheet.live_of_mem_parentsAt hx)
  · intro p r hr
    by_cases e : p = self
    · subst e
      rw [h.refsAt_this] at hr
      exact hvalid r hr
    · rw [h.refsAt_other p e] at hr
      exact hc.valid_refs p r hr

/-! ## Invariants: the calls return -/

/-- Lines 112 to 127 of `Cell::Set` run through when the cell and the cells of its
depends_on set are there, the referenced positions are valid and none has a null slot. -/
theorem rewire_total (ext : External) (depth : Nat) (self : Position) (tmp : Impl)
    (s : Sheet) (hself : (s.cell self).isSome = true)
    (hold : ∀ q ∈ s.parentsAt self, (s.cell q).isSome = true)
    (hvalid : ∀ r ∈ tmp.GetReferencedCells, ext.IsValid r = true)
    (hnull : ∀ r ∈ tmp.GetReferencedCells, s.slot r ≠ some none) :
    ∃ s', Cell.Set.rewire ext (Sheet.SetCellRec ext (depth + 1)) self tmp s = .ok s' := by
  unfold Cell.Set.rewire
  cases hc : s.cell self with
  | none => simp [hc] at hself
  | some c =>
    simp only
    have hpar : s.parentsAt self = c.parents_nodes_ := Sheet.parentsAt_of_cell hc
    obtain ⟨s2, hu⟩ := unlink_total self c.parents_nodes_
      (s.store self { c with impl_ := tmp }) (by
        intro q hq
        rw [Sheet.cell_store]
        by_cases e : q = self
        · simp [e]
        · simp only [e, if_false]
          exact hold q (by rw [hpar]; exact hq))
    simp only [hu]
    have hc2 : (s2.cell self).isSome = true := by
      rw [unlink_cell hu self, Sheet.cell_store]
      simp
    cases hc2' : s2.cell self with
    | none => simp [hc2'] at hc2
    | some c2 =>
      simp only
      apply relink_total ext depth self _ _ hvalid
      · intro r hr
        rw [Ne, Sheet.slot_store_null, unlink_slot self _ _ _ hu r, Sheet.slot_store]
        · by_cases e : r = self
          · simp [e]
          · simp only [e, if_false]
            have h1 := hnull r hr
            cases hs : s.slot r with
            | none => simp
            | some o =>
              cases o with
              | none => exact absurd hs h1
              | some d => simp
        · rw [Sheet.cell_eq_some.mp hc2']; simp
      · rw [Sheet.cell_store]; simp

theorem nodup_live_length_le (s : Sheet) (l : List Position) (hn : l.Nodup)
    (hl : ∀ x ∈ l, (s.cell x).isSome = true) : l.length ≤ s.cells_.length := by
  have hsub : l ⊆ s.cells_.map Prod.fst := by
    intro x hx
    have h1 := hl x hx
    cases hc : s.cell x with
    | none => simp [hc] at h1
    | some c =>
      have h2 := slotOf_mem s.cells_ x (some c) (Sheet.cell_eq_some.mp hc)
      exact List.mem_map.mpr ⟨(x, some c), h2, rfl⟩
  have h3 := (List.Nodup.subperm hn hsub).length_le
  simpa using h3

/-- The sweep returns from a cell when the dependents graph has no cycle, every dependent is
a cell, and `fuel` exceeds the number of cells that are not on the path of the recursion. -/
theorem ClearCacheRec_total (N : Nat) : ∀ (fuel : Nat) (self : Position) (s : Sheet)
    (path : List Position),
    (∀ l : List Position, l.Nodup → (∀ x ∈ l, (s.cell x).isSome = true) → l.length ≤ N) →
    (∀ p q, q ∈ s.childrenAt p → (s.cell q).isSome = true) →
    (∀ p, ¬ Relation.TransGen s.dependent p p) →
    (s.cell self).isSome = true → path.Nodup →
    (∀ x ∈ path, (s.cell x).isSome = true ∧ Relation.TransGen s.dependent x self) →
    N < fuel + path.length →
    ∃ s', Cell.ClearCacheRec fuel self s = .ok s' := by
  intro fuel
  induction fuel with
  | zero =>
    intro self s path hN _ _ _ hnd hpath hlt
    have h1 := hN path hnd (fun x hx => (hpath x hx).1)
    omega
  | succ fuel ih =>
    intro self s path hN hlive hacyc hself hnd hpath hlt
    simp only [Cell.ClearCacheRec]
    cases hc : s.cell self with
    | none => simp [hc] at hself
    | some c =>
      simp only
      have hcc : Cell.ClearCache s self =
          some (s.store self { c with impl_ := c.impl_.ClearCache }) := by
        simp [Cell.ClearCache, hc]
      rw [hcc]
      simp only
      have hsw0 := ClearCache_swept hcc
      have hnotin : self ∉ path := fun hm => hacyc self (hpath self hm).2
      -- the loop over the dependents, from any state that differs from `s` by caches only
      have loop : ∀ (l : List Position) (s1 : Sheet), (∀ n ∈ l, n ∈ c.children_nodes_) →
          SameEdges s s1 → (∀ q, (s1.cell q).isSome = (s.cell q).isSome) →
          ∃ s', ClearCacheRec.children (Cell.ClearCacheRec fuel) l s1 = .ok s' := by
        intro l
        induction l with
        | nil => intro s1 _ _ _; exact ⟨s1, rfl⟩
        | cons node rest ihl =>
          intro s1 hsub hse hlv
          have hnode : node ∈ s.childrenAt self := by
            rw [Sheet.childrenAt_of_cell hc]
            exact hsub node (List.mem_cons_self _ _)
          have hdep1 : s1.dependent = s.dependent := by
            funext p q
            unfold Sheet.dependent
            rw [hse.children]
          obtain ⟨s2, h2⟩ := ih node s1 (self :: path)
            (fun l hl1 hl2 => hN l hl1 (fun x hx => by rw [← hlv]; exact hl2 x hx))
            (fun p q hq => by
              rw [hse.children] at hq
              rw [hlv]
              exact hlive p q hq)
            (fun p => by rw [hdep1]; exact hacyc p)
            (by rw [hlv]; exact hlive self node hnode)
            (List.nodup_cons.mpr ⟨hnotin, hnd⟩)
            (by
              intro x hx
              rw [hlv, hdep1]
              rcases List.mem_cons.mp hx with e | e
              · subst e
                exact ⟨hself, Relation.TransGen.single hnode⟩
              · exact ⟨(hpath x e).1, Relation.TransGen.tail (hpath x e).2 hnode⟩)
            (by simp only [List.length_cons]; omega)
          simp only [ClearCacheRec.children, h2]
          have hsw := ClearCacheRec_swept _ _ _ _ h2
          have hse2 : SameEdges s s2 := by
            have h3 := hsw.sameEdges
            exact ⟨fun q => by rw [h3.parents, hse.parents],
              fun q => by rw [h3.children, hse.children],
              fun q => by rw [h3.null, hse.null],
              fun q hq => hse.slot q (h3.slot q hq)⟩
          exact ihl s2 (fun n hn => hsub n (List.mem_cons_of_mem _ hn)) hse2
            (fun q => by rw [hsw.live_eq, hlv])
      exact loop c.children_nodes_ _ (fun n hn => hn) hsw0.sameEdges (fun q => hsw0.live_eq q)

/-! ## Invariants: one call -/

theorem Sheet.Consistent.children_live {ext : External} {s : Sheet} (hc : s.Consistent ext)
    (p q : Position) (h : q ∈ s.childrenAt p) : (s.cell q).isSome = true :=
  Sheet.live_of_mem_parentsAt ((hc.mutuality q p).mpr h)

theorem Sheet.Consistent.parents_live {ext : External} {s : Sheet} (hc : s.Consistent ext)
    (p q : Position) (h : q ∈ s.parentsAt p) : (s.cell q).isSome = true :=
  Sheet.live_of_mem_childrenAt ((hc.mutuality p q).mp h)

theorem Sheet.Consistent.dependent_acyclic {ext : External} {s : Sheet}
    (hc : s.Consistent ext) (p : Position) : ¬ Relation.TransGen s.dependent p p := by
  have e : s.dependent = Function.swap s.dependsOn := by
    funext a b
    exact propext (hc.mutuality b a).symm
  rw [e, Relation.transGen_swap]
  exact hc.acyclic p

/-- On a sheet that satisfies the invariant, `Cell::Set` on a cell of the sheet returns or
throws, and the sheet it leaves satisfies the invariant. -/
theorem SetWith_consistent (ext : External) (depth : Nat) (self : Position) (text : String)
    (s : Sheet) (hc : s.Consistent ext) (hself : (s.cell self).isSome = true) :
    ∃ s', (Cell.SetWith ext (Sheet.SetCellRec ext (depth + 1)) self text s).state? = some s' ∧
      s'.Consistent ext := by
  rcases tmp_total ext s self text hc.valid_refs with ⟨tmp, ht⟩ | ⟨e, ht⟩
  · have hvalid := tmp_refs_valid ht
    obtain ⟨s4, h4⟩ := rewire_total ext depth self tmp s hself
      (fun q hq => hc.parents_live self q hq) hvalid (fun r _ => hc.no_null r)
    have hr := rewire_rewired ext depth self tmp s s4 h4
    have hcyc : ∀ p ∈ tmp.GetReferencedCells, (s.cell p).isSome = true →
        ¬ Relation.ReflTransGen s.refEdge p self := by
      rcases tmp_ok ht with ⟨_, e⟩ | ⟨_, _, f, _, e, hcc⟩ | ⟨_, _, e⟩
      · subst e; intro p hp; simp [Impl.GetReferencedCells] at hp
      · exact (CheckCycles_false hcc).2
      · subst e; intro p hp; simp [Impl.GetReferencedCells] at hp
    have hc4 : s4.Consistent ext := hr.rewired_consistent hc hvalid hcyc
    obtain ⟨s', h5⟩ := ClearCacheRec_total s4.cells_.length (ClearCacheRec.fuel s4) self s4 []
      (fun l h1 h2 => nodup_live_length_le s4 l h1 h2)
      (fun p q hq => hc4.children_live p q hq) hc4.dependent_acyclic
      ((hr.live_after self).mpr (Or.inl hself)) List.nodup_nil
      (fun x hx => by simp at hx) (by simp [ClearCacheRec.fuel])
    have hsw := ClearCacheRec_swept _ _ _ _ h5
    refine ⟨s', ?_, hsw.sameEdges.keeps_consistent hsw.refsAt hc4⟩
    unfold Cell.SetWith
    simp only [ht, h4, h5, Outcome.state?]
  · refine ⟨s, ?_, hc⟩
    unfold Cell.SetWith
    simp only [ht, Outcome.state?]

/-- The sheet that `Cell::Set` leaves when it comes back keeps edge mutuality. -/
theorem SetWith_linked (ext : External) (depth : Nat) (self : Position) (text : String)
    (s s' : Sheet) (hl : s.Linked)
    (h : (Cell.SetWith ext (Sheet.SetCellRec ext (depth + 1)) self text s).state? = some s') :
    s'.Linked := by
  cases ho : Cell.SetWith ext (Sheet.SetCellRec ext (depth + 1)) self text s with
  | ok s1 =>
    simp only [ho, Outcome.state?, Option.some.injEq] at h
    subst h
    obtain ⟨tmp, s4, _, hr, hs⟩ := SetWith_ok ho
    exact hs.sameEdges.keeps_linked (hr.rewired_linked hl)
  | threw e s1 =>
    simp only [ho, Outcome.state?, Option.some.injEq] at h
    subst h
    rw [(SetWith_threw ho).1]
    exact hl
  | fault => simp [ho, Outcome.state?] at h
  | diverged => simp [ho, Outcome.state?] at h

theorem SetCell_unfold (ext : External) (pos : Position) (text : String) (s : Sheet) :
    Sheet.SetCell ext pos text s =
      if ext.IsValid pos = true then
        (match (if (s.slot pos).isSome = true then s else s.store pos Cell.new).slot pos with
          | some (some _) => Cell.SetWith ext (Sheet.SetCellRec ext 1) pos text
              (if (s.slot pos).isSome = true then s else s.store pos Cell.new)
          | _ => .fault)
      else .threw .InvalidPositionException s := by
  unfold Sheet.SetCell Sheet.SetCellRec
  by_cases hv : ext.IsValid pos = true
  · simp only [hv, Bool.not_true, Bool.false_eq_true, if_false, if_true]
    rfl
  · simp only [Bool.not_eq_true] at hv
    simp [hv]

/-- On a sheet that satisfies the invariant, `Sheet::SetCell` returns or throws, and the
sheet it leaves satisfies the invariant. -/
theorem SetCell_consistent (ext : External) (pos : Position) (text : String) (s : Sheet)
    (hc : s.Consistent ext) :
    ∃ s', (Sheet.SetCell ext pos text s).state? = some s' ∧ s'.Consistent ext := by
  rw [SetCell_unfold]
  by_cases hv : ext.IsValid pos = true
  · simp only [hv, if_true]
    have h1 : (if (s.slot pos).isSome = true then s else s.store pos Cell.new).Consistent ext
        ∧ ∃ c, (if (s.slot pos).isSome = true then s else s.store pos Cell.new).slot pos
          = some (some c) := by
      cases hs : s.slot pos with
      | none =>
        simp only [Option.isSome_none, Bool.false_eq_true, if_false]
        exact ⟨(emplace_sameEdges s pos hs).keeps_consistent (emplace_refsAt s pos hs) hc,
          Cell.new, by rw [Sheet.slot_store]; simp⟩
      | some o =>
        simp only [Option.isSome_some, if_true]
        cases o with
        | none => exact absurd hs (hc.no_null pos)
        | some c => exact ⟨hc, c, hs⟩
    obtain ⟨hc1, c, hslot⟩ := h1
    rw [hslot]
    simp only
    exact SetWith_consistent ext 0 pos text _ hc1 (by simp [Sheet.cell, hslot])
  · simp only [hv]
    exact ⟨s, rfl, hc⟩

/-- The sheet that `Sheet::SetCell` leaves when it comes back keeps edge mutuality. -/
theorem SetCell_linked (ext : External) (pos : Position) (text : String) (s s' : Sheet)
    (hl : s.Linked) (h : (Sheet.SetCell ext pos text s).state? = some s') : s'.Linked := by
  rw [SetCell_unfold] at h
  by_cases hv : ext.IsValid pos = true
  · simp only [hv, if_true] at h
    have h1 : (if (s.slot pos).isSome = true then s else s.store pos Cell.new).Linked := by
      cases hs : s.slot pos with
      | none =>
        simp only [Option.isSome_none, Bool.false_eq_true, if_false]
        exact (emplace_sameEdges s pos hs).keeps_linked hl
      | some o =>
        simp only [Option.isSome_some, if_true]
        exact hl
    cases hslot : (if (s.slot pos).isSome = true then s else s.store pos Cell.new).slot pos with
    | none => simp [hslot, Outcome.state?] at h
    | some o =>
      cases o with
      | none => simp [hslot, Outcome.state?] at h
      | some c =>
        simp only [hslot] at h
        exact SetWith_linked ext 0 pos text _ s' h1 h
  · simp only [hv, Bool.false_eq_true, if_false, Outcome.state?, Option.some.injEq] at h
    rw [← h]; exact hl

theorem Impl.GetValue_refs (v : FormulaValue) (i : Impl) :
    (i.GetValue v).2.GetReferencedCells = i.GetReferencedCells := by
  cases i with
  | EmptyImpl => rfl
  | TextImpl t =>
    simp only [Impl.GetValue]
    split <;> rfl
  | FormulaImpl f c =>
    simp only [Impl.GetValue]
    split <;> rfl

/-- A read changes the content object of one cell, not its pointer sets nor the positions it
references. -/
theorem GetValue_exec (ext : External) (pos : Position) (v : FormulaValue) (s : Sheet) :
    ∃ s', ((Call.GetValue pos v).exec ext s).state? = some s' ∧ SameEdges s s' ∧
      ∀ q, s'.refsAt q = s.refsAt q := by
  simp only [Call.exec]
  cases hg : s.GetCell ext pos with
  | error e => exact ⟨s, rfl, SameEdges.same s, fun _ => rfl⟩
  | ok o =>
    cases o with
    | none => exact ⟨s, rfl, SameEdges.same s, fun _ => rfl⟩
    | some p =>
      obtain ⟨_, hp, hl⟩ := GetCell_ok_some hg
      subst hp
      cases hc : s.cell p with
      | none => simp [hc] at hl
      | some c =>
        simp only [Cell.GetValue, hc, Outcome.state?]
        refine ⟨_, rfl, store_sameEdges s p c _ hc rfl rfl, ?_⟩
        intro q
        rw [Sheet.refsAt_store]
        by_cases e : q = p
        · subst e
          simp only [if_true]
          rw [Impl.GetValue_refs, Sheet.refsAt_of_cell hc]
        · simp [e]

/-- The method `Cell::Clear` changes the content of one cell, not its pointer sets. -/
theorem Clear_sameEdges (p : Position) (s s' : Sheet) (h : Cell.Clear p s = .ok s') :
    SameEdges s s' := by
  unfold Cell.Clear at h
  cases hc : s.cell p with
  | none => simp [hc] at h
  | some c =>
    simp only [hc, Outcome.ok.injEq] at h
    subst h
    exact store_sameEdges s p c _ hc rfl rfl

theorem Clear_outcome (p : Position) (s : Sheet) :
    (∃ s', Cell.Clear p s = .ok s') ∨ Cell.Clear p s = .fault := by
  unfold Cell.Clear
  cases s.cell p with
  | none => exact Or.inr rfl
  | some c => exact Or.inl ⟨_, rfl⟩

/-- Resetting the slot of a cell keeps edge mutuality over the cells that remain. -/
theorem reset_linked (s : Sheet) (pos : Position) (hl : s.Linked) :
    Sheet.Linked ⟨putSlot s.cells_ pos none⟩ := by
  have hslot : ∀ q, Sheet.slot ⟨putSlot s.cells_ pos none⟩ q =
      if q = pos then some none else s.slot q := by
    intro q
    simp [Sheet.slot, slotOf_putSlot]
  have hcell : ∀ q, Sheet.cell ⟨putSlot s.cells_ pos none⟩ q =
      if q = pos then none else s.cell q := by
    intro q
    unfold Sheet.cell
    rw [hslot]
    by_cases e : q = pos <;> simp [e]
  have hpar : ∀ q x, x ∈ Sheet.parentsAt ⟨putSlot s.cells_ pos none⟩ q →
      q ≠ pos ∧ x ∈ s.parentsAt q := by
    intro q x hx
    unfold Sheet.parentsAt at hx
    rw [hcell] at hx
    by_cases e : q = pos
    · simp [e] at hx
    · simp only [e, if_false] at hx
      exact ⟨e, hx⟩
  have hch : ∀ q x, x ∈ Sheet.childrenAt ⟨putSlot s.cells_ pos none⟩ q →
      q ≠ pos ∧ x ∈ s.childrenAt q := by
    intro q x hx
    unfold Sheet.childrenAt at hx
    rw [hcell] at hx
    by_cases e : q = pos
    · simp [e] at hx
    · simp only [e, if_false] at hx
      exact ⟨e, hx⟩
  constructor
  · intro a b ha hb
    rw [hcell] at ha hb
    have ea : a ≠ pos := by
      intro e; simp [e] at ha
    have eb : b ≠ pos := by
      intro e; simp [e] at hb
    simp only [ea, eb, if_false] at ha hb
    have h1 : Sheet.parentsAt ⟨putSlot s.cells_ pos none⟩ b = s.parentsAt b := by
      unfold Sheet.parentsAt
      rw [hcell]; simp [eb]
    have h2 : Sheet.childrenAt ⟨putSlot s.cells_ pos none⟩ a = s.childrenAt a := by
      unfold Sheet.childrenAt
      rw [hcell]; simp [ea]
    rw [h1, h2]
    exact hl.mutuality a b ha hb
  · intro p q hq
    rw [hslot]
    by_cases e : q = pos
    · simp [e]
    · simp only [e, if_false]
      rcases hq with hq | hq
      · exact hl.slots p q (Or.inl (hpar p q hq).2)
      · exact hl.slots p q (Or.inr (hch p q hq).2)

theorem Linked_empty : Sheet.empty.Linked := by
  constructor
  · intro a b ha _
    simp [Sheet.empty, Sheet.cell, Sheet.slot, slotOf] at ha
  · intro p q hq
    simp [Sheet.empty, Sheet.parentsAt, Sheet.childrenAt, Sheet.cell, Sheet.slot, slotOf] at hq

theorem Consistent_empty (ext : External) : Sheet.empty.Consistent ext := by
  have hcell : ∀ q, Sheet.empty.cell q = none := fun q => rfl
  have hp : ∀ q, Sheet.empty.parentsAt q = [] := fun q => rfl
  have hch : ∀ q, Sheet.empty.childrenAt q = [] := fun q => rfl
  have hr : ∀ q, Sheet.empty.refsAt q = [] := fun q => rfl
  constructor
  · intro q e
    simp [Sheet.empty, Sheet.slot, slotOf] at e
  · intro p q; rw [hp, hr]
  · intro p q; rw [hp, hch]; simp
  · intro p h
    rcases Relation.TransGen.head'_iff.mp h with ⟨c, h1, _⟩
    unfold Sheet.dependsOn at h1
    rw [hp] at h1
    simp at h1
  · intro p r h
    rw [hr] at h
    simp at h

/-- Every call that comes back keeps edge mutuality. -/
theorem exec_linked (ext : External) (c : Call) (s s' : Sheet) (hl : s.Linked)
    (h : (c.exec ext s).state? = some s') : s'.Linked := by
  cases c with
  | SetCell pos text => exact SetCell_linked ext pos text s s' hl h
  | GetValue pos v =>
    obtain ⟨s1, h1, h2, _⟩ := GetValue_exec ext pos v s
    rw [h1] at h
    simp only [Option.some.injEq] at h
    rw [← h]; exact h2.keeps_linked hl
  | Clear pos =>
    simp only [Call.exec] at h
    cases hg : s.GetCell ext pos with
    | error e =>
      simp only [hg, Outcome.state?, Option.some.injEq] at h
      rw [← h]; exact hl
    | ok o =>
      cases o with
      | none =>
        simp only [hg, Outcome.state?, Option.some.injEq] at h
        rw [← h]; exact hl
      | some p =>
        simp only [hg] at h
        rcases Clear_outcome p s with ⟨s1, h1⟩ | h1
        · rw [h1] at h
          simp only [Outcome.state?, Option.some.injEq] at h
          rw [← h]; exact (Clear_sameEdges p s s1 h1).keeps_linked hl
        · rw [h1] at h
          simp [Outcome.state?] at h
  | ClearCell pos =>
    simp only [Call.exec, Sheet.ClearCell] at h
    by_cases hv : ext.IsValid pos = true
    · simp only [hv, Bool.not_true, Bool.false_eq_true, if_false] at h
      cases hs : s.slot pos with
      | none =>
        simp only [hs, Outcome.state?, Option.some.injEq] at h
        rw [← h]; exact hl
      | some o =>
        cases o with
        | none =>
          simp only [hs, Outcome.state?, Option.some.injEq] at h
          rw [← h]; exact hl
        | some c =>
          simp only [hs] at h
          rcases Clear_outcome pos s with ⟨s1, h1⟩ | h1
          · rw [h1] at h
            simp only [Outcome.state?, Option.some.injEq] at h
            rw [← h]
            exact reset_linked s1 pos ((Clear_sameEdges pos s s1 h1).keeps_linked hl)
          · rw [h1] at h
            simp [Outcome.state?] at h
    · simp only [Bool.not_eq_true] at hv
      simp only [hv, Bool.not_false, if_true, Outcome.state?, Option.some.injEq] at h
      rw [← h]; exact hl

/-- Every sequence of calls that all come back keeps edge mutuality. -/
theorem run_linked (ext : External) : ∀ (calls : List Call) (s s' : Sheet), s.Linked →
    run ext calls s = some s' → s'.Linked := by
  intro calls
  induction calls with
  | nil =>
    intro s s' hl h
    simp only [run, Option.some.injEq] at h
    rw [← h]; exact hl
  | cons c rest ih =>
    intro s s' hl h
    simp only [run] at h
    cases hs : (c.exec ext s).state? with
    | none => simp [hs] at h
    | some s1 =>
      simp only [hs] at h
      exact ih s1 s' (exec_linked ext c s s1 hl hs) h

/-- A `SetCell` call or a read on a sheet that satisfies the invariant comes back and leaves
a sheet that satisfies the invariant. -/
theorem exec_consistent (ext : External) (c : Call) (s : Sheet) (hk : c.isSetOrGet = true)
    (hc : s.Consistent ext) :
    ∃ s', (c.exec ext s).state? = some s' ∧ s'.Consistent ext := by
  cases c with
  | SetCell pos text => exact SetCell_consistent ext pos text s hc
  | GetValue pos v =>
    obtain ⟨s1, h1, h2, h3⟩ := GetValue_exec ext pos v s
    exact ⟨s1, h1, h2.keeps_consistent h3 hc⟩
  | Clear pos => simp [Call.isSetOrGet] at hk
  | ClearCell pos => simp [Call.isSetOrGet] at hk

/-- Every sequence of `SetCell` calls and reads runs through and keeps the invariant. -/
theorem run_consistent (ext : External) : ∀ (calls : List Call) (s : Sheet),
    (∀ c ∈ calls, c.isSetOrGet = true) → s.Consistent ext →
    ∃ s', run ext calls s = some s' ∧ s'.Consistent ext := by
  intro calls
  induction calls with
  | nil => intro s _ hc; exact ⟨s, rfl, hc⟩
  | cons c rest ih =>
    intro s hk hc
    obtain ⟨s1, h1, hc1⟩ := exec_consistent ext c s (hk c (List.mem_cons_self _ _)) hc
    obtain ⟨s', h2, hc2⟩ := ih s1 (fun c hc => hk c (List.mem_cons_of_mem _ hc)) hc1
    exact ⟨s', by simp only [run, h1, h2], hc2⟩

/-! ## The nesting depth of `SetCell` -/

theorem relink_depth (ext : External) (depth : Nat) (self : Position) :
    ∀ (refs : List Position) (s : Sheet),
    Cell.Set.relink ext (Sheet.SetCellRec ext (depth + 1)) self refs s =
      Cell.Set.relink ext (Sheet.SetCellRec ext 1) self refs s := by
  intro refs
  induction refs with
  | nil => intro s; rfl
  | cons pos rest ih =>
    intro s
    simp only [Cell.Set.relink]
    cases hg : s.GetCell ext pos with
    | error e => rfl
    | ok o =>
      cases o with
      | some parent =>
        simp only
        cases Cell.Set.link self parent s with
        | none => rfl
        | some s1 => exact ih s1
      | none =>
        simp only
        obtain ⟨hv, hcn⟩ := GetCell_ok_none hg
        rcases Sheet.cell_eq_none.mp hcn with hs | hs
        · rw [SetCellRec_empty_absent ext depth pos s hv hs,
            SetCellRec_empty_absent ext 0 pos s hv hs]
          simp only
          cases (s.store pos Cell.new).GetCell ext pos with
          | error e => rfl
          | ok o1 =>
            cases o1 with
            | none => rfl
            | some parent =>
              simp only
              cases Cell.Set.link self parent (s.store pos Cell.new) with
              | none => rfl
              | some s2 => exact ih s2
        · rw [SetCellRec_empty_null ext depth pos "" s hv hs,
            SetCellRec_empty_null ext 0 pos "" s hv hs]

theorem SetWith_depth (ext : External) (depth : Nat) (self : Position) (text : String)
    (s : Sheet) :
    Cell.SetWith ext (Sheet.SetCellRec ext (depth + 1)) self text s =
      Cell.SetWith ext (Sheet.SetCellRec ext 1) self text s := by
  unfold Cell.SetWith Cell.Set.rewire
  simp only [relink_depth ext depth]

theorem SetCellRec_succ (ext : External) (depth : Nat) (pos : Position) (text : String)
    (s : Sheet) :
    Sheet.SetCellRec ext (depth + 1) pos text s =
      if (!ext.IsValid pos) = true then .threw .InvalidPositionException s
      else
        match (if (s.slot pos).isSome = true then s
          else ⟨putSlot s.cells_ pos (some Cell.new)⟩ : Sheet).slot pos with
        | some (some _) => Cell.SetWith ext (Sheet.SetCellRec ext depth) pos text
            (if (s.slot pos).isSome = true then s else ⟨putSlot s.cells_ pos (some Cell.new)⟩)
        | _ => .fault := rfl

/-- The depth bound of `SetCell` is never reached: any bound from two on gives the result of
the bound two. -/
theorem SetCellRec_depth (ext : External) (depth : Nat) (pos : Position) (text : String)
    (s : Sheet) :
    Sheet.SetCellRec ext (depth + 2) pos text s = Sheet.SetCell ext pos text s := by
  show Sheet.SetCellRec ext (depth + 1 + 1) pos text s = Sheet.SetCellRec ext (0 + 1 + 1) pos text s
  rw [SetCellRec_succ ext (depth + 1), SetCellRec_succ ext (0 + 1)]
  simp only [SetWith_depth ext depth, SetWith_depth ext 0]

/-! ## The cycle search never runs on -/

/-- The stack loop comes to an end within `fuel` iterations when `fuel` exceeds the
termination measure, on every sheet. -/
theorem loop_ne_diverged (ext : External) (s : Sheet) (self : Position) :
    ∀ (fuel : Nat) (st visited : List (Option Position)),
    CheckCycles.potential s visited st < fuel →
    CheckCycles.loop ext s self fuel st visited ≠ .diverged := by
  intro fuel
  induction fuel with
  | zero => intro st visited h; omega
  | succ fuel ih =>
    intro st visited hpot
    cases st with
    | nil => simp [CheckCycles.loop]
    | cons top st =>
      cases top with
      | none =>
        simp only [CheckCycles.loop]
        apply ih
        simp only [CheckCycles.potential, List.map_cons, List.sum_cons,
          CheckCycles.weight] at hpot ⊢
        omega
      | some cur =>
        simp only [CheckCycles.loop]
        by_cases hcur : cur = self
        · simp [hcur]
        · simp only [hcur, if_false]
          cases hc : s.cell cur with
          | none => simp
          | some c =>
            simp only
            cases hpu : CheckCycles.pushUnvisited ext s
                (if some cur ∈ visited then visited else some cur :: visited)
                c.impl_.GetReferencedCells st with
            | error e => simp
            | ok st1 =>
              simp only
              obtain ⟨new, h1, h2, h3, _⟩ := pushUnvisited_ok ext s _ _ _ _ hpu
              have hlen : new.length ≤ s.maxRefs := le_trans h2 (refs_le_maxRefs s cur c hc)
              apply ih
              rw [h1, potential_append]
              have hk := slotOf_mem s.cells_ cur (some c) (Sheet.cell_eq_some.mp hc)
              by_cases hm : some cur ∈ visited
              · simp only [hm, if_true] at h3 ⊢
                have hn := new_potential_lt s visited new hlen (fun e he => (h3 e he).1)
                simp only [CheckCycles.potential, List.map_cons, List.sum_cons,
                  CheckCycles.weight, hm, if_true] at hpot hn ⊢
                omega
              · simp only [hm, if_false] at h3 ⊢
                have hlt := unvisited_cons_lt s visited cur (some c) hk hm
                have hn := new_potential_lt s (some cur :: visited) new hlen
                  (fun e he => (h3 e he).1)
                have hmono := potential_mono s visited (some cur :: visited) st
                  (weight_mono s visited cur hlt)
                have hpw : (s.maxRefs + 1) ^
                    (2 * CheckCycles.unvisited s (some cur :: visited) + 1) ≤
                    (s.maxRefs + 1) ^ (2 * CheckCycles.unvisited s visited) :=
                  Nat.pow_le_pow_right (Nat.succ_pos _) (by omega)
                simp only [CheckCycles.potential, List.map_cons, List.sum_cons,
                  CheckCycles.weight, hm, if_false] at hpot hmono hn ⊢
                omega

/-- The method `Cell::CheckCycles` comes to an end on every sheet and for every content. -/
theorem CheckCycles_ne_diverged (ext : External) (s : Sheet) (self : Position) (impl : Impl) :
    Cell.CheckCycles ext s self impl ≠ .diverged := by
  unfold Cell.CheckCycles
  cases hp : CheckCycles.pushAll ext s impl.GetReferencedCells [] with
  | error e => simp
  | ok st =>
    simp only
    exact loop_ne_diverged ext s self _ st [] (potential_lt_fuel s st)

/-! ## Referenced positions are valid in every state the calls produce -/

theorem SetWith_validRefs (ext : External) (depth : Nat) (self : Position) (text : String)
    (s s' : Sheet) (hv : s.ValidRefs ext)
    (h : (Cell.SetWith ext (Sheet.SetCellRec ext (depth + 1)) self text s).state? = some s') :
    s'.ValidRefs ext := by
  cases ho : Cell.SetWith ext (Sheet.SetCellRec ext (depth + 1)) self text s with
  | ok s1 =>
    simp only [ho, Outcome.state?, Option.some.injEq] at h
    subst h
    obtain ⟨tmp, s4, ht, hr, hs⟩ := SetWith_ok ho
    intro p r hp
    rw [hs.refsAt] at hp
    by_cases e : p = self
    · subst e
      rw [hr.refsAt_this] at hp
      exact tmp_refs_valid ht r hp
    · rw [hr.refsAt_other p e] at hp
      exact hv p r hp
  | threw e s1 =>
    simp only [ho, Outcome.state?, Option.some.injEq] at h
    subst h
    rw [(SetWith_threw ho).1]
    exact hv
  | fault => simp [ho, Outcome.state?] at h
  | diverged => simp [ho, Outcome.state?] at h

theorem Clear_refsAt (p : Position) (s s' : Sheet) (h : Cell.Clear p s = .ok s')
    (q r : Position) (hr : r ∈ s'.refsAt q) : r ∈ s.refsAt q := by
  unfold Cell.Clear at h
  cases hc : s.cell p with
  | none => simp [hc] at h
  | some c =>
    simp only [hc, Outcome.ok.injEq] at h
    subst h
    rw [Sheet.refsAt_store] at hr
    by_cases e : q = p
    · simp [e, Impl.GetReferencedCells] at hr
    · simpa [e] using hr

theorem reset_refsAt (s : Sheet) (pos q r : Position)
    (hr : r ∈ Sheet.refsAt ⟨putSlot s.cells_ pos none⟩ q) : r ∈ s.refsAt q := by
  have hcell : Sheet.cell ⟨putSlot s.cells_ pos none⟩ q =
      if q = pos then none else s.cell q := by
    unfold Sheet.cell
    simp only [Sheet.slot, slotOf_putSlot]
    by_cases e : q = pos <;> simp [e]
  unfold Sheet.refsAt at hr ⊢
  rw [hcell] at hr
  by_cases e : q = pos
  · simp [e] at hr
  · simpa [e] using hr

/-- Every call that comes back leaves a sheet whose cells reference valid positions only. -/
theorem exec_validRefs (ext : External) (c : Call) (s s' : Sheet) (hv : s.ValidRefs ext)
    (h : (c.exec ext s).state? = some s') : s'.ValidRefs ext := by
  cases c with
  | SetCell pos text =>
    simp only [Call.exec] at h
    rw [SetCell_unfold] at h
    by_cases hp : ext.IsValid pos = true
    · simp only [hp, if_true] at h
      have h1 : (if (s.slot pos).isSome = true then s
          else s.store pos Cell.new).ValidRefs ext := by
        cases hs : s.slot pos with
        | none =>
          simp only [Option.isSome_none, Bool.false_eq_true, if_false]
          intro p r hr
          rw [emplace_refsAt s pos hs] at hr
          exact hv p r hr
        | some o =>
          simp only [Option.isSome_some, if_true]
          exact hv
      cases hslot : (if (s.slot pos).isSome = true then s
          else s.store pos Cell.new).slot pos with
      | none => simp [hslot, Outcome.state?] at h
      | some o =>
        cases o with
        | none => simp [hslot, Outcome.state?] at h
        | some c =>
          simp only [hslot] at h
          exact SetWith_validRefs ext 0 pos text _ s' h1 h
    · simp only [hp, Bool.false_eq_true, if_false, Outcome.state?, Option.some.injEq] at h
      rw [← h]; exact hv
  | GetValue pos v =>
    obtain ⟨s1, h1, _, h3⟩ := GetValue_exec ext pos v s
    rw [h1] at h
    simp only [Option.some.injEq] at h
    subst h
    intro p r hr
    rw [h3] at hr
    exact hv p r hr
  | Clear pos =>
    simp only [Call.exec] at h
    cases hg : s.GetCell ext pos with
    | error e =>
      simp only [hg, Outcome.state?, Option.some.injEq] at h
      rw [← h]; exact hv
    | ok o =>
      cases o with
      | none =>
        simp only [hg, Outcome.state?, Option.some.injEq] at h
        rw [← h]; exact hv
      | some p =>
        simp only [hg] at h
        rcases Clear_outcome p s with ⟨s1, h1⟩ | h1
        · rw [h1] at h
          simp only [Outcome.state?, Option.some.injEq] at h
          subst h
          exact fun q r hr => hv q r (Clear_refsAt p s s1 h1 q r hr)
        · rw [h1] at h
          simp [Outcome.state?] at h
  | ClearCell pos =>
    simp only [Call.exec, Sheet.ClearCell] at h
    by_cases hp : ext.IsValid pos = true
    · simp only [hp, Bool.not_true, Bool.false_eq_true, if_false] at h
      cases hs : s.slot pos with
      | none =>
        simp only [hs, Outcome.state?, Option.some.injEq] at h
        rw [← h]; exact hv
      | some o =>
        cases o with
        | none =>
          simp only [hs, Outcome.state?, Option.some.injEq] at h
          rw [← h]; exact hv
        | some c =>
          simp only [hs] at h
          rcases Clear_outcome pos s with ⟨s1, h1⟩ | h1
          · rw [h1] at h
            simp only [Outcome.state?, Option.some.injEq] at h
            subst h
            exact fun q r hr =>
              hv q r (Clear_refsAt pos s s1 h1 q r (reset_refsAt s1 pos q r hr))
          · rw [h1] at h
            simp [Outcome.state?] at h
    · simp only [Bool.not_eq_true] at hp
      simp only [hp, Bool.not_false, if_true, Outcome.state?, Option.some.injEq] at h
      rw [← h]; exact hv

/-- Every state that a sequence of calls produces from the empty sheet has cells that
reference valid positions only. -/
theorem run_validRefs (ext : External) : ∀ (calls : List Call) (s s' : Sheet),
    s.ValidRefs ext → run ext calls s = some s' → s'.ValidRefs ext := by
  intro calls
  induction calls with
  | nil =>
    intro s s' hv h
    simp only [run, Option.some.injEq] at h
    rw [← h]; exact hv
  | cons c rest ih =>
    intro s s' hv h
    simp only [run] at h
    cases hs : (c.exec ext s).state? with
    | none => simp [hs] at h
    | some s1 =>
      simp only [hs] at h
      exact ih s1 s' (exec_validRefs ext c s s1 hv hs) h

theorem ValidRefs_empty (ext : External) : Sheet.empty.ValidRefs ext :=
  (Consistent_empty ext).valid_refs

/-! ## Scenario 2, and `SetCell` on absent, cleared and invalid positions -/

/-- The first call of scenario 2, for any parser that reads `B1` as a reference to B1. -/
theorem scenario_first (ext : External) (eB : String)
    (hA : ext.IsValid A1 = true) (hB : ext.IsValid B1 = true)
    (hpB : ext.ParseFormula "B1" = some ⟨eB, [B1]⟩) :
    Sheet.SetCell ext A1 "=B1" Sheet.empty = .ok
      ⟨[(A1, some ⟨.FormulaImpl ⟨eB, [B1]⟩ none, [B1], []⟩),
        (B1, some ⟨.EmptyImpl, [], [A1]⟩)]⟩ := by
  have d1 : "=B1".drop 1 = "B1" := by decide
  have d2 : "=B1".isEmpty = false := by decide
  have d3 : "=B1".length = 3 := by decide
  have d4 : "=B1".get 0 = FORMULA_SIGN := by decide
  have d5 : "".isEmpty = true := by decide
  have n1 : A1 ≠ B1 := by decide
  have n2 : B1 ≠ A1 := by decide
  simp [Sheet.SetCell, Sheet.SetCellRec, Cell.SetWith, Cell.Set.tmp, FormulaImpl.new, hpB, hA, hB,
    Cell.CheckCycles, CheckCycles.pushAll, Sheet.GetCell, d1, d2, d3, d4, d5, Sheet.empty,
    Sheet.slot, slotOf, putSlot, Cell.new, Impl.GetReferencedCells, CheckCycles.fuel,
    CheckCycles.loop, Cell.Set.rewire, Sheet.cell, Sheet.store, Cell.Set.unlink,
    Cell.Set.relink, Cell.Set.link, n1, n2, setInsert, Cell.ClearCacheRec, ClearCacheRec.fuel,
    Cell.ClearCache, Impl.ClearCache, ClearCacheRec.children, TextImpl.new]

/-- The second call of scenario 2, for any parser that reads `A1` as a reference to A1. -/
theorem scenario_second (ext : External) (eA eB : String)
    (hA : ext.IsValid A1 = true) (hB : ext.IsValid B1 = true)
    (hpA : ext.ParseFormula "A1" = some ⟨eA, [A1]⟩) :
    Sheet.SetCell ext B1 "=A1"
        ⟨[(A1, some ⟨.FormulaImpl ⟨eB, [B1]⟩ none, [B1], []⟩),
          (B1, some ⟨.EmptyImpl, [], [A1]⟩)]⟩ =
      .threw .CircularDependencyException
        ⟨[(A1, some ⟨.FormulaImpl ⟨eB, [B1]⟩ none, [B1], []⟩),
          (B1, some ⟨.EmptyImpl, [], [A1]⟩)]⟩ := by
  have d1 : "=A1".drop 1 = "A1" := by decide
  have d2 : "=A1".isEmpty = false := by decide
  have d3 : "=A1".length = 3 := by decide
  have d4 : "=A1".get 0 = FORMULA_SIGN := by decide
  have n1 : A1 ≠ B1 := by decide
  have n2 : B1 ≠ A1 := by decide
  simp [Sheet.SetCell, Sheet.SetCellRec, Cell.SetWith, Cell.Set.tmp, FormulaImpl.new, hpA, hA,
    hB, Cell.CheckCycles, CheckCycles.pushAll, Sheet.GetCell, d1, d2, d3, d4,
    Sheet.slot, slotOf, Impl.GetReferencedCells, CheckCycles.fuel, CheckCycles.loop,
    Sheet.cell, n1, n2, CheckCycles.pushUnvisited, Sheet.maxRefs]

/-! ## Cells without references, and `SetCell` on absent and cleared positions -/

theorem eq_nil_of_mem_iff {l m : List Position} (h : ∀ x, x ∈ l ↔ x ∈ m) (hm : m = []) :
    l = [] := by
  subst hm
  exact List.eq_nil_iff_forall_not_mem.mpr (fun x hx => by simpa using (h x).mp hx)

theorem refs_nil_of_plain (i : Impl) (h : i = .EmptyImpl ∨ ∃ t, i = .TextImpl t) :
    i.GetReferencedCells = [] := by
  rcases h with e | ⟨t, e⟩ <;> subst e <;> rfl

/-- After a `Set` that returns, a cell with Empty or Literal content has an empty depends_on
set. -/
theorem Set_plain_no_parents {ext : External} {self : Position} {text : String}
    {s s' : Sheet} (h : Cell.Set ext self text s = .ok s') (i : Impl)
    (hi : s'.implAt self = some i) (hp : i = .EmptyImpl ∨ ∃ t, i = .TextImpl t) :
    s'.parentsAt self = [] := by
  obtain ⟨tmp, s4, _, hr, hs⟩ := SetWith_ok h
  have hrefs : s'.refsAt self = tmp.GetReferencedCells := by
    rw [hs.refsAt, hr.refsAt_this]
  have hnil : s'.refsAt self = [] := by
    rw [Sheet.refsAt_eq, hi]
    exact refs_nil_of_plain i hp
  refine eq_nil_of_mem_iff (m := s'.refsAt self) ?_ hnil
  intro x
  rw [hrefs, hs.parentsAt, hr.parents_this]

/-- In a sheet that satisfies the invariant, a cell with Empty or Literal content has an empty
depends_on set. -/
theorem Consistent_plain_no_parents {ext : External} {s : Sheet} (hc : s.Consistent ext)
    (p : Position) (i : Impl) (hi : s.implAt p = some i)
    (hp : i = .EmptyImpl ∨ ∃ t, i = .TextImpl t) : s.parentsAt p = [] := by
  have hnil : s.refsAt p = [] := by
    rw [Sheet.refsAt_eq, hi]
    exact refs_nil_of_plain i hp
  exact eq_nil_of_mem_iff (hc.parents_refs p) hnil

/-- The method `Cell::Clear` makes the content Empty and leaves both pointer sets as they
were. -/
theorem Clear_keeps_parents {self : Position} {s s' : Sheet} (h : Cell.Clear self s = .ok s') :
    s'.implAt self = some .EmptyImpl ∧ s'.parentsAt self = s.parentsAt self ∧
      s'.childrenAt self = s.childrenAt self := by
  have he := Clear_sameEdges self s s' h
  refine ⟨?_, he.parents self, he.children self⟩
  unfold Cell.Clear at h
  cases hc : s.cell self with
  | none => simp [hc] at h
  | some c =>
    simp only [hc, Outcome.ok.injEq] at h
    subst h
    rw [Sheet.implAt_store]
    simp

/-- What `SetCell` leaves at a valid position without a slot when `Cell::Set` throws: a new
empty cell there, and the rest of the sheet as it was. -/
theorem SetCell_threw_absent {ext : External} {s s' : Sheet} {pos : Position} {text : String}
    {e : Exception} (hv : ext.IsValid pos = true) (hs : s.slot pos = none)
    (h : Sheet.SetCell ext pos text s = .threw e s') : s' = s.store pos Cell.new := by
  rw [SetCell_unfold] at h
  simp only [hv, if_true, hs, Option.isSome_none, Bool.false_eq_true, if_false] at h
  have hslot : (s.store pos Cell.new).slot pos = some (some Cell.new) := by
    rw [Sheet.slot_store]; simp
  rw [hslot] at h
  simp only at h
  exact (SetWith_threw h).1

/-- What `SetCell` does at a valid position whose slot is null. -/
theorem SetCell_null {ext : External} {s : Sheet} {pos : Position} (text : String)
    (hv : ext.IsValid pos = true) (hs : s.slot pos = some none) :
    Sheet.SetCell ext pos text s = .fault :=
  SetCellRec_empty_null ext 1 pos text s hv hs

/-- What `ClearCell` does at a valid position that holds a cell: the slot stays, with a null
pointer. -/
theorem ClearCell_live {ext : External} {s : Sheet} {pos : Position} {c : Cell}
    (hv : ext.IsValid pos = true) (hc : s.cell pos = some c) :
    ∃ s1, Sheet.ClearCell ext pos s = .ok s1 ∧ s1.slot pos = some none ∧
      ∀ q, q ≠ pos → s1.slot q = s.slot q := by
  have hs := Sheet.cell_eq_some.mp hc
  refine ⟨⟨putSlot (s.store pos { c with impl_ := .EmptyImpl }).cells_ pos none⟩, ?_, ?_, ?_⟩
  · simp [Sheet.ClearCell, hv, hs, Cell.Clear, hc]
  · simp [Sheet.slot, slotOf_putSlot]
  · intro q hq
    simp [Sheet.slot, slotOf_putSlot, hq, Sheet.store]

/-! ## The printable size -/

theorem step_foldl_mono (l : List (Position × Option Cell)) : ∀ (acc : Size),
    acc.rows ≤ (l.foldl GetPrintableSize.step acc).rows ∧
    acc.cols ≤ (l.foldl GetPrintableSize.step acc).cols := by
  induction l with
  | nil => intro acc; exact ⟨le_refl _, le_refl _⟩
  | cons kv rest ih =>
    intro acc
    simp only [List.foldl_cons]
    have h := ih (GetPrintableSize.step acc kv)
    cases hv : kv.2 with
    | none =>
      simp only [GetPrintableSize.step, hv] at h ⊢
      exact h
    | some c =>
      simp only [GetPrintableSize.step, hv] at h ⊢
      exact ⟨le_trans (le_max_left _ _) h.1, le_trans (le_max_left _ _) h.2⟩

theorem step_foldl_bound (l : List (Position × Option Cell)) : ∀ (acc : Size) (p : Position)
    (c : Cell), (p, some c) ∈ l →
    p.row + 1 ≤ (l.foldl GetPrintableSize.step acc).rows ∧
    p.col + 1 ≤ (l.foldl GetPrintableSize.step acc).cols := by
  induction l with
  | nil => intro acc p c h; simp at h
  | cons kv rest ih =>
    intro acc p c h
    simp only [List.foldl_cons]
    rcases List.mem_cons.mp h with e | h2
    · subst e
      have h := step_foldl_mono rest (GetPrintableSize.step acc (p, some c))
      simp only [GetPrintableSize.step] at h ⊢
      exact ⟨le_trans (le_max_right _ _) h.1, le_trans (le_max_right _ _) h.2⟩
    · exact ih _ p c h2

theorem step_foldl_rows (l : List (Position × Option Cell)) : ∀ (acc : Size),
    (l.foldl GetPrintableSize.step acc).rows = acc.rows ∨
    ∃ p c, (p, some c) ∈ l ∧ (l.foldl GetPrintableSize.step acc).rows = p.row + 1 := by
  induction l with
  | nil => intro acc; exact Or.inl rfl
  | cons kv rest ih =>
    intro acc
    simp only [List.foldl_cons]
    rcases ih (GetPrintableSize.step acc kv) with h | ⟨p, c, hm, h⟩
    · obtain ⟨k, v⟩ := kv
      cases v with
      | none => left; rw [h]; rfl
      | some c =>
        rw [h]
        simp only [GetPrintableSize.step]
        rcases max_cases acc.rows (k.row + 1) with ⟨e, _⟩ | ⟨e, _⟩
        · left; exact e
        · right; exact ⟨k, c, List.mem_cons_self _ _, e⟩
    · right; exact ⟨p, c, List.mem_cons_of_mem _ hm, h⟩

theorem step_foldl_cols (l : List (Position × Option Cell)) : ∀ (acc : Size),
    (l.foldl GetPrintableSize.step acc).cols = acc.cols ∨
    ∃ p c, (p, some c) ∈ l ∧ (l.foldl GetPrintableSize.step acc).cols = p.col + 1 := by
  induction l with
  | nil => intro acc; exact Or.inl rfl
  | cons kv rest ih =>
    intro acc
    simp only [List.foldl_cons]
    rcases ih (GetPrintableSize.step acc kv) with h | ⟨p, c, hm, h⟩
    · obtain ⟨k, v⟩ := kv
      cases v with
      | none => left; rw [h]; rfl
      | some c =>
        rw [h]
        simp only [GetPrintableSize.step]
        rcases max_cases acc.cols (k.col + 1) with ⟨e, _⟩ | ⟨e, _⟩
        · left; exact e
        · right; exact ⟨k, c, List.mem_cons_self _ _, e⟩
    · right; exact ⟨p, c, List.mem_cons_of_mem _ hm, h⟩

theorem step_foldl_none (l : List (Position × Option Cell)) : ∀ (acc : Size),
    (∀ p c, (p, some c) ∉ l) → l.foldl GetPrintableSize.step acc = acc := by
  induction l with
  | nil => intro acc _; rfl
  | cons kv rest ih =>
    intro acc h
    simp only [List.foldl_cons]
    obtain ⟨k, v⟩ := kv
    cases v with
    | none =>
      exact ih _ (fun p c hm => h p c (List.mem_cons_of_mem _ hm))
    | some c => exact absurd (List.mem_cons_self _ _) (h k c)

/-- With unique keys, the entry of a position is what the lookup finds. -/
theorem slotOf_of_mem_nodup (l : List (Position × Option Cell)) (p : Position)
    (v : Option Cell) (hn : (l.map Prod.fst).Nodup) (hm : (p, v) ∈ l) : slotOf l p = some v := by
  induction l with
  | nil => simp at hm
  | cons kv rest ih =>
    obtain ⟨k, w⟩ := kv
    simp only [List.map_cons, List.nodup_cons] at hn
    rcases List.mem_cons.mp hm with e | h2
    · simp only [Prod.mk.injEq] at e
      simp [slotOf, e.1, e.2]
    · have hk : k ≠ p := by
        intro e
        subst e
        exact hn.1 (List.mem_map.mpr ⟨(k, v), h2, rfl⟩)
      simp only [slotOf, hk, if_false]
      exact ih hn.2 h2

theorem mem_of_slotOf (l : List (Position × Option Cell)) (p : Position) (v : Option Cell)
    (h : slotOf l p = some v) : (p, v) ∈ l := by
  induction l with
  | nil => simp [slotOf] at h
  | cons kv rest ih =>
    obtain ⟨k, w⟩ := kv
    by_cases hk : k = p
    · simp only [slotOf, hk, if_true, Option.some.injEq] at h
      subst h; subst hk
      exact List.mem_cons_self _ _
    · simp only [slotOf, hk, if_false] at h
      exact List.mem_cons_of_mem _ (ih h)

/-- With unique keys, a position holds a cell exactly when the lookup finds a cell. -/
theorem occupied_iff_cell (s : Sheet) (hn : s.keys.Nodup) (p : Position) :
    s.occupied p ↔ (s.cell p).isSome = true := by
  constructor
  · rintro ⟨c, hc⟩
    have h := slotOf_of_mem_nodup s.cells_ p (some c) hn hc
    simp [Sheet.cell, Sheet.slot, h]
  · intro h
    cases hc : s.cell p with
    | none => simp [hc] at h
    | some c => exact ⟨c, mem_of_slotOf _ _ _ (Sheet.cell_eq_some.mp hc)⟩

/-! ## The keys of `cells_` -/

theorem putSlot_keys_of_slot (l : List (Position × Option Cell)) (p : Position)
    (v : Option Cell) (h : slotOf l p ≠ none) :
    (putSlot l p v).map Prod.fst = l.map Prod.fst := by
  induction l with
  | nil => simp [slotOf] at h
  | cons kv rest ih =>
    obtain ⟨k, w⟩ := kv
    by_cases hk : k = p
    · simp [putSlot, hk]
    · simp only [slotOf, hk, if_false] at h
      simp [putSlot, hk, ih h]

theorem putSlot_keys_absent (l : List (Position × Option Cell)) (p : Position)
    (v : Option Cell) (h : slotOf l p = none) :
    (putSlot l p v).map Prod.fst = l.map Prod.fst ++ [p] ∧ p ∉ l.map Prod.fst := by
  induction l with
  | nil => simp [putSlot]
  | cons kv rest ih =>
    obtain ⟨k, w⟩ := kv
    by_cases hk : k = p
    · simp [slotOf, hk] at h
    · simp only [slotOf, hk, if_false] at h
      have h2 := ih h
      refine ⟨by simp [putSlot, hk, h2.1], ?_⟩
      simp only [List.map_cons, List.mem_cons, not_or]
      exact ⟨fun e => hk e.symm, h2.2⟩

/-- A write through a pointer to a cell keeps the keys. -/
theorem store_keys (s : Sheet) (p : Position) (c d : Cell) (h : s.cell p = some d) :
    (s.store p c).keys = s.keys := by
  unfold Sheet.store Sheet.keys
  refine putSlot_keys_of_slot s.cells_ p (some c) ?_
  have h2 := Sheet.cell_eq_some.mp h
  unfold Sheet.slot at h2
  rw [h2]
  simp

theorem unlink_keys (self : Position) : ∀ (l : List Position) (s s' : Sheet),
    Cell.Set.unlink self l s = some s' → s'.keys = s.keys := by
  intro l
  induction l with
  | nil =>
    intro s s' h
    simp only [Cell.Set.unlink, Option.some.injEq] at h
    rw [h]
  | cons node rest ih =>
    intro s s' h
    simp only [Cell.Set.unlink] at h
    cases hc : s.cell node with
    | none => simp [hc] at h
    | some d =>
      simp only [hc] at h
      rw [ih _ _ h, store_keys s node _ d hc]

theorem link_keys (self parent : Position) (s s' : Sheet)
    (h : Cell.Set.link self parent s = some s') : s'.keys = s.keys := by
  unfold Cell.Set.link at h
  cases hc : s.cell parent with
  | none => simp [hc] at h
  | some d =>
    simp only [hc] at h
    cases hc2 : (s.store parent { d with
        children_nodes_ := setInsert self d.children_nodes_ }).cell self with
    | none => simp [hc2] at h
    | some c =>
      simp only [hc2, Option.some.injEq] at h
      rw [← h, store_keys _ self _ c hc2, store_keys s parent _ d hc]

theorem ClearCache_keys (s s1 : Sheet) (self : Position)
    (h : Cell.ClearCache s self = some s1) : s1.keys = s.keys := by
  unfold Cell.ClearCache at h
  cases hc : s.cell self with
  | none => simp [hc] at h
  | some c =>
    simp only [hc, Option.some.injEq] at h
    rw [← h, store_keys s self _ c hc]

theorem children_keys (rec : Position → Sheet → Outcome)
    (hrec : ∀ node s s', rec node s = .ok s' → s'.keys = s.keys) :
    ∀ (l : List Position) (s s' : Sheet), ClearCacheRec.children rec l s = .ok s' →
      s'.keys = s.keys := by
  intro l
  induction l with
  | nil =>
    intro s s' h
    simp only [ClearCacheRec.children, Outcome.ok.injEq] at h
    rw [h]
  | cons node rest ih =>
    intro s s' h
    simp only [ClearCacheRec.children] at h
    cases hr : rec node s with
    | ok s1 =>
      simp only [hr] at h
      rw [ih s1 s' h, hrec node s s1 hr]
    | threw e s1 => simp [hr] at h
    | fault => simp [hr] at h
    | diverged => simp [hr] at h

/-- The invalidation sweep keeps the keys. -/
theorem ClearCacheRec_keys : ∀ (fuel : Nat) (self : Position) (s s' : Sheet),
    Cell.ClearCacheRec fuel self s = .ok s' → s'.keys = s.keys := by
  intro fuel
  induction fuel with
  | zero => intro self s s' h; simp [Cell.ClearCacheRec] at h
  | succ fuel ih =>
    intro self s s' h
    simp only [Cell.ClearCacheRec] at h
    cases hc : s.cell self with
    | none => simp [hc] at h
    | some c =>
      simp only [hc] at h
      cases hcc : Cell.ClearCache s self with
      | none => simp [hcc] at h
      | some s1 =>
        simp only [hcc] at h
        rw [children_keys _ ih _ _ _ h, ClearCache_keys s s1 self hcc]

theorem WellKeyed_of_keys {ext : External} {s s' : Sheet} (h : s'.keys = s.keys)
    (hw : s.WellKeyed ext) : s'.WellKeyed ext := by
  unfold Sheet.WellKeyed
  rw [h]
  exact hw

theorem WellKeyed_emplace {ext : External} {s : Sheet} (hw : s.WellKeyed ext)
    (pos : Position) (v : Option Cell) (hv : ext.IsValid pos = true) :
    Sheet.WellKeyed ext ⟨putSlot s.cells_ pos v⟩ := by
  cases hs : slotOf s.cells_ pos with
  | some w =>
    refine WellKeyed_of_keys ?_ hw
    exact putSlot_keys_of_slot s.cells_ pos v (by rw [hs]; simp)
  | none =>
    obtain ⟨h1, h2⟩ := putSlot_keys_absent s.cells_ pos v hs
    unfold Sheet.WellKeyed Sheet.keys
    simp only
    rw [h1]
    refine ⟨?_, ?_⟩
    · rw [List.nodup_append]
      refine ⟨hw.1, List.nodup_singleton _, ?_⟩
      intro a ha hb
      simp only [List.mem_singleton] at hb
      subst hb
      exact h2 ha
    · intro k hk
      rcases List.mem_append.mp hk with a | a
      · exact hw.2 k a
      · simp only [List.mem_singleton] at a
        subst a
        exact hv

theorem relink_wellKeyed (ext : External) (SetCell : Position → String → Sheet → Outcome)
    (hS : ∀ pos text s s', s.WellKeyed ext → (SetCell pos text s).state? = some s' →
      s'.WellKeyed ext)
    (self : Position) : ∀ (l : List Position) (s s' : Sheet), s.WellKeyed ext →
    (Cell.Set.relink ext SetCell self l s).state? = some s' → s'.WellKeyed ext := by
  intro l
  induction l with
  | nil =>
    intro s s' hw h
    simp only [Cell.Set.relink, Outcome.state?, Option.some.injEq] at h
    rw [← h]; exact hw
  | cons pos rest ih =>
    intro s s' hw h
    simp only [Cell.Set.relink] at h
    cases hg : s.GetCell ext pos with
    | error e =>
      simp only [hg, Outcome.state?, Option.some.injEq] at h
      rw [← h]; exact hw
    | ok o =>
      cases o with
      | some parent =>
        simp only [hg] at h
        cases hl : Cell.Set.link self parent s with
        | none => simp [hl, Outcome.state?] at h
        | some s1 =>
          simp only [hl] at h
          exact ih s1 s' (WellKeyed_of_keys (link_keys _ _ _ _ hl) hw) h
      | none =>
        simp only [hg] at h
        cases hs : SetCell pos "" s with
        | ok s1 =>
          simp only [hs] at h
          have hw1 : s1.WellKeyed ext := hS pos "" s s1 hw (by rw [hs]; rfl)
          cases hg1 : s1.GetCell ext pos with
          | error e =>
            simp only [hg1, Outcome.state?, Option.some.injEq] at h
            rw [← h]; exact hw1
          | ok o1 =>
            cases o1 with
            | none => simp [hg1, Outcome.state?] at h
            | some parent =>
              simp only [hg1] at h
              cases hl : Cell.Set.link self parent s1 with
              | none => simp [hl, Outcome.state?] at h
              | some s2 =>
                simp only [hl] at h
                exact ih s2 s' (WellKeyed_of_keys (link_keys _ _ _ _ hl) hw1) h
        | threw e s1 =>
          simp only [hs] at h
          exact hS pos "" s s' hw (by rw [hs]; exact h)
        | fault => simp [hs, Outcome.state?] at h
        | diverged => simp [hs, Outcome.state?] at h

theorem rewire_wellKeyed (ext : External) (SetCell : Position → String → Sheet → Outcome)
    (hS : ∀ pos text s s', s.WellKeyed ext → (SetCell pos text s).state? = some s' →
      s'.WellKeyed ext)
    (self : Position) (tmp : Impl) (s s' : Sheet) (hw : s.WellKeyed ext)
    (h : (Cell.Set.rewire ext SetCell self tmp s).state? = some s') : s'.WellKeyed ext := by
  unfold Cell.Set.rewire at h
  cases hc : s.cell self with
  | none => simp [hc, Outcome.state?] at h
  | some c =>
    simp only [hc] at h
    cases hu : Cell.Set.unlink self c.parents_nodes_ (s.store self { c with impl_ := tmp }) with
    | none => simp [hu, Outcome.state?] at h
    | some s2 =>
      simp only [hu] at h
      cases hc2 : s2.cell self with
      | none => simp [hc2, Outcome.state?] at h
      | some c2 =>
        simp only [hc2] at h
        refine relink_wellKeyed ext SetCell hS self _ _ s' ?_ h
        refine WellKeyed_of_keys ?_ hw
        rw [store_keys s2 self _ c2 hc2, unlink_keys _ _ _ _ hu, store_keys s self _ c hc]

theorem SetWith_wellKeyed (ext : External) (SetCell : Position → String → Sheet → Outcome)
    (hS : ∀ pos text s s', s.WellKeyed ext → (SetCell pos text s).state? = some s' →
      s'.WellKeyed ext)
    (self : Position) (text : String) (s s' : Sheet) (hw : s.WellKeyed ext)
    (h : (Cell.SetWith ext SetCell self text s).state? = some s') : s'.WellKeyed ext := by
  unfold Cell.SetWith at h
  cases ht : Cell.Set.tmp ext s self text with
  | threw e =>
    simp only [ht, Outcome.state?, Option.some.injEq] at h
    rw [← h]; exact hw
  | fault => simp [ht, Outcome.state?] at h
  | diverged => simp [ht, Outcome.state?] at h
  | ok tmp =>
    simp only [ht] at h
    cases hr : Cell.Set.rewire ext SetCell self tmp s with
    | ok s4 =>
      simp only [hr] at h
      have hw4 := rewire_wellKeyed ext SetCell hS self tmp s s4 hw (by rw [hr]; rfl)
      cases hcc : Cell.ClearCacheRec (ClearCacheRec.fuel s4) self s4 with
      | ok s5 =>
        simp only [hcc, Outcome.state?, Option.some.injEq] at h
        rw [← h]
        exact WellKeyed_of_keys (ClearCacheRec_keys _ _ _ _ hcc) hw4
      | threw e s5 => exact absurd hcc (ClearCacheRec_not_threw _ _ _ e s5)
      | fault => simp [hcc, Outcome.state?] at h
      | diverged => simp [hcc, Outcome.state?] at h
    | threw e s4 =>
      simp only [hr] at h
      exact rewire_wellKeyed ext SetCell hS self tmp s s' hw (by rw [hr]; exact h)
    | fault => simp [hr, Outcome.state?] at h
    | diverged => simp [hr, Outcome.state?] at h

theorem SetCellRec_wellKeyed (ext : External) : ∀ (depth : Nat) (pos : Position) (text : String)
    (s s' : Sheet), s.WellKeyed ext → (Sheet.SetCellRec ext depth pos text s).state? = some s' →
    s'.WellKeyed ext := by
  intro depth
  induction depth with
  | zero => intro pos text s s' _ h; simp [Sheet.SetCellRec, Outcome.state?] at h
  | succ depth ih =>
    intro pos text s s' hw h
    simp only [Sheet.SetCellRec] at h
    by_cases hv : ext.IsValid pos = true
    · simp only [hv, Bool.not_true, Bool.false_eq_true, if_false] at h
      have hw1 : Sheet.WellKeyed ext
          (if (s.slot pos).isSome then s else ⟨putSlot s.cells_ pos (some Cell.new)⟩) := by
        by_cases hs : (s.slot pos).isSome = true
        · rw [if_pos hs]; exact hw
        · rw [if_neg hs]; exact WellKeyed_emplace hw pos _ hv
      generalize (if (s.slot pos).isSome then s
        else (⟨putSlot s.cells_ pos (some Cell.new)⟩ : Sheet)) = s1 at h hw1
      cases hs1 : s1.slot pos with
      | none => simp [hs1, Outcome.state?] at h
      | some o =>
        cases o with
        | none => simp [hs1, Outcome.state?] at h
        | some c =>
          simp only [hs1] at h
          exact SetWith_wellKeyed ext _ (fun p t a b ha hb => ih p t a b ha hb) pos text s1 s'
            hw1 h
    · simp only [Bool.not_eq_true] at hv
      simp only [hv, Bool.not_false, if_true, Outcome.state?, Option.some.injEq] at h
      rw [← h]; exact hw

theorem Clear_keys (self : Position) (s s' : Sheet) (h : Cell.Clear self s = .ok s') :
    s'.keys = s.keys := by
  unfold Cell.Clear at h
  cases hc : s.cell self with
  | none => simp [hc] at h
  | some c =>
    simp only [hc, Outcome.ok.injEq] at h
    rw [← h, store_keys s self _ c hc]

/-- Every call keeps the keys of `cells_` unique and valid. -/
theorem exec_wellKeyed (ext : External) (c : Call) (s s' : Sheet) (hw : s.WellKeyed ext)
    (h : (c.exec ext s).state? = some s') : s'.WellKeyed ext := by
  cases c with
  | SetCell pos text => exact SetCellRec_wellKeyed ext 2 pos text s s' hw h
  | GetValue pos evaluated =>
    simp only [Call.exec] at h
    cases hg : s.GetCell ext pos with
    | error e =>
      simp only [hg, Outcome.state?, Option.some.injEq] at h
      rw [← h]; exact hw
    | ok o =>
      cases o with
      | none =>
        simp only [hg, Outcome.state?, Option.some.injEq] at h
        rw [← h]; exact hw
      | some p =>
        simp only [hg] at h
        unfold Cell.GetValue at h
        cases hc : s.cell p with
        | none => simp [hc, Outcome.state?] at h
        | some d =>
          simp only [hc, Outcome.state?, Option.some.injEq] at h
          rw [← h]
          exact WellKeyed_of_keys (store_keys s p _ d hc) hw
  | Clear pos =>
    simp only [Call.exec] at h
    cases hg : s.GetCell ext pos with
    | error e =>
      simp only [hg, Outcome.state?, Option.some.injEq] at h
      rw [← h]; exact hw
    | ok o =>
      cases o with
      | none =>
        simp only [hg, Outcome.state?, Option.some.injEq] at h
        rw [← h]; exact hw
      | some p =>
        simp only [hg] at h
        cases hcl : Cell.Clear p s with
        | ok s1 =>
          simp only [hcl, Outcome.state?, Option.some.injEq] at h
          rw [← h]
          exact WellKeyed_of_keys (Clear_keys _ _ _ hcl) hw
        | threw e s1 => simp [Cell.Clear] at hcl; split at hcl <;> simp at hcl
        | fault => simp [hcl, Outcome.state?] at h
        | diverged => simp [hcl, Outcome.state?] at h
  | ClearCell pos =>
    simp only [Call.exec, Sheet.ClearCell] at h
    by_cases hv : ext.IsValid pos = true
    · simp only [hv, Bool.not_true, Bool.false_eq_true, if_false] at h
      cases hs : s.slot pos with
      | none =>
        simp only [hs, Outcome.state?, Option.some.injEq] at h
        rw [← h]; exact hw
      | some o =>
        cases o with
        | none =>
          simp only [hs, Outcome.state?, Option.some.injEq] at h
          rw [← h]; exact hw
        | some d =>
          simp only [hs] at h
          cases hcl : Cell.Clear pos s with
          | ok s1 =>
            simp only [hcl, Outcome.state?, Option.some.injEq] at h
            rw [← h]
            exact WellKeyed_emplace (WellKeyed_of_keys (Clear_keys _ _ _ hcl) hw) pos none hv
          | threw e s1 => simp [Cell.Clear] at hcl; split at hcl <;> simp at hcl
          | fault => simp [hcl, Outcome.state?] at h
          | diverged => simp [hcl, Outcome.state?] at h
    · simp only [Bool.not_eq_true] at hv
      simp only [hv, Bool.not_false, if_true, Outcome.state?, Option.some.injEq] at h
      rw [← h]; exact hw

theorem WellKeyed_empty (ext : External) : Sheet.empty.WellKeyed ext := by
  simp [Sheet.WellKeyed, Sheet.keys, Sheet.empty]

/-- Every state that calls build keeps the keys of `cells_` unique and valid. -/
theorem run_wellKeyed (ext : External) : ∀ (calls : List Call) (s s' : Sheet),
    s.WellKeyed ext → run ext calls s = some s' → s'.WellKeyed ext := by
  intro calls
  induction calls with
  | nil =>
    intro s s' hw h
    simp only [run, Option.some.injEq] at h
    rw [← h]; exact hw
  | cons c rest ih =>
    intro s s' hw h
    simp only [run] at h
    cases he : (c.exec ext s).state? with
    | none => simp [he] at h
    | some s1 =>
      simp only [he] at h
      exact ih s1 s' (exec_wellKeyed ext c s s1 hw he) h

/-! ## The print format -/

theorem String.isEmpty_eq_true (t : String) (h : t.isEmpty = true) : t = "" := by
  have : t.data = [] := by
    cases t with
    | mk d =>
      cases d with
      | nil => rfl
      | cons a as =>
        exfalso
        simp [String.isEmpty, String.endPos, String.utf8ByteSize, String.utf8ByteSize.go] at h
        have := Char.utf8Size_pos a
        simp [String.Pos.ext_iff] at h
        omega
  exact String.ext this

theorem intercalate_go_snoc (sep : String) : ∀ (l : List String) (acc x : String),
    String.intercalate.go acc sep (l ++ [x]) = String.intercalate.go acc sep l ++ sep ++ x := by
  intro l
  induction l with
  | nil => intro acc x; rfl
  | cons a as ih => intro acc x; exact ih _ x

theorem intercalate_snoc (sep : String) (l : List String) (x : String) (h : l ≠ []) :
    String.intercalate sep (l ++ [x]) = String.intercalate sep l ++ sep ++ x := by
  cases l with
  | nil => exact absurd rfl h
  | cons a as => exact intercalate_go_snoc sep as a x

theorem join_foldl (l : List String) : ∀ acc : String,
    l.foldl (fun r t => r ++ t) acc = acc ++ String.join l := by
  induction l with
  | nil => intro acc; simp [String.join]
  | cons a as ih =>
    intro acc
    simp only [List.foldl_cons, String.join]
    rw [ih (acc ++ a), ih ("" ++ a)]
    simp [String.append_assoc]

theorem join_snoc (l : List String) (x : String) : String.join (l ++ [x]) = String.join l ++ x := by
  simp only [String.join, List.foldl_append, List.foldl_cons, List.foldl_nil]

/-- What the body of the inner loop appends: a tab unless the column is the first, and the
text t(i,j). -/
theorem PrintTexts.cell_eq (s : Sheet) (i j : Nat) (output : String) :
    PrintTexts.cell s i j output =
      (if j > 0 then output ++ "\t" else output) ++ PrintTexts.text s i j := by
  unfold PrintTexts.cell PrintTexts.text Sheet.cell
  cases hs : s.slot ⟨i, j⟩ with
  | none => simp
  | some o =>
    cases o with
    | none => simp
    | some c =>
      simp only [Option.join]
      by_cases he : c.impl_.GetText.isEmpty = true
      · simp [he, String.isEmpty_eq_true _ he]
      · simp [he]

/-- The inner loop of `PrintTexts` over the first `n` columns appends the texts of the row
joined by tabs. -/
theorem PrintTexts.cols_eq (s : Sheet) (i : Nat) (output : String) : ∀ n : Nat,
    (List.range n).foldl (fun out j => PrintTexts.cell s i j out) output =
      output ++ String.intercalate "\t" ((List.range n).map (PrintTexts.text s i)) := by
  intro n
  induction n with
  | zero => simp [String.intercalate]
  | succ n ih =>
    rw [List.range_succ, List.foldl_append, List.map_append]
    simp only [List.foldl_cons, List.foldl_nil, List.map_cons, List.map_nil]
    rw [ih, PrintTexts.cell_eq]
    cases n with
    | zero => simp [String.intercalate, String.intercalate.go]
    | succ m =>
      rw [intercalate_snoc]
      · simp [String.append_assoc]
      · simp [List.range_succ]

theorem PrintTexts.row_eq (s : Sheet) (cols i : Nat) (output : String) :
    PrintTexts.row s cols i output =
      output ++ (String.intercalate "\t" ((List.range cols).map (PrintTexts.text s i)) ++ "\n") := by
  unfold PrintTexts.row
  rw [PrintTexts.cols_eq, String.append_assoc]

/-- The outer loop of `PrintTexts` over the first `n` rows appends the lines of these rows. -/
theorem PrintTexts.rows_eq (s : Sheet) (cols : Nat) (output : String) : ∀ n : Nat,
    (List.range n).foldl (fun out i => PrintTexts.row s cols i out) output =
      output ++ String.join ((List.range n).map (fun i =>
        String.intercalate "\t" ((List.range cols).map (PrintTexts.text s i)) ++ "\n")) := by
  intro n
  induction n with
  | zero => simp [String.join]
  | succ n ih =>
    rw [List.range_succ, List.foldl_append, List.map_append]
    simp only [List.foldl_cons, List.foldl_nil, List.map_cons, List.map_nil]
    rw [ih, PrintTexts.row_eq, join_snoc, String.append_assoc]

/-! ## More fuel changes no result -/

theorem children_fuel_mono (rec1 rec2 : Position → Sheet → Outcome)
    (h : ∀ n s s', rec1 n s = .ok s' → rec2 n s = .ok s') :
    ∀ (l : List Position) (s s' : Sheet), ClearCacheRec.children rec1 l s = .ok s' →
      ClearCacheRec.children rec2 l s = .ok s' := by
  intro l
  induction l with
  | nil => intro s s' hr; exact hr
  | cons node rest ih =>
    intro s s' hr
    simp only [ClearCacheRec.children] at hr ⊢
    cases h1 : rec1 node s with
    | ok s1 =>
      simp only [h1] at hr
      rw [h node s s1 h1]
      exact ih s1 s' hr
    | threw e s1 => simp [h1] at hr
    | fault => simp [h1] at hr
    | diverged => simp [h1] at hr

/-- A sweep that returns within `fuel` returns the same sheet with any larger bound. -/
theorem ClearCacheRec_fuel_mono : ∀ (fuel fuel2 : Nat) (self : Position) (s s' : Sheet),
    fuel ≤ fuel2 → Cell.ClearCacheRec fuel self s = .ok s' →
    Cell.ClearCacheRec fuel2 self s = .ok s' := by
  intro fuel
  induction fuel with
  | zero => intro fuel2 self s s' _ h; simp [Cell.ClearCacheRec] at h
  | succ fuel ih =>
    intro fuel2 self s s' hle h
    obtain ⟨m, rfl⟩ : ∃ m, fuel2 = m + 1 := ⟨fuel2 - 1, by omega⟩
    simp only [Cell.ClearCacheRec] at h ⊢
    cases hc : s.cell self with
    | none => simp [hc] at h
    | some c =>
      simp only [hc] at h ⊢
      cases hcc : Cell.ClearCache s self with
      | none => simp [hcc] at h
      | some s1 =>
        simp only [hcc] at h ⊢
        exact children_fuel_mono _ _ (fun n a b hab => ih m n a b (by omega) hab) _ _ _ h

/-- The stack loop of `CheckCycles` that comes to an end within `fuel` iterations gives the
same result with any larger bound. -/
theorem loop_fuel_mono (ext : External) (s : Sheet) (self : Position) :
    ∀ (fuel fuel2 : Nat) (st visited : List (Option Position)), fuel ≤ fuel2 →
    CheckCycles.loop ext s self fuel st visited ≠ .diverged →
    CheckCycles.loop ext s self fuel2 st visited = CheckCycles.loop ext s self fuel st visited := by
  intro fuel
  induction fuel with
  | zero => intro fuel2 st visited _ h; simp [CheckCycles.loop] at h
  | succ fuel ih =>
    intro fuel2 st visited hle h
    obtain ⟨m, rfl⟩ : ∃ m, fuel2 = m + 1 := ⟨fuel2 - 1, by omega⟩
    cases st with
    | nil => simp [CheckCycles.loop]
    | cons top st =>
      cases top with
      | none =>
        simp only [CheckCycles.loop] at h ⊢
        exact ih m st visited (by omega) h
      | some cur =>
        simp only [CheckCycles.loop] at h ⊢
        by_cases hcur : cur = self
        · simp [hcur]
        · simp only [hcur, if_false] at h ⊢
          cases hc : s.cell cur with
          | none => rfl
          | some c =>
            simp only [hc] at h ⊢
            cases hp : CheckCycles.pushUnvisited ext s
                (if some cur ∈ visited then visited else some cur :: visited)
                c.impl_.GetReferencedCells st with
            | error e => rfl
            | ok st2 =>
              simp only [hp] at h ⊢
              exact ih m st2 _ (by omega) h

/-! ## A second sweep changes nothing -/

theorem children_fixed (rec : Position → Sheet → Outcome) (s : Sheet) :
    ∀ (l : List Position), (∀ n ∈ l, ∀ s', rec n s = .ok s' → s' = s) →
    ∀ s', ClearCacheRec.children rec l s = .ok s' → s' = s := by
  intro l
  induction l with
  | nil =>
    intro _ s' h
    simp only [ClearCacheRec.children, Outcome.ok.injEq] at h
    exact h.symm
  | cons node rest ih =>
    intro hrec s' h
    simp only [ClearCacheRec.children] at h
    cases hr : rec node s with
    | ok s1 =>
      simp only [hr] at h
      have e := hrec node (List.mem_cons_self _ _) s1 hr
      subst e
      exact ih (fun n hn => hrec n (List.mem_cons_of_mem _ hn)) s' h
    | threw e s1 => simp [hr] at h
    | fault => simp [hr] at h
    | diverged => simp [hr] at h

/-- A sweep from a cell whose dependents, direct and indirect, hold no cached value returns
the sheet it was given. -/
theorem ClearCacheRec_fixed : ∀ (fuel : Nat) (self : Position) (s s' : Sheet),
    (∀ q c, Relation.ReflTransGen s.dependent self q → s.cell q = some c → clearCell c = c) →
    Cell.ClearCacheRec fuel self s = .ok s' → s' = s := by
  intro fuel
  induction fuel with
  | zero => intro self s s' _ h; simp [Cell.ClearCacheRec] at h
  | succ fuel ih =>
    intro self s s' hcl h
    simp only [Cell.ClearCacheRec] at h
    cases hc : s.cell self with
    | none => simp [hc] at h
    | some c =>
      have hs : s.store self { c with impl_ := c.impl_.ClearCache } = s := by
        have e : ({ c with impl_ := c.impl_.ClearCache } : Cell) = c :=
          hcl self c Relation.ReflTransGen.refl hc
        rw [e]
        exact Sheet.store_same s self c hc
      simp only [hc, Cell.ClearCache, hs] at h
      refine children_fixed _ s c.children_nodes_ ?_ s' h
      intro n hn s1 h1
      refine ih n s s1 ?_ h1
      intro q d hq hd
      refine hcl q d (Relation.ReflTransGen.head ?_ hq) hd
      unfold Sheet.dependent
      rw [Sheet.childrenAt_of_cell hc]
      exact hn

/-- On a sheet whose dependents graph has no cycle and whose dependents are cells, the sweep
from a cell returns, with every bound above the number of slots the same sheet, and a second
sweep from the same cell returns the sheet the first one left. -/
theorem ClearCacheRec_twice (s : Sheet) (self : Position)
    (hlive : ∀ p q, q ∈ s.childrenAt p → (s.cell q).isSome = true)
    (hac : ∀ p, ¬ Relation.TransGen s.dependent p p)
    (hself : (s.cell self).isSome = true) :
    ∃ s1, Swept (Relation.ReflTransGen s.dependent self) s s1 ∧
      ∀ fuel, s.cells_.length < fuel →
        Cell.ClearCacheRec fuel self s = .ok s1 ∧ Cell.ClearCacheRec fuel self s1 = .ok s1 := by
  obtain ⟨s1, h1⟩ := ClearCacheRec_total s.cells_.length (s.cells_.length + 1) self s []
    (fun l h1 h2 => nodup_live_length_le s l h1 h2) hlive hac hself List.nodup_nil
    (fun x hx => by simp at hx) (by simp)
  have hsw := ClearCacheRec_swept _ _ _ _ h1
  refine ⟨s1, hsw, ?_⟩
  intro fuel hf
  refine ⟨ClearCacheRec_fuel_mono _ fuel self s s1 (by omega) h1, ?_⟩
  obtain ⟨s2, h2⟩ := ClearCacheRec_total s.cells_.length fuel self s1 []
    (fun l h1 h2 => nodup_live_length_le s l h1 (fun x hx => by
      rw [← hsw.live_eq x]; exact h2 x hx))
    (fun p q hq => by
      rw [hsw.live_eq q]
      rw [hsw.childrenAt p] at hq
      exact hlive p q hq)
    (by rw [hsw.dependent]; exact hac)
    (by rw [hsw.live_eq self]; exact hself) List.nodup_nil
    (fun x hx => by simp at hx) (by simpa using hf)
  have e : s2 = s1 := by
    refine ClearCacheRec_fixed fuel self s1 s2 ?_ h2
    intro q c hq hc
    rw [hsw.dependent] at hq
    have h3 := hsw.cell_hit q hq
    rw [hc] at h3
    cases hd : s.cell q with
    | none => simp [hd] at h3
    | some d =>
      simp only [hd, Option.map_some', Option.some.injEq] at h3
      rw [h3, clearCell_idem]
  rw [e] at h2
  exact h2

/-! ## The claims about a single call -/

/-- C2: a call of `Cell::Set` that fails with an exception `e`, in particular with a parse
error or with a circular-dependency error, leaves the whole sheet state identical to the
state before the call: every cell keeps its content, cache, depends_on and dependents, and
no cell is created. -/
theorem C2_rejected_set_is_atomic (ext : External) (self : Position) (text : String)
    (s s' : Sheet) (e : Exception)
    (hfail : Cell.Set ext self text s = .threw e s') : s' = s :=
  (SetWith_threw hfail).1

theorem C2_rejected_set_is_atomic_witness :
    Cell.Set demo B1 "=A1" sheetAB = .threw .CircularDependencyException sheetAB ∧
    sheetAB = sheetAB :=
  ⟨by decide,
    C2_rejected_set_is_atomic demo B1 "=A1" sheetAB sheetAB .CircularDependencyException
      (by decide)⟩

/-- C3: on a sheet whose cells reference valid positions, for a cell `self` of the sheet and
a formula text that parses to an expression referencing the valid positions `P`, the call
`Set` fails with a circular-dependency error if and only if `self` is reachable from a cell
at a position of `P` along zero or more reference edges; a position without a cell contributes
nothing, and a formula that references the position of `self` is rejected. -/
theorem C3_cycle_detection_exact (ext : External) (s : Sheet) (self : Position)
    (text : String) (f : Formula) (hv : s.ValidRefs ext)
    (hcell : (s.cell self).isSome = true)
    (hsign : text.length > 1 ∧ text.get 0 = FORMULA_SIGN)
    (hparse : ext.ParseFormula (text.drop 1) = some f)
    (hP : ∀ r ∈ f.referenced, ext.IsValid r = true) :
    ((∃ s', Cell.Set ext self text s = .threw .CircularDependencyException s') ↔
      ∃ p ∈ f.referenced, (s.cell p).isSome = true ∧
        Relation.ReflTransGen s.refEdge p self) ∧
    (self ∈ f.referenced →
      Cell.Set ext self text s = .threw .CircularDependencyException s) := by
  have hb : (decide (text.length > 1) && text.get 0 == FORMULA_SIGN) = true := by
    simp [hsign.1, hsign.2]
  have hne := isEmpty_false_of_sign text hb
  obtain ⟨b, hcc, hiff⟩ := CheckCycles_exact ext s self (.FormulaImpl f none) hv hP
  have htmp : Cell.Set.tmp ext s self text =
      if b then .threw .CircularDependencyException else .ok (.FormulaImpl f none) := by
    unfold Cell.Set.tmp
    simp only [hne, Bool.false_eq_true, if_false]
    rw [if_pos hb, FormulaImpl_new_of_sign ext text hb, hparse]
    simp only [Option.elim, hcc]
    cases b <;> rfl
  have hmain : (∃ s', Cell.Set ext self text s = .threw .CircularDependencyException s') ↔
      b = true := by
    constructor
    · rintro ⟨s', h⟩
      have h2 := (SetWith_threw h).2
      rw [htmp] at h2
      cases b with
      | true => rfl
      | false => simp at h2
    · intro hbt
      refine ⟨s, ?_⟩
      unfold Cell.Set Cell.SetWith
      rw [htmp, hbt]
      rfl
  refine ⟨hmain.trans hiff, fun hself => ?_⟩
  have hbt : b = true := hiff.mpr ⟨self, hself, hcell, Relation.ReflTransGen.refl⟩
  unfold Cell.Set Cell.SetWith
  rw [htmp, hbt]
  rfl

theorem C3_cycle_detection_exact_witness :
    sheetChain.ValidRefs demo ∧ (sheetChain.cell A1).isSome = true ∧
    ("=C1".length > 1 ∧ "=C1".get 0 = FORMULA_SIGN) ∧
    demo.ParseFormula ("=C1".drop 1) = some ⟨"C1", [C1]⟩ ∧
    (∀ r ∈ [C1], demo.IsValid r = true) ∧
    (((∃ s', Cell.Set demo A1 "=C1" sheetChain = .threw .CircularDependencyException s') ↔
      ∃ p ∈ [C1], (sheetChain.cell p).isSome = true ∧
        Relation.ReflTransGen sheetChain.refEdge p A1) ∧
    (A1 ∈ [C1] →
      Cell.Set demo A1 "=C1" sheetChain = .threw .CircularDependencyException sheetChain)) :=
  ⟨ValidRefs_of_cells demo sheetChain (by decide), by decide, by decide, by decide, by decide,
    C3_cycle_detection_exact demo sheetChain A1 "=C1" ⟨"C1", [C1]⟩
      (ValidRefs_of_cells demo sheetChain (by decide)) (by decide) (by decide) (by decide)
      (by decide)⟩

/-- C5: after a call of `Cell::Set` on the cell `self` that returns, the cache of `self` and
of every cell reachable from `self` through dependents, in any number of hops, is empty. -/
theorem C5_cache_coherence (ext : External) (self : Position) (text : String) (s s' : Sheet)
    (h : Cell.Set ext self text s = .ok s') (q : Position)
    (hq : Relation.ReflTransGen s'.dependent self q) : s'.cacheAt q = none := by
  obtain ⟨tmp, s4, _, _, hs⟩ := SetWith_ok h
  rw [hs.dependent] at hq
  rw [Sheet.cacheAt_eq, hs.implAt_this q hq]
  cases s4.implAt q with
  | none => rfl
  | some i => exact Impl.cache_ClearCache i

theorem C5_cache_coherence_witness :
    sheetChain.cacheAt B1 = some (.number 7) ∧ sheetChain.cacheAt C1 = some (.number 7) ∧
    Cell.Set demo A1 "2" sheetChain = .ok sheetChain2 ∧
    Relation.ReflTransGen sheetChain2.dependent A1 C1 ∧ sheetChain2.cacheAt B1 = none ∧
    sheetChain2.cacheAt C1 = none := by
  have h : Cell.Set demo A1 "2" sheetChain = .ok sheetChain2 := by decide
  have h1 : Relation.ReflTransGen sheetChain2.dependent A1 B1 :=
    Relation.ReflTransGen.single (show B1 ∈ sheetChain2.childrenAt A1 by decide)
  have h2 : Relation.ReflTransGen sheetChain2.dependent A1 C1 :=
    h1.tail (show C1 ∈ sheetChain2.childrenAt B1 by decide)
  exact ⟨by decide, by decide, h, h2, by decide,
    C5_cache_coherence demo A1 "2" sheetChain sheetChain2 h C1 h2⟩

/-- C6: a call of `Cell::Set` on the cell `self` that returns leaves the content and the
cached value of every other cell `d` of the sheet unchanged when `d` is not reachable from
`self` through dependents after the call. -/
theorem C6_cache_hit_stability (ext : External) (self : Position) (text : String)
    (s s' : Sheet) (h : Cell.Set ext self text s = .ok s') (d : Position)
    (hne : d ≠ self) (hd : (s.cell d).isSome = true)
    (hnr : ¬ Relation.ReflTransGen s'.dependent self d) :
    s'.implAt d = s.implAt d ∧ s'.cacheAt d = s.cacheAt d := by
  obtain ⟨tmp, s4, _, hr, hs⟩ := SetWith_ok h
  rw [hs.dependent] at hnr
  have h1 : s'.implAt d = s.implAt d := by
    rw [hs.implAt_miss d hnr, hr.impl_old d hne hd]
  exact ⟨h1, by rw [Sheet.cacheAt_eq, Sheet.cacheAt_eq, h1]⟩

theorem C6_cache_hit_stability_witness :
    Cell.Set demo C1 "5" sheetChain = .ok sheetChain3 ∧ B1 ≠ C1 ∧
    (sheetChain.cell B1).isSome = true ∧
    ¬ Relation.ReflTransGen sheetChain3.dependent C1 B1 ∧
    (sheetChain3.implAt B1 = sheetChain.implAt B1 ∧
      sheetChain3.cacheAt B1 = sheetChain.cacheAt B1) := by
  have hnr : ¬ Relation.ReflTransGen sheetChain3.dependent C1 B1 := by
    refine closed_not_reach _ (fun v => v = C1) B1 (by decide) ?_ C1 rfl
    intro v w hv hvw
    subst hv
    exact absurd (show w ∈ sheetChain3.childrenAt C1 from hvw) (by simp [sheetChain3,
      Sheet.childrenAt, Sheet.cell, Sheet.slot, slotOf, A1, B1, C1])
  exact ⟨by decide, by decide, by decide, hnr,
    C6_cache_hit_stability demo C1 "5" sheetChain sheetChain3 (by decide) B1 (by decide)
      (by decide) hnr⟩

/-- C7: after a call of `Cell::Set` on the cell `self` that returns, where `P` is the list of
positions the new content references (empty for Empty and Literal content): every position
of `P` holds a cell; a cell at a position that held none before the call has Empty content;
the depends_on set of `self` is exactly the set of positions of `P`; and `self` is in the
dependents of no cell that was in its old depends_on and is not at a position of `P`. -/
theorem C7_rewiring_postcondition (ext : External) (self : Position) (text : String)
    (s s' : Sheet) (h : Cell.Set ext self text s = .ok s') :
    (∀ p ∈ s'.refsAt self, (s'.cell p).isSome = true) ∧
    (∀ q d, s.cell q = none → s'.cell q = some d → d.impl_ = .EmptyImpl) ∧
    (∀ x, x ∈ s'.parentsAt self ↔ x ∈ s'.refsAt self) ∧
    (∀ q ∈ s.parentsAt self, q ∉ s'.refsAt self → self ∉ s'.childrenAt q) ∧
    (∀ i, s'.implAt self = some i → (i = .EmptyImpl ∨ ∃ t, i = .TextImpl t) →
      s'.refsAt self = []) := by
  obtain ⟨tmp, s4, _, hr, hs⟩ := SetWith_ok h
  have hrefs : s'.refsAt self = tmp.GetReferencedCells := by
    rw [hs.refsAt, hr.refsAt_this]
  refine ⟨?_, ?_, ?_, ?_, ?_⟩
  · intro p hp
    rw [hrefs] at hp
    rw [hs.live_eq]
    exact (hr.live_after p).mpr (Or.inr hp)
  · intro q d hq hd
    have h4 := hr.impl_new q hq
    have h5 : s'.implAt q = some d.impl_ := Sheet.implAt_of_cell hd
    rcases hs.implAt_cases q with e | e
    · rw [e, h4] at h5
      by_cases hm : q ∈ tmp.GetReferencedCells
      · simp only [hm, if_true, Option.some.injEq] at h5
        exact h5.symm
      · simp [hm] at h5
    · rw [e, h4] at h5
      by_cases hm : q ∈ tmp.GetReferencedCells
      · simp only [hm, if_true, Option.map_some', Option.some.injEq] at h5
        exact h5.symm
      · simp [hm] at h5
  · intro x
    rw [hrefs, hs.parentsAt, hr.parents_this]
  · intro q hq hn
    rw [hrefs] at hn
    rw [hs.childrenAt, hr.children]
    rintro (⟨_, h2⟩ | ⟨_, h2⟩)
    · exact h2 ⟨rfl, hq⟩
    · exact hn h2
  · intro i hi hcase
    rw [Sheet.refsAt_eq, hi]
    rcases hcase with e | ⟨t, e⟩ <;> subst e <;> rfl

theorem C7_rewiring_postcondition_witness :
    Cell.Set demo A1 "=C1" sheetAB = .ok sheetAC ∧
    sheetAB.cell C1 = none ∧ sheetAC.refsAt A1 = [C1] ∧ sheetAC.parentsAt A1 = [C1] ∧
    sheetAB.parentsAt A1 = [B1] ∧
    ((∀ p ∈ sheetAC.refsAt A1, (sheetAC.cell p).isSome = true) ∧
    (∀ q d, sheetAB.cell q = none → sheetAC.cell q = some d → d.impl_ = .EmptyImpl) ∧
    (∀ x, x ∈ sheetAC.parentsAt A1 ↔ x ∈ sheetAC.refsAt A1) ∧
    (∀ q ∈ sheetAB.parentsAt A1, q ∉ sheetAC.refsAt A1 → A1 ∉ sheetAC.childrenAt q) ∧
    (∀ i, sheetAC.implAt A1 = some i → (i = .EmptyImpl ∨ ∃ t, i = .TextImpl t) →
      sheetAC.refsAt A1 = [])) :=
  ⟨by decide, by decide, by decide, by decide, by decide,
    C7_rewiring_postcondition demo A1 "=C1" sheetAB sheetAC (by decide)⟩

/-- C8: `Cell::Set` reads its text by its first character.  The empty text gives Empty
content.  A text longer than one character that starts with the formula marker is parsed,
and gives Formula content when the call returns.  Every other text gives Literal content
with that text and is never parsed; the one-character text made of the formula marker is one
of these, whatever the parser is, and a call with such a text or with the empty text throws
nothing. -/
theorem C8_set_classifies_text (ext : External) (self : Position) (s : Sheet) :
    Cell.Set.tmp ext s self "" = .ok .EmptyImpl ∧
    (∀ text, text ≠ "" → ¬ (text.length > 1 ∧ text.get 0 = FORMULA_SIGN) →
      Cell.Set.tmp ext s self text = .ok (.TextImpl text)) ∧
    (∀ ext2 : External, Cell.Set.tmp ext2 s self "=" = .ok (.TextImpl "=")) ∧
    (∀ text tmp, text.length > 1 ∧ text.get 0 = FORMULA_SIGN →
      Cell.Set.tmp ext s self text = .ok tmp →
      ∃ f, ext.ParseFormula (text.drop 1) = some f ∧ tmp = .FormulaImpl f none) ∧
    (∀ text (s' : Sheet), Cell.Set ext self text s = .ok s' →
      ∃ tmp, Cell.Set.tmp ext s self text = .ok tmp ∧ s'.implAt self = some tmp) ∧
    (∀ text e (s' : Sheet), ¬ (text.length > 1 ∧ text.get 0 = FORMULA_SIGN) →
      Cell.Set ext self text s ≠ .threw e s') :=
  ⟨tmp_empty ext s self, tmp_literal ext s self,
    fun ext2 => tmp_literal ext2 s self "=" (by decide) (by decide),
    fun _ _ hsign h => tmp_formula hsign h, fun _ _ h => Set_ok_impl h,
    fun _ _ _ hn => Set_not_threw_of_literal hn⟩

theorem C8_set_classifies_text_witness :
    Cell.Set demo A1 "=" sheetAB =
      .ok ⟨[(A1, some ⟨.TextImpl "=", [], []⟩), (B1, some ⟨.EmptyImpl, [], []⟩)]⟩ ∧
    Cell.Set.tmp demo sheetAB A1 "=" = .ok (.TextImpl "=") ∧
    Cell.Set.tmp demo sheetAB A1 "" = .ok .EmptyImpl ∧
    Cell.Set.tmp demo sheetAB A1 "=C1" = .ok (.FormulaImpl ⟨"C1", [C1]⟩ none) :=
  ⟨by decide, (C8_set_classifies_text demo A1 sheetAB).2.2.1 demo,
    (C8_set_classifies_text demo A1 sheetAB).1, by decide⟩

/-- C9: after a call `Set(text)` that returns, `GetText` of the cell gives the empty string
for the empty text, gives `text` itself, a leading escape marker included, for every text
stored as a Literal, and gives the formula marker followed by the canonical expression string
of the parsed formula for a text accepted as a Formula. -/
theorem C9_round_trip_text (ext : External) (self : Position) (text : String) (s s' : Sheet)
    (h : Cell.Set ext self text s = .ok s') :
    (text = "" → Cell.GetText s' self = some "") ∧
    (text ≠ "" → ¬ (text.length > 1 ∧ text.get 0 = FORMULA_SIGN) →
      Cell.GetText s' self = some text) ∧
    (text.length > 1 ∧ text.get 0 = FORMULA_SIGN →
      ∃ f, ext.ParseFormula (text.drop 1) = some f ∧
        Cell.GetText s' self = some (String.singleton FORMULA_SIGN ++ f.expression)) := by
  obtain ⟨tmp, ht, hi⟩ := Set_ok_impl h
  have hg : Cell.GetText s' self = some tmp.GetText := by
    unfold Cell.GetText
    unfold Sheet.implAt at hi
    cases hc : s'.cell self with
    | none => simp [hc] at hi
    | some c =>
      simp only [hc, Option.map_some', Option.some.injEq] at hi ⊢
      rw [hi]
  refine ⟨?_, ?_, ?_⟩
  · intro e
    subst e
    rw [tmp_empty] at ht
    simp only [Res.ok.injEq] at ht
    rw [hg, ← ht]; rfl
  · intro e1 e2
    rw [tmp_literal ext s self text e1 e2] at ht
    simp only [Res.ok.injEq] at ht
    rw [hg, ← ht]; rfl
  · intro e
    obtain ⟨f, hf, hfe⟩ := tmp_formula e ht
    exact ⟨f, hf, by rw [hg, hfe]; rfl⟩

theorem C9_round_trip_text_witness :
    Cell.Set demo A1 "=C1" sheetAB = .ok sheetAC ∧
    Cell.GetText sheetAC A1 = some "=C1" ∧
    (("=C1" = "" → Cell.GetText sheetAC A1 = some "") ∧
    ("=C1" ≠ "" → ¬ ("=C1".length > 1 ∧ "=C1".get 0 = FORMULA_SIGN) →
      Cell.GetText sheetAC A1 = some "=C1") ∧
    ("=C1".length > 1 ∧ "=C1".get 0 = FORMULA_SIGN →
      ∃ f, demo.ParseFormula ("=C1".drop 1) = some f ∧
        Cell.GetText sheetAC A1 = some (String.singleton FORMULA_SIGN ++ f.expression))) :=
  ⟨by decide, by decide, C9_round_trip_text demo A1 "=C1" sheetAB sheetAC (by decide)⟩

/-- C10: `GetValue` of a cell with Literal content `text` is a string: `text` without its
first character when that character is the escape marker (one marker is stripped, not more),
and `text` otherwise.  `GetValue` of a cell with Empty content is the empty string.  After
`SetCell` with the escape marker followed by `5`, the text is that text and the value is the
string `5`. -/
theorem C10_literal_value (evaluated : FormulaValue) (text : String) :
    (Impl.GetValue evaluated (.TextImpl text)).1 =
      .str (if text.data.head? = some ESCAPE_SIGN then String.mk text.data.tail else text) ∧
    (Impl.GetValue evaluated .EmptyImpl).1 = .str "" ∧
    (∀ (s : Sheet) (self : Position) (c : Cell), s.cell self = some c →
      c.impl_ = .TextImpl text →
      (Cell.GetValue evaluated s self).map (fun r => r.1) =
        some (.str (if text.data.head? = some ESCAPE_SIGN then String.mk text.data.tail
          else text))) ∧
    Sheet.SetCell demo A1 (String.mk [ESCAPE_SIGN, '5']) Sheet.empty = .ok sheetEsc ∧
    Cell.GetText sheetEsc A1 = some (String.mk [ESCAPE_SIGN, '5']) ∧
    (Cell.GetValue evaluated sheetEsc A1).map (fun r => r.1) = some (.str "5") := by
  have h1 : (Impl.GetValue evaluated (.TextImpl text)).1 =
      .str (if text.data.head? = some ESCAPE_SIGN then String.mk text.data.tail else text) := by
    simp only [Impl.GetValue]
    rw [String.get_zero_eq]
    cases text with
    | mk l =>
      cases l with
      | nil =>
        have : (default : Char) ≠ ESCAPE_SIGN := by decide
        simp [this]
      | cons a rest =>
        by_cases ha : a = ESCAPE_SIGN
        · simp [ha, String.drop_eq]
        · simp [ha]
  refine ⟨h1, rfl, ?_, by decide, by decide, rfl⟩
  intro s self c hc hi
  unfold Cell.GetValue
  simp only [hc, Option.map_some', hi, h1]

/-! ## The claims about sequences of calls -/

/-- C1: starting from the empty sheet, every finite sequence of `SetCell` calls (accepted or
rejected; reads may come in between) runs through, and after each of its calls the depends_on
relation over the cells of the sheet has no directed cycle; in particular no cell depends on
itself. -/
theorem C1_acyclicity_invariant (ext : External) (calls : List Call)
    (h : ∀ c ∈ calls, c.isSetOrGet = true) (n : Nat) :
    ∃ s, run ext (calls.take n) Sheet.empty = some s ∧ s.Acyclic ∧
      ∀ p, ¬ s.dependsOn p p := by
  obtain ⟨s, h1, h2⟩ := run_consistent ext (calls.take n) Sheet.empty
    (fun c hc => h c (List.mem_of_mem_take hc)) (Consistent_empty ext)
  exact ⟨s, h1, h2.acyclic, fun p hp => h2.acyclic p (Relation.TransGen.single hp)⟩

theorem C1_acyclicity_invariant_witness :
    (∀ c ∈ demoCalls, c.isSetOrGet = true) ∧
    (Call.exec demo sheetAB (.SetCell B1 "=A1")) =
      .threw .CircularDependencyException sheetAB ∧
    ∃ s, run demo (demoCalls.take 5) Sheet.empty = some s ∧ s.Acyclic ∧
      ∀ p, ¬ s.dependsOn p p :=
  ⟨by decide, by decide, C1_acyclicity_invariant demo demoCalls (by decide) 5⟩

/-- C4: starting from the empty sheet, after every sequence of calls (`SetCell`, reads,
`Cell::Clear`, `ClearCell`) that have all come back, normally or by an exception, a cell `a`
of the sheet is in the depends_on set of a cell `b` of the sheet if and only if `b` is in the
dependents set of `a`. -/
theorem C4_edge_mutuality_invariant (ext : External) (calls : List Call) (s : Sheet)
    (h : run ext calls Sheet.empty = some s) (a b : Position)
    (ha : (s.cell a).isSome = true) (hb : (s.cell b).isSome = true) :
    a ∈ s.parentsAt b ↔ b ∈ s.childrenAt a :=
  (run_linked ext calls Sheet.empty s Linked_empty h).mutuality a b ha hb

theorem C4_edge_mutuality_invariant_witness :
    run demo demoClearCalls Sheet.empty = some sheetCleared ∧
    (sheetCleared.cell C1).isSome = true ∧ (sheetCleared.cell A1).isSome = true ∧
    C1 ∈ sheetCleared.parentsAt A1 ∧
    (C1 ∈ sheetCleared.parentsAt A1 ↔ A1 ∈ sheetCleared.childrenAt C1) :=
  ⟨by decide, by decide, by decide, by decide,
    C4_edge_mutuality_invariant demo demoClearCalls sheetCleared (by decide) C1 A1
      (by decide) (by decide)⟩

/-! ## The claims about scenario 2 and about the entry points of `Sheet` -/

/-- C11, as stated, fails: after `SetCell(A1, "=B1")` and the rejected `SetCell(B1, "=A1")`
the cell A1 does not have Empty content and empty text; it holds the formula of the first
call. -/
theorem C11_counterexample :
    run demo [.SetCell A1 "=B1", .SetCell B1 "=A1"] Sheet.empty = some sheetAB ∧
    Sheet.SetCell demo B1 "=A1" sheetAB = .threw .CircularDependencyException sheetAB ∧
    sheetAB.implAt A1 = some (.FormulaImpl ⟨"B1", [B1]⟩ none) ∧
    sheetAB.implAt A1 ≠ some .EmptyImpl ∧
    Cell.GetText sheetAB A1 = some "=B1" ∧ Cell.GetText sheetAB A1 ≠ some "" := by
  decide

/-- C11, amended: starting from the empty sheet, for a parser that reads `B1` and `A1` as
references to the valid positions B1 and A1, `SetCell(A1, "=B1")` returns, the call
`SetCell(B1, "=A1")` that follows is rejected with a circular-dependency error, and both cells
remain in their prior state: A1 holds the formula of the first call, its text being the
formula marker followed by the canonical expression, and B1, which the first call
materialized, has Empty content and empty text. -/
theorem C11_scenario_two_rejected (ext : External) (eA eB : String)
    (hA : ext.IsValid A1 = true) (hB : ext.IsValid B1 = true)
    (hpB : ext.ParseFormula "B1" = some ⟨eB, [B1]⟩)
    (hpA : ext.ParseFormula "A1" = some ⟨eA, [A1]⟩) :
    ∃ s1, Sheet.SetCell ext A1 "=B1" Sheet.empty = .ok s1 ∧
      Sheet.SetCell ext B1 "=A1" s1 = .threw .CircularDependencyException s1 ∧
      s1.implAt A1 = some (.FormulaImpl ⟨eB, [B1]⟩ none) ∧
      Cell.GetText s1 A1 = some (String.singleton FORMULA_SIGN ++ eB) ∧
      s1.implAt B1 = some .EmptyImpl ∧ Cell.GetText s1 B1 = some "" :=
  ⟨_, scenario_first ext eB hA hB hpB, scenario_second ext eA eB hA hB hpA, rfl, rfl, rfl, rfl⟩

theorem C11_scenario_two_rejected_witness :
    demo.IsValid A1 = true ∧ demo.IsValid B1 = true ∧
    demo.ParseFormula "B1" = some ⟨"B1", [B1]⟩ ∧ demo.ParseFormula "A1" = some ⟨"A1", [A1]⟩ ∧
    ∃ s1, Sheet.SetCell demo A1 "=B1" Sheet.empty = .ok s1 ∧
      Sheet.SetCell demo B1 "=A1" s1 = .threw .CircularDependencyException s1 ∧
      s1.implAt A1 = some (.FormulaImpl ⟨"B1", [B1]⟩ none) ∧
      Cell.GetText s1 A1 = some (String.singleton FORMULA_SIGN ++ "B1") ∧
      s1.implAt B1 = some .EmptyImpl ∧ Cell.GetText s1 B1 = some "" :=
  ⟨by decide, by decide, by decide, by decide,
    C11_scenario_two_rejected demo "A1" "B1" (by decide) (by decide) (by decide) (by decide)⟩

/-- C12, what the code does: at a valid position that holds a cell, `ClearCell` returns and
leaves the slot in `cells_` with a null pointer; `GetCell` then reports absence; and a
`SetCell` on that position, with any text, finds the slot, creates no cell, and dereferences
the null pointer. -/
theorem C12_set_after_clear_faults (ext : External) (s : Sheet) (pos : Position) (c : Cell)
    (text : String) (hv : ext.IsValid pos = true) (hc : s.cell pos = some c) :
    ∃ s1, Sheet.ClearCell ext pos s = .ok s1 ∧ s1.slot pos = some none ∧
      s1.GetCell ext pos = .ok none ∧ Sheet.SetCell ext pos text s1 = .fault := by
  obtain ⟨s1, h1, h2, _⟩ := ClearCell_live hv hc
  refine ⟨s1, h1, h2, ?_, SetCell_null text hv h2⟩
  rw [GetCell_of_valid ext s1 pos hv]
  simp [Sheet.cell, h2]

theorem C12_set_after_clear_faults_witness :
    run demo [.SetCell A1 "5"] Sheet.empty = some ⟨[(A1, some ⟨.TextImpl "5", [], []⟩)]⟩ ∧
    demo.IsValid A1 = true ∧
    Sheet.cell ⟨[(A1, some ⟨.TextImpl "5", [], []⟩)]⟩ A1 = some ⟨.TextImpl "5", [], []⟩ ∧
    Sheet.ClearCell demo A1 ⟨[(A1, some ⟨.TextImpl "5", [], []⟩)]⟩ = .ok sheetNull ∧
    Sheet.SetCell demo A1 "7" sheetNull = .fault ∧
    run demo [.SetCell A1 "5", .ClearCell A1, .SetCell A1 "7"] Sheet.empty = none ∧
    ∃ s1, Sheet.ClearCell demo A1 ⟨[(A1, some ⟨.TextImpl "5", [], []⟩)]⟩ = .ok s1 ∧
      s1.slot A1 = some none ∧ s1.GetCell demo A1 = .ok none ∧
      Sheet.SetCell demo A1 "7" s1 = .fault :=
  ⟨by decide, by decide, by decide, by decide, by decide, by decide,
    C12_set_after_clear_faults demo ⟨[(A1, some ⟨.TextImpl "5", [], []⟩)]⟩ A1
      ⟨.TextImpl "5", [], []⟩ "7" (by decide) (by decide)⟩

/-- C13: for a position that `IsValid` rejects, `SetCell`, `GetCell` (both variants are the
same code) and `ClearCell` each throw the invalid-position exception, and the two that can
change the sheet leave it as it was. -/
theorem C13_invalid_position_rejected (ext : External) (s : Sheet) (pos : Position)
    (text : String) (h : ext.IsValid pos = false) :
    Sheet.SetCell ext pos text s = .threw .InvalidPositionException s ∧
    s.GetCell ext pos = .error .InvalidPositionException ∧
    Sheet.ClearCell ext pos s = .threw .InvalidPositionException s := by
  refine ⟨?_, ?_, ?_⟩
  · rw [SetCell_unfold]
    simp [h]
  · simp [Sheet.GetCell, h]
  · simp [Sheet.ClearCell, h]

theorem C13_invalid_position_rejected_witness :
    demo.IsValid ⟨-1, 0⟩ = false ∧
    (Sheet.SetCell demo ⟨-1, 0⟩ "5" sheetAB = .threw .InvalidPositionException sheetAB ∧
    sheetAB.GetCell demo ⟨-1, 0⟩ = .error .InvalidPositionException ∧
    Sheet.ClearCell demo ⟨-1, 0⟩ sheetAB = .threw .InvalidPositionException sheetAB) :=
  ⟨by decide, C13_invalid_position_rejected demo sheetAB ⟨-1, 0⟩ "5" (by decide)⟩

/-- C14: when `SetCell` at a valid position without a slot fails with an exception, a parse
error or a circular-dependency error in particular, the sheet it leaves has a new cell at
that position with Empty content, empty text and no edges, `GetCell` returns that cell, and
every other slot is as it was. -/
theorem C14_failed_set_leaves_empty_cell (ext : External) (s s' : Sheet) (pos : Position)
    (text : String) (e : Exception) (hv : ext.IsValid pos = true) (hs : s.slot pos = none)
    (h : Sheet.SetCell ext pos text s = .threw e s') :
    s'.GetCell ext pos = .ok (some pos) ∧ s'.cell pos = some Cell.new ∧
    s'.implAt pos = some .EmptyImpl ∧ Cell.GetText s' pos = some "" ∧
    s'.parentsAt pos = [] ∧ s'.childrenAt pos = [] ∧
    ∀ q, q ≠ pos → s'.slot q = s.slot q := by
  have hs' := SetCell_threw_absent hv hs h
  subst hs'
  have hc : (s.store pos Cell.new).cell pos = some Cell.new := by
    rw [Sheet.cell_store]; simp
  refine ⟨?_, hc, ?_, ?_, ?_, ?_, ?_⟩
  · rw [GetCell_of_valid ext _ pos hv, hc]; rfl
  · rw [Sheet.implAt_of_cell hc]; rfl
  · simp only [Cell.GetText, hc]
    rfl
  · rw [Sheet.parentsAt_of_cell hc]; rfl
  · rw [Sheet.childrenAt_of_cell hc]; rfl
  · intro q hq
    rw [Sheet.slot_store]
    simp [hq]

theorem C14_failed_set_leaves_empty_cell_witness :
    demo.IsValid A1 = true ∧ Sheet.empty.slot A1 = none ∧
    Sheet.SetCell demo A1 "=A1" Sheet.empty = .threw .CircularDependencyException sheetSelf ∧
    (sheetSelf.GetCell demo A1 = .ok (some A1) ∧ sheetSelf.cell A1 = some Cell.new ∧
    sheetSelf.implAt A1 = some .EmptyImpl ∧ Cell.GetText sheetSelf A1 = some "" ∧
    sheetSelf.parentsAt A1 = [] ∧ sheetSelf.childrenAt A1 = [] ∧
    ∀ q, q ≠ A1 → sheetSelf.slot q = Sheet.empty.slot q) :=
  ⟨by decide, by decide, by decide,
    C14_failed_set_leaves_empty_cell demo Sheet.empty sheetSelf A1 "=A1"
      .CircularDependencyException (by decide) (by decide) (by decide)⟩

/-- C17, as stated, fails: after `SetCell(A1, "=B1")` and `Cell::Clear` on A1, the content
of A1 is Empty and its depends_on set still holds B1; and a `Set` call on A1 that follows and
is rejected for a cycle completes with A1 in that same state. -/
theorem C17_counterexample :
    run demo [.SetCell A1 "=B1", .Clear A1] Sheet.empty = some sheetStale ∧
    sheetStale.implAt A1 = some .EmptyImpl ∧ sheetStale.parentsAt A1 = [B1] ∧
    sheetStale.parentsAt A1 ≠ [] ∧
    Cell.Set demo A1 "=A1" sheetStale = .threw .CircularDependencyException sheetStale ∧
    run demo [.SetCell A1 "=B1", .Clear A1, .SetCell A1 "=A1"] Sheet.empty = some sheetStale := by
  decide

/-- C17, amended.  (a) Starting from the empty sheet, while the calls made are `SetCell` calls
and reads, every call completes, by a normal return or by a rejection, and after it the
depends_on set of every cell with Empty or Literal content is empty.  (b) In every state,
also one that `Clear` or `ClearCell` calls have left, after a `Set` call on a cell (made
directly or through `SetCell`) that returns normally, the depends_on set of that cell is empty
whenever its content is Empty or Literal; a `Set` call that is rejected leaves the sheet,
hence the content and the depends_on set of the cell, as it was before the call.  (c) A
`Clear` call on a cell makes its content Empty and leaves its depends_on set as it was, so
the set is empty after the call exactly when it was empty before. -/
theorem C17_plain_cells_have_no_dependencies (ext : External) :
    (∀ (calls : List Call), (∀ c ∈ calls, c.isSetOrGet = true) → ∀ n : Nat,
      ∃ s, run ext (calls.take n) Sheet.empty = some s ∧
        ∀ (p : Position) (i : Impl), s.implAt p = some i →
          (i = .EmptyImpl ∨ ∃ t, i = .TextImpl t) → s.parentsAt p = []) ∧
    (∀ (self : Position) (text : String) (s s' : Sheet) (i : Impl),
      Cell.Set ext self text s = .ok s' → s'.implAt self = some i →
      (i = .EmptyImpl ∨ ∃ t, i = .TextImpl t) → s'.parentsAt self = []) ∧
    (∀ (pos : Position) (text : String) (s s' : Sheet) (i : Impl),
      Sheet.SetCell ext pos text s = .ok s' → s'.implAt pos = some i →
      (i = .EmptyImpl ∨ ∃ t, i = .TextImpl t) → s'.parentsAt pos = []) ∧
    (∀ (self : Position) (text : String) (s s' : Sheet) (e : Exception),
      Cell.Set ext self text s = .threw e s' →
      s' = s ∧ s'.implAt self = s.implAt self ∧ s'.parentsAt self = s.parentsAt self) ∧
    (∀ (self : Position) (s s' : Sheet), Cell.Clear self s = .ok s' →
      s'.implAt self = some .EmptyImpl ∧ s'.parentsAt self = s.parentsAt self ∧
      (s'.parentsAt self = [] ↔ s.parentsAt self = [])) := by
  refine ⟨?_, fun self text s s' i h hi hp => Set_plain_no_parents h i hi hp, ?_, ?_, ?_⟩
  · intro calls hk n
    obtain ⟨s, h1, hc⟩ := run_consistent ext (calls.take n) Sheet.empty
      (fun c hc => hk c (List.mem_of_mem_take hc)) (Consistent_empty ext)
    exact ⟨s, h1, fun p i hi hp => Consistent_plain_no_parents hc p i hi hp⟩
  · intro pos text s s' i h hi hp
    rw [SetCell_unfold] at h
    by_cases hv : ext.IsValid pos = true
    · simp only [hv, if_true] at h
      generalize (if (s.slot pos).isSome = true then s else s.store pos Cell.new) = s1 at h
      cases hs : s1.slot pos with
      | none => simp [hs] at h
      | some o =>
        cases o with
        | none => simp [hs] at h
        | some c =>
          simp only [hs] at h
          exact @Set_plain_no_parents ext pos text s1 s' h i hi hp
    · simp [hv] at h
  · intro self text s s' e h
    have e1 : s' = s := (@SetWith_threw ext 0 self text s s' e h).1
    subst e1
    exact ⟨rfl, rfl, rfl⟩
  · intro self s s' h
    have h1 := Clear_keeps_parents h
    exact ⟨h1.1, h1.2.1, by rw [h1.2.1]⟩

theorem C17_plain_cells_have_no_dependencies_witness :
    (∀ c ∈ demoCalls, c.isSetOrGet = true) ∧
    (∃ s, run demo (demoCalls.take 5) Sheet.empty = some s ∧
        ∀ (p : Position) (i : Impl), s.implAt p = some i →
          (i = .EmptyImpl ∨ ∃ t, i = .TextImpl t) → s.parentsAt p = []) ∧
    Cell.Set demo A1 "5" sheetAB =
      .ok ⟨[(A1, some ⟨.TextImpl "5", [], []⟩), (B1, some ⟨.EmptyImpl, [], []⟩)]⟩ ∧
    Sheet.parentsAt ⟨[(A1, some ⟨.TextImpl "5", [], []⟩), (B1, some ⟨.EmptyImpl, [], []⟩)]⟩ A1
      = [] ∧
    Sheet.SetCell demo A1 "5" sheetStale =
      .ok ⟨[(A1, some ⟨.TextImpl "5", [], []⟩), (B1, some ⟨.EmptyImpl, [], []⟩)]⟩ ∧
    Cell.Set demo A1 "=A1" sheetStale = .threw .CircularDependencyException sheetStale ∧
    (sheetStale = sheetStale ∧ sheetStale.implAt A1 = sheetStale.implAt A1 ∧
      sheetStale.parentsAt A1 = sheetStale.parentsAt A1) ∧
    Cell.Clear A1 sheetAB = .ok sheetStale ∧
    (sheetStale.implAt A1 = some .EmptyImpl ∧ sheetStale.parentsAt A1 = sheetAB.parentsAt A1 ∧
      (sheetStale.parentsAt A1 = [] ↔ sheetAB.parentsAt A1 = [])) :=
  ⟨by decide,
    (C17_plain_cells_have_no_dependencies demo).1 demoCalls (by decide) 5,
    by decide,
    (C17_plain_cells_have_no_dependencies demo).2.1 A1 "5" sheetAB _ (.TextImpl "5")
      (by decide) (by decide) (Or.inr ⟨"5", rfl⟩),
    by decide, by decide,
    (C17_plain_cells_have_no_dependencies demo).2.2.2.1 A1 "=A1" sheetStale sheetStale
      .CircularDependencyException (by decide),
    by decide,
    (C17_plain_cells_have_no_dependencies demo).2.2.2.2 A1 sheetAB sheetStale (by decide)⟩

/-! ## The claims about printing -/

/-- C15: `GetPrintableSize` returns the smallest rectangle from the origin that covers the
positions holding a cell.  No position that holds a cell lies outside; each of `rows` and
`cols` is 0 or is attained as 1 + the coordinate of a position that holds a cell; the result
is {0,0} when no position holds a cell; and when some position holds a cell and the
coordinates of such positions are not negative, `rows` is 1 + the largest row and `cols` is
1 + the largest column over them.  Cells with Empty content count, null slots that
`ClearCell` left do not.  In every state that calls build from the empty sheet, the positions
that hold a cell are those where `GetCell` finds a cell, and `IsValid` accepts them. -/
theorem C15_printable_size_is_bounding_box (s : Sheet) :
    (∀ p, s.occupied p → p.row + 1 ≤ s.GetPrintableSize.rows ∧
      p.col + 1 ≤ s.GetPrintableSize.cols) ∧
    (s.GetPrintableSize.rows = 0 ∨
      ∃ p, s.occupied p ∧ s.GetPrintableSize.rows = p.row + 1) ∧
    (s.GetPrintableSize.cols = 0 ∨
      ∃ p, s.occupied p ∧ s.GetPrintableSize.cols = p.col + 1) ∧
    ((∀ p, ¬ s.occupied p) → s.GetPrintableSize = ⟨0, 0⟩) ∧
    ((∃ p, s.occupied p) → (∀ p, s.occupied p → 0 ≤ p.row ∧ 0 ≤ p.col) →
      (∃ p, s.occupied p ∧ s.GetPrintableSize.rows = 1 + p.row ∧
        ∀ q, s.occupied q → q.row ≤ p.row) ∧
      (∃ p, s.occupied p ∧ s.GetPrintableSize.cols = 1 + p.col ∧
        ∀ q, s.occupied q → q.col ≤ p.col)) ∧
    (∀ (ext : External) (calls : List Call), run ext calls Sheet.empty = some s →
      ∀ p, (s.occupied p ↔ (s.cell p).isSome = true) ∧
        (s.occupied p → ext.IsValid p = true)) := by
  have hb : ∀ p, s.occupied p → p.row + 1 ≤ s.GetPrintableSize.rows ∧
      p.col + 1 ≤ s.GetPrintableSize.cols := by
    rintro p ⟨c, hc⟩
    exact step_foldl_bound s.cells_ ⟨0, 0⟩ p c hc
  have hr : s.GetPrintableSize.rows = 0 ∨
      ∃ p, s.occupied p ∧ s.GetPrintableSize.rows = p.row + 1 := by
    rcases step_foldl_rows s.cells_ ⟨0, 0⟩ with h | ⟨p, c, hm, h⟩
    · exact Or.inl h
    · exact Or.inr ⟨p, ⟨c, hm⟩, h⟩
  have hc : s.GetPrintableSize.cols = 0 ∨
      ∃ p, s.occupied p ∧ s.GetPrintableSize.cols = p.col + 1 := by
    rcases step_foldl_cols s.cells_ ⟨0, 0⟩ with h | ⟨p, c, hm, h⟩
    · exact Or.inl h
    · exact Or.inr ⟨p, ⟨c, hm⟩, h⟩
  refine ⟨hb, hr, hc, ?_, ?_, ?_⟩
  · intro h
    exact step_foldl_none s.cells_ ⟨0, 0⟩ (fun p c hm => h p ⟨c, hm⟩)
  · rintro ⟨p0, hp0⟩ hnn
    constructor
    · rcases hr with h | ⟨p, hp, h⟩
      · have := (hb p0 hp0).1
        have := (hnn p0 hp0).1
        omega
      · refine ⟨p, hp, by omega, ?_⟩
        intro q hq
        have := (hb q hq).1
        omega
    · rcases hc with h | ⟨p, hp, h⟩
      · have := (hb p0 hp0).2
        have := (hnn p0 hp0).2
        omega
      · refine ⟨p, hp, by omega, ?_⟩
        intro q hq
        have := (hb q hq).2
        omega
  · intro ext calls hrun p
    have hw := run_wellKeyed ext calls Sheet.empty s (WellKeyed_empty ext) hrun
    refine ⟨occupied_iff_cell s hw.1 p, ?_⟩
    rintro ⟨c, hc⟩
    exact hw.2 p (List.mem_map.mpr ⟨(p, some c), hc, rfl⟩)

theorem C15_printable_size_is_bounding_box_witness :
    sheetPrint.GetPrintableSize = ⟨2, 3⟩ ∧ sheetPrint.occupied B2 ∧ sheetPrint.occupied C1 ∧
    sheetPrint.implAt C1 = some .EmptyImpl ∧ sheetPrint.slot ⟨5, 7⟩ = some none ∧
    sheetNull.GetPrintableSize = ⟨0, 0⟩ ∧
    (B2.row + 1 ≤ sheetPrint.GetPrintableSize.rows ∧
      B2.col + 1 ≤ sheetPrint.GetPrintableSize.cols) ∧
    ((∃ p, sheetPrint.occupied p ∧ sheetPrint.GetPrintableSize.rows = 1 + p.row ∧
        ∀ q, sheetPrint.occupied q → q.row ≤ p.row) ∧
      (∃ p, sheetPrint.occupied p ∧ sheetPrint.GetPrintableSize.cols = 1 + p.col ∧
        ∀ q, sheetPrint.occupied q → q.col ≤ p.col)) ∧
    (∀ p, (sheetAB.occupied p ↔ (sheetAB.cell p).isSome = true) ∧
        (sheetAB.occupied p → demo.IsValid p = true)) := by
  have hB2 : sheetPrint.occupied B2 :=
    ⟨⟨.FormulaImpl ⟨"C1", [C1]⟩ none, [C1], []⟩, by decide⟩
  have hC1 : sheetPrint.occupied C1 := ⟨⟨.EmptyImpl, [], [B2]⟩, by decide⟩
  have hnn : ∀ p, sheetPrint.occupied p → 0 ≤ p.row ∧ 0 ≤ p.col := by
    rintro p ⟨c, hc⟩
    simp only [sheetPrint, List.mem_cons, Prod.mk.injEq, List.mem_singleton, and_false,
      or_false, reduceCtorEq, List.not_mem_nil] at hc
    rcases hc with ⟨e, _⟩ | ⟨e, _⟩ | ⟨e, _⟩ <;> subst e <;> decide
  exact ⟨by decide, hB2, hC1, by decide, by decide, by decide,
    (C15_printable_size_is_bounding_box sheetPrint).1 B2 hB2,
    (C15_printable_size_is_bounding_box sheetPrint).2.2.2.2.1 ⟨B2, hB2⟩ hnn,
    (C15_printable_size_is_bounding_box sheetAB).2.2.2.2.2 demo
      [.SetCell A1 "=B1", .SetCell B1 "=A1"] (by decide)⟩

/-- C16: `PrintTexts` appends to the stream exactly the print format: for the printable size
of R rows and C columns, R lines in row order, line i being the C strings t(i,0), ...,
t(i,C-1) joined by a single tab and followed by a newline, where t(i,j) is the stored text of
the cell at (i,j), and the empty string when the position has no slot, has a null slot after
`ClearCell`, or holds a cell with Empty content; the empty sheet prints the empty string. -/
theorem C16_print_texts_format (s : Sheet) :
    (∀ output : String, s.PrintTexts output = output ++ PrintTexts.expected s) ∧
    s.PrintTexts "" = String.join ((List.range s.GetPrintableSize.rows.toNat).map (fun i =>
      String.intercalate "\t"
        ((List.range s.GetPrintableSize.cols.toNat).map (PrintTexts.text s i)) ++ "\n")) ∧
    (∀ i j : Nat, PrintTexts.text s i j = ((Cell.GetText s ⟨i, j⟩).getD "") ∧
      (s.slot ⟨i, j⟩ = none → PrintTexts.text s i j = "") ∧
      (s.slot ⟨i, j⟩ = some none → PrintTexts.text s i j = "") ∧
      (s.implAt ⟨i, j⟩ = some .EmptyImpl → PrintTexts.text s i j = "")) ∧
    Sheet.empty.PrintTexts "" = "" := by
  have h1 : ∀ output : String, s.PrintTexts output = output ++ PrintTexts.expected s := by
    intro output
    unfold Sheet.PrintTexts PrintTexts.expected
    exact PrintTexts.rows_eq s _ output _
  refine ⟨h1, ?_, ?_, by decide⟩
  · rw [h1 ""]
    simp [PrintTexts.expected]
  · intro i j
    refine ⟨?_, ?_, ?_, ?_⟩
    · unfold PrintTexts.text Cell.GetText
      cases s.cell ⟨i, j⟩ <;> rfl
    · intro h
      simp [PrintTexts.text, Sheet.cell, h]
    · intro h
      simp [PrintTexts.text, Sheet.cell, h]
    · intro h
      unfold Sheet.implAt at h
      unfold PrintTexts.text
      cases hc : s.cell ⟨i, j⟩ with
      | none => rfl
      | some c =>
        simp only [hc, Option.map_some', Option.some.injEq] at h
        simp [h, Impl.GetText]

theorem C16_print_texts_format_witness :
    sheetPrint.GetPrintableSize = ⟨2, 3⟩ ∧
    sheetPrint.PrintTexts "" = "x\t\t\n\t=C1\t\n" ∧
    sheetPrint.PrintTexts "" = String.join ((List.range 2).map (fun i =>
      String.intercalate "\t" ((List.range 3).map (PrintTexts.text sheetPrint i)) ++ "\n")) ∧
    sheetPrint.implAt ⟨(0 : Nat), (2 : Nat)⟩ = some .EmptyImpl ∧
    PrintTexts.text sheetPrint 0 2 = "" :=
  ⟨by decide, by decide, (C16_print_texts_format sheetPrint).2.1, by decide,
    ((C16_print_texts_format sheetPrint).2.2.1 0 2).2.2.2 (by decide)⟩

/-! ## The claims about the invalidation sweep and about termination -/

/-- C18: in every state that `SetCell` calls, with reads in between, build from the empty
sheet, the invalidation sweep `ClearCacheRec` from a cell returns, and a second sweep from
the same cell returns exactly the sheet the first one left.  The first sweep changes nothing
except cached values: it keeps the edges, the texts and the referenced positions of every
cell, leaves every slot outside the transitive dependents of the start cell as it was, and
leaves the cells in them without a cached value. -/
theorem C18_idempotent_invalidation (ext : External) (calls : List Call) (s : Sheet)
    (self : Position) (hk : ∀ c ∈ calls, c.isSetOrGet = true)
    (hrun : run ext calls Sheet.empty = some s) (hself : (s.cell self).isSome = true) :
    ∃ s1, Cell.ClearCacheRec (ClearCacheRec.fuel s) self s = .ok s1 ∧
      Cell.ClearCacheRec (ClearCacheRec.fuel s1) self s1 = .ok s1 ∧
      (∀ fuel, s.cells_.length < fuel →
        Cell.ClearCacheRec fuel self s = .ok s1 ∧ Cell.ClearCacheRec fuel self s1 = .ok s1) ∧
      (∀ q, s1.parentsAt q = s.parentsAt q ∧ s1.childrenAt q = s.childrenAt q ∧
        Cell.GetText s1 q = Cell.GetText s q ∧ s1.refsAt q = s.refsAt q ∧
        (s1.implAt q = s.implAt q ∨ s1.implAt q = (s.implAt q).map Impl.ClearCache)) ∧
      (∀ q, Relation.ReflTransGen s.dependent self q → s1.cacheAt q = none) ∧
      (∀ q, ¬ Relation.ReflTransGen s.dependent self q → s1.slot q = s.slot q) := by
  obtain ⟨s0, h0, hc⟩ := run_consistent ext calls Sheet.empty hk (Consistent_empty ext)
  rw [hrun] at h0
  simp only [Option.some.injEq] at h0
  subst h0
  obtain ⟨s1, hsw, hf⟩ := ClearCacheRec_twice s self (fun p q hq => hc.children_live p q hq)
    hc.dependent_acyclic hself
  have h1 := (hf (ClearCacheRec.fuel s) (by simp [ClearCacheRec.fuel])).1
  have hlen : s1.cells_.length = s.cells_.length := by
    have hkeys := ClearCacheRec_keys _ _ _ _ h1
    have := congrArg List.length hkeys
    simpa [Sheet.keys] using this
  refine ⟨s1, h1, ?_, hf, ?_, ?_, ?_⟩
  · exact (hf (ClearCacheRec.fuel s1) (by simp [ClearCacheRec.fuel, hlen])).2
  · intro q
    refine ⟨hsw.parentsAt q, hsw.childrenAt q, ?_, hsw.refsAt q, hsw.implAt_cases q⟩
    unfold Cell.GetText
    rcases hsw.cell q with e | e <;> rw [e]
    cases s.cell q with
    | none => rfl
    | some d =>
      simp only [Option.map_some', Option.some.injEq, clearCell]
      cases d.impl_ <;> rfl
  · intro q hq
    rw [Sheet.cacheAt_eq, hsw.implAt_this q hq]
    cases s.implAt q with
    | none => rfl
    | some i => exact Impl.cache_ClearCache i
  · intro q hq
    exact hsw.miss q hq

theorem C18_idempotent_invalidation_witness :
    (∀ c ∈ chainCalls, c.isSetOrGet = true) ∧ run demo chainCalls Sheet.empty = some sheetChain ∧
    (sheetChain.cell A1).isSome = true ∧ sheetChain.cacheAt C1 = some (.number 7) ∧
    Cell.ClearCacheRec (ClearCacheRec.fuel sheetChain) A1 sheetChain = .ok sheetChainSwept ∧
    Cell.ClearCacheRec (ClearCacheRec.fuel sheetChainSwept) A1 sheetChainSwept
      = .ok sheetChainSwept ∧
    ∃ s1, Cell.ClearCacheRec (ClearCacheRec.fuel sheetChain) A1 sheetChain = .ok s1 ∧
      Cell.ClearCacheRec (ClearCacheRec.fuel s1) A1 s1 = .ok s1 :=
  ⟨by decide, by decide, by decide, by decide, by decide, by decide,
    (C18_idempotent_invalidation demo chainCalls sheetChain A1 (by decide) (by decide)
      (by decide)).imp (fun _ h => ⟨h.1, h.2.1⟩)⟩

/-- C19: the cycle search comes to an end on every sheet, for every cell and every candidate
content, also when the reference graph of the sheet has cycles, diamonds or references to
positions without a cell: the stack loop of `CheckCycles` ends within the number of
iterations `CheckCycles.fuel` computes from the sheet and the initial stack, for every
initial stack and every set of visited cells, and a larger bound on the iterations gives the
same result. -/
theorem C19_cycle_search_terminates (ext : External) (s : Sheet) (self : Position)
    (impl : Impl) :
    Cell.CheckCycles ext s self impl ≠ .diverged ∧
    (∀ (st visited : List (Option Position)) (fuel : Nat),
      CheckCycles.potential s visited st < fuel →
      CheckCycles.loop ext s self fuel st visited ≠ .diverged ∧
      ∀ fuel2, fuel ≤ fuel2 → CheckCycles.loop ext s self fuel2 st visited =
        CheckCycles.loop ext s self fuel st visited) ∧
    (∀ (st : List (Option Position)) (fuel : Nat), CheckCycles.fuel s st ≤ fuel →
      CheckCycles.loop ext s self fuel st [] ≠ .diverged ∧
      CheckCycles.loop ext s self fuel st [] =
        CheckCycles.loop ext s self (CheckCycles.fuel s st) st []) := by
  refine ⟨CheckCycles_ne_diverged ext s self impl, ?_, ?_⟩
  · intro st visited fuel hp
    have h := loop_ne_diverged ext s self fuel st visited hp
    exact ⟨h, fun fuel2 hle => loop_fuel_mono ext s self fuel fuel2 st visited hle h⟩
  · intro st fuel hle
    have h := loop_ne_diverged ext s self _ st [] (potential_lt_fuel s st)
    have e := loop_fuel_mono ext s self _ fuel st [] hle h
    rw [e]
    exact ⟨h, rfl⟩

theorem C19_cycle_search_terminates_witness :
    sheetLoop.refsAt A1 = [B1] ∧ sheetLoop.refsAt B1 = [A1, A1, C1] ∧ sheetLoop.cell C1 = none ∧
    Cell.CheckCycles demo sheetLoop B2 (.FormulaImpl ⟨"A1+B1", [A1, B1]⟩ none) = .ok false ∧
    Cell.CheckCycles demo sheetLoop A1 (.FormulaImpl ⟨"A1+B1", [A1, B1]⟩ none) = .ok true ∧
    CheckCycles.fuel sheetLoop [some B1, some A1] ≤ 5000 ∧
    (CheckCycles.loop demo sheetLoop B2 5000 [some B1, some A1] [] ≠ .diverged ∧
      CheckCycles.loop demo sheetLoop B2 5000 [some B1, some A1] [] =
        CheckCycles.loop demo sheetLoop B2 (CheckCycles.fuel sheetLoop [some B1, some A1])
          [some B1, some A1] []) :=
  ⟨by decide, by decide, by decide, by decide, by decide, by decide,
    (C19_cycle_search_terminates demo sheetLoop B2 .EmptyImpl).2.2 [some B1, some A1] 5000
      (by decide)⟩

/-- C20: every sequence of `SetCell` calls, with reads in between, runs through from the empty
sheet, and in the state it builds the invalidation sweep `ClearCacheRec` returns from every
cell, within a recursion depth of the number of slots and with the same result for every
larger bound; `Cell::Set` on every cell and `SetCell` on every position, with every text,
come back, by a normal return or by an exception, and leave a state of the same kind. -/
theorem C20_invalidation_terminates (ext : External) (calls : List Call)
    (hk : ∀ c ∈ calls, c.isSetOrGet = true) :
    ∃ s, run ext calls Sheet.empty = some s ∧
      (∀ self, (s.cell self).isSome = true →
        ∃ s1, ∀ fuel, s.cells_.length < fuel → Cell.ClearCacheRec fuel self s = .ok s1) ∧
      (∀ self text, (s.cell self).isSome = true →
        ∃ s', (Cell.Set ext self text s).state? = some s' ∧ s'.Consistent ext) ∧
      (∀ pos text, ∃ s', (Sheet.SetCell ext pos text s).state? = some s' ∧
        s'.Consistent ext) := by
  obtain ⟨s, hrun, hc⟩ := run_consistent ext calls Sheet.empty hk (Consistent_empty ext)
  refine ⟨s, hrun, ?_, ?_, ?_⟩
  · intro self hself
    obtain ⟨s1, _, hf⟩ := ClearCacheRec_twice s self (fun p q hq => hc.children_live p q hq)
      hc.dependent_acyclic hself
    exact ⟨s1, fun fuel h => (hf fuel h).1⟩
  · intro self text hself
    exact SetWith_consistent ext 0 self text s hc hself
  · intro pos text
    exact SetCell_consistent ext pos text s hc

theorem C20_invalidation_terminates_witness :
    (∀ c ∈ chainCalls, c.isSetOrGet = true) ∧ run demo chainCalls Sheet.empty = some sheetChain ∧
    Cell.ClearCacheRec (ClearCacheRec.fuel sheetChain) A1 sheetChain = .ok sheetChainSwept ∧
    Cell.Set demo A1 "2" sheetChain = .ok sheetChain2 ∧
    ∃ s, run demo chainCalls Sheet.empty = some s ∧
      ∀ pos text, ∃ s', (Sheet.SetCell demo pos text s).state? = some s' ∧
        s'.Consistent demo :=
  ⟨by decide, by decide, by decide, by decide,
    (C20_invalidation_terminates demo chainCalls (by decide)).imp
      (fun _ h => ⟨h.1, h.2.2.2⟩)⟩

end Spreadsheet
